import Mathlib

/-!
# SpaceFillingTree (`src/utils/SpaceFillingTree.h`)

A shallow embedding of `cura::SpaceFillingTree` and a verification of its
construction, pruning and traversal.

* Construction (`Node::addChild`) rewires raw `Node*` pointers, including the
  non-owning `parent` back-pointer, so it is embedded over an explicit heap of
  node records addressed by index (`Heap`, `Node`), with explicit state passing.
* `Node::prune`, `Node::walk` never read `parent`; they only follow the owned
  `children` pointers.  They are embedded over the ownership tree (`Tree`), which
  `toTree` reads off the heap once construction has finished.
* `coord_t` and `int` are embedded as `Int`; `/` on `coord_t` is C++ truncating
  division (`Int.tdiv`).  Signed overflow is undefined behaviour in the source and
  is not modelled.
-/

set_option autoImplicit false

namespace SpaceFillingTree

/-! ## Data model -/

/-- The integer point type `Point` (`X`, `Y` of type `coord_t`). -/
structure Point where
  X : Int
  Y : Int
deriving DecidableEq, Repr

/-- Componentwise `Point + Point`. -/
def Point.add (a b : Point) : Point := ⟨a.X + b.X, a.Y + b.Y⟩

instance : Add Point := ⟨Point.add⟩

/-- The constant `Direction::LU`. -/
abbrev LU : Nat := 0
/-- The constant `Direction::RU`. -/
abbrev RU : Nat := 1
/-- The constant `Direction::RD`. -/
abbrev RD : Nat := 2
/-- The constant `Direction::LD`. -/
abbrev LD : Nat := 3
/-- The constant `Direction::DIRECTION_COUNT`. -/
abbrev DIRECTION_COUNT : Nat := 4

/-- A heap cell for `class Node`; pointers are heap indices, `none` is `nullptr`.
Only the slots `0..3` of `children` are ever read or written. -/
structure Node where
  parent : Option Nat
  depth : Int
  middle : Point
  parent_to_here_direction : Nat
  children : Nat → Option Nat

/-- The constructor `Node(parent, depth, middle, parent_to_here_direction)`: all four
child slots start as `nullptr`. -/
def Node.init (parent : Option Nat) (depth : Int) (middle : Point)
    (parent_to_here_direction : Nat) : Node :=
  { parent := parent, depth := depth, middle := middle,
    parent_to_here_direction := parent_to_here_direction, children := fun _ => none }

/-- The assignment `node.children[k] = v`. -/
def Node.setChild (n : Node) (k : Nat) (v : Option Nat) : Node :=
  { n with children := fun j => if j = k then v else n.children j }

/-- The assignment `node.parent = v`. -/
def Node.setParent (n : Node) (v : Option Nat) : Node :=
  { n with parent := v }

/-- The store of all `Node` objects: `cells[i]` is the object at address `i`, and
`new Node` allocates at the end. -/
structure Heap where
  cells : List Node

/-- The next free address. -/
def Heap.size (h : Heap) : Nat := h.cells.length

/-- The object at address `i` (a dummy node outside the allocated range, which the
source never dereferences). -/
def Heap.node (h : Heap) (i : Nat) : Node :=
  h.cells.getD i (Node.init none 0 ⟨0, 0⟩ 0)

/-- Overwrite the cell at address `i`. -/
def Heap.set (h : Heap) (i : Nat) (n : Node) : Heap :=
  { cells := h.cells.set i n }

/-- The allocation `new Node(...)`: the new object lives at address `h.size`. -/
def Heap.alloc (h : Heap) (n : Node) : Heap :=
  { cells := h.cells ++ [n] }

/-- The ownership tree below a `Node*`: `null` is `nullptr`, and `node` carries the fields
`depth`, `middle`, `parent_to_here_direction` and the owned `children[0..3]`. -/
inductive Tree where
  | null : Tree
  | node (depth : Int) (middle : Point) (parent_to_here_direction : Nat)
      (c0 c1 c2 c3 : Tree) : Tree
deriving DecidableEq, Repr

/-- The test `ptr == nullptr`. -/
def Tree.isNull : Tree → Bool
  | .null => true
  | .node .. => false

/-- The slot `children[k]` of an owned node (`null` below a null pointer). -/
def Tree.child : Tree → Nat → Tree
  | .null, _ => .null
  | .node _ _ _ c0 _ _ _, 0 => c0
  | .node _ _ _ _ c1 _ _, 1 => c1
  | .node _ _ _ _ _ c2 _, 2 => c2
  | .node _ _ _ _ _ _ c3, _ => c3

/-! ## `Node::addChild` and the constructor -/

/-- The offset `child_middle_offset` of `addChild`: `Point(child_offset, child_offset)`
with `Y` negated for `LD`, `RD` and `X` negated for `LD`, `LU`. -/
def childMiddleOffset (direction : Nat) (child_offset : Int) : Point :=
  let Y := if direction = LD ∨ direction = RD then child_offset * -1 else child_offset
  let X := if direction = LD ∨ direction = LU then child_offset * -1 else child_offset
  ⟨X, Y⟩

/-- The pointer surgery of `addChild` (lines 134-168): allocate `new_node` at address
`h.size` and link it either between `parent` and `this` (the reorder branch, taken when
`parent && direction == (parent_to_here_direction + 2) % DIRECTION_COUNT`) or below
`this`, above any child already held in slot `direction`. -/
def attach (h : Heap) (this : Nat) (direction : Nat) (child_offset : Int) : Heap :=
  let t := h.node this
  let child_middle := t.middle + childMiddleOffset direction child_offset
  let new_node := h.size
  match t.parent,
    decide (direction = (t.parent_to_here_direction + 2) % DIRECTION_COUNT) with
  | some parent, true =>
    let n := Node.init (some parent) (t.depth - 1) child_middle t.parent_to_here_direction
    let n := n.setChild t.parent_to_here_direction (some this)
    let h := h.alloc n
    let h := h.set parent ((h.node parent).setChild t.parent_to_here_direction (some new_node))
    h.set this ((h.node this).setParent (some new_node))
  | _, _ =>
    let n := Node.init (some this) (t.depth - 1) child_middle direction
    let n := match t.children direction with
      | some c => n.setChild direction (some c)
      | none => n
    let h := h.alloc n
    h.set this ((h.node this).setChild direction (some new_node))

/-- The method `Node::addChild(direction, child_offset)` called on the node at address
`this`.  The recursion of the source is bounded by `depth`; here it is bounded by `fuel`,
and `none` means the fuel ran out. -/
def addChild : Nat → Heap → Nat → Nat → Int → Option Heap
  | 0, _, _, _, _ => none
  | fuel + 1, h, this, direction, child_offset =>
    let new_node := h.size
    let h1 := attach h this direction child_offset
    if (h1.node this).depth ≤ 0 then
      some h1
    else
      (addChild fuel h1 new_node 0 (child_offset.tdiv 2)).bind fun h2 =>
      (addChild fuel h2 new_node 1 (child_offset.tdiv 2)).bind fun h3 =>
      (addChild fuel h3 new_node 2 (child_offset.tdiv 2)).bind fun h4 =>
      addChild fuel h4 new_node 3 (child_offset.tdiv 2)

/-- The root of `getRoot(middle, depth)`: no parent, direction `DIRECTION_COUNT`. The heap
holds just this node, at address `0`. -/
def getRoot (middle : Point) (depth : Int) : Heap :=
  { cells := [Node.init none depth middle DIRECTION_COUNT] }

/-- The heap after the four `root.addChild(dir, first_offset)` calls of the
constructor, before `root.prune()`. -/
def build (middle : Point) (radius : Int) (depth : Int) : Option Heap :=
  let first_offset := radius.tdiv 2
  let fuel := depth.toNat + 1
  (addChild fuel (getRoot middle depth) 0 0 first_offset).bind fun h1 =>
  (addChild fuel h1 0 1 first_offset).bind fun h2 =>
  (addChild fuel h2 0 2 first_offset).bind fun h3 =>
  addChild fuel h3 0 3 first_offset

/-- The ownership tree hanging off a `Node*`, read by following `children`; `none` when
`fuel` does not suffice to reach the leaves. -/
def toTree : Nat → Heap → Option Nat → Option Tree
  | _, _, none => some .null
  | 0, _, some _ => none
  | fuel + 1, h, some i =>
    let n := h.node i
    (toTree fuel h (n.children 0)).bind fun c0 =>
    (toTree fuel h (n.children 1)).bind fun c1 =>
    (toTree fuel h (n.children 2)).bind fun c2 =>
    (toTree fuel h (n.children 3)).bind fun c3 =>
    some (.node n.depth n.middle n.parent_to_here_direction c0 c1 c2 c3)

/-- The tree owned by `root` after the four `addChild` calls of the constructor. -/
def buildTree (middle : Point) (radius : Int) (depth : Int) : Option Tree :=
  (build middle radius depth).bind fun h => toTree h.size h (some 0)

/-! ## `Node::prune` -/

/-- The test `front && !left && !right` of `prune` on `child = children[child_dir]`. -/
def passThrough (child_dir : Nat) (child : Tree) : Bool :=
  let right := child.child ((child_dir + 1) % DIRECTION_COUNT)
  let front := child.child child_dir
  let left := child.child ((child_dir + 3) % DIRECTION_COUNT)
  !front.isNull && left.isNull && right.isNull

/-- The method `Node::prune()`.  Each of the four slots is handled by the loop body at
that `child_dir`: an empty slot is skipped; a child with a front child and neither a left
nor a right child is replaced by that front child; whatever then occupies the slot is
pruned recursively (`kept` is the recursive call on a child that stays). -/
def prune : Tree → Tree
  | .null => .null
  | .node depth middle pth c0 c1 c2 c3 =>
    .node depth middle pth
      (let kept := prune c0
       match c0 with
        | .null => .null
        | .node _ _ _ front right _ left =>
          if !front.isNull && left.isNull && right.isNull then prune front else kept)
      (let kept := prune c1
       match c1 with
        | .null => .null
        | .node _ _ _ left front right _ =>
          if !front.isNull && left.isNull && right.isNull then prune front else kept)
      (let kept := prune c2
       match c2 with
        | .null => .null
        | .node _ _ _ _ left front right =>
          if !front.isNull && left.isNull && right.isNull then prune front else kept)
      (let kept := prune c3
       match c3 with
        | .null => .null
        | .node _ _ _ right _ left front =>
          if !front.isNull && left.isNull && right.isNull then prune front else kept)
termination_by structural t => t

/-- The constructor `SpaceFillingTree(middle, radius, depth)`: the tree owned by `root`
after `root.prune()`. -/
def construct (middle : Point) (radius : Int) (depth : Int) : Option Tree :=
  (buildTree middle radius depth).map prune

/-! ## `Node::walk` -/

/-- The method `Node::walk(visitor)`.  The visitor is a state `σ` with a `visit`
operation; `walk` threads the state through the calls in source order. -/
def walk {σ : Type} (visit : Point → σ → σ) : Tree → σ → σ
  | .null, s => s
  | .node _ middle pth c0 c1 c2 c3, s =>
    let body (s : σ) (dir_offset : Nat) : σ :=
      match (pth + dir_offset + 2) % DIRECTION_COUNT with
      | 0 => if c0.isNull then s else visit middle (walk visit c0 s)
      | 1 => if c1.isNull then s else visit middle (walk visit c1 s)
      | 2 => if c2.isNull then s else visit middle (walk visit c2 s)
      | _ => if c3.isNull then s else visit middle (walk visit c3 s)
    [0, 1, 2, 3].foldl body (visit middle s)

/-- The sequence of positions a recording visitor receives from `walk`. -/
def walkSeq (t : Tree) : List Point :=
  walk (fun p s => s ++ [p]) t []

/-! ## A closed form for the constructed tree

`slotSpec` describes, as a pure function, what a child slot holds once `addChild` has
returned; `buildTree_eq` further down proves that the heap program computes it. -/

/-- The owned node with fields `depth`, `middle`, `parent_to_here_direction` and
`children[k] = f k`. -/
def Tree.ofSlots (depth : Int) (middle : Point) (pth : Nat) (f : Nat → Tree) : Tree :=
  .node depth middle pth (f 0) (f 1) (f 2) (f 3)

/-- What sits in a slot of direction `D` after a node `N` with `depth = n - 1` and position
`m` has been linked there above the earlier content `below`, and (when `n > 0`) the four
calls `N.addChild(k, o)` have returned: `N` keeps `below` (under the nodes added in front
of it) in slot `D`, gets fresh subtrees in the two side slots, and the node added in the
direction opposite to `D` ends up above `N`. -/
def slotSpec : Nat → Point → Nat → Int → Tree → Tree
  | 0, m, D, _, below => Tree.ofSlots (-1) m D (fun k => if k = D then below else .null)
  | n + 1, m, D, o, below =>
    slotSpec n (m + childMiddleOffset ((D + 2) % DIRECTION_COUNT) o) D (o.tdiv 2)
      (Tree.ofSlots n m D (fun k =>
        if k = (D + 2) % DIRECTION_COUNT then .null
        else slotSpec n (m + childMiddleOffset k o) k (o.tdiv 2)
          (if k = D then below else .null)))

/-- The closed form of the tree owned by `root` before pruning. -/
def specTree (middle : Point) (radius : Int) (depth : Nat) : Tree :=
  Tree.ofSlots depth middle DIRECTION_COUNT (fun k =>
    slotSpec depth (middle + childMiddleOffset k (radius.tdiv 2)) k
      ((radius.tdiv 2).tdiv 2) .null)

/-- The node `new_node` of the ordinary branch. -/
def newBelow (h : Heap) (this direction : Nat) (child_offset : Int) : Node :=
  { parent := some this
    depth := (h.node this).depth - 1
    middle := (h.node this).middle + childMiddleOffset direction child_offset
    parent_to_here_direction := direction
    children := fun k => if k = direction then (h.node this).children direction else none }

/-- The node `new_node` of the reorder branch. -/
def newAbove (h : Heap) (this direction : Nat) (child_offset : Int) (parent : Nat) : Node :=
  { parent := some parent
    depth := (h.node this).depth - 1
    middle := (h.node this).middle + childMiddleOffset direction child_offset
    parent_to_here_direction := (h.node this).parent_to_here_direction
    children := fun k => if k = (h.node this).parent_to_here_direction then some this else none }

/-- The relation `ReprH h lo hi hole B i t` says that following `children` from pointer `i`
in heap `h` reads the tree `t`, where every node read lies at an address in `[lo, hi)`,
except that the pointer `hole` is not followed and stands for the tree `B`. -/
inductive ReprH (h : Heap) (lo hi : Nat) (hole : Option Nat) (B : Tree) :
    Option Nat → Tree → Prop
  | null : ReprH h lo hi hole B none .null
  | stop (b : Nat) : hole = some b → ReprH h lo hi hole B (some b) B
  | node (j : Nat) (f : Nat → Tree) : lo ≤ j → j < hi →
      (∀ k, k < 4 → ReprH h lo hi hole B ((h.node j).children k) (f k)) →
      ReprH h lo hi hole B (some j)
        (Tree.ofSlots (h.node j).depth (h.node j).middle (h.node j).parent_to_here_direction f)

/-- Height of a tree, counted in nodes. -/
def Tree.height : Tree → Nat
  | .null => 0
  | .node _ _ _ c0 c1 c2 c3 => 1 + max (max c0.height c1.height) (max c2.height c3.height)

/-- Number of nodes one `addChild` call allocates on a node of depth `n`. -/
def cnt : Nat → Nat
  | 0 => 1
  | n + 1 => 1 + 4 * cnt n

/-- The loop of `addChild` (lines 174-177) on `new_node`. -/
def addChildren (fuel : Nat) (h : Heap) (new_node : Nat) (o : Int) : Option Heap :=
  (addChild fuel h new_node 0 o).bind fun h2 =>
  (addChild fuel h2 new_node 1 o).bind fun h3 =>
  (addChild fuel h3 new_node 2 o).bind fun h4 =>
  addChild fuel h4 new_node 3 o

/-- Effect of `this.addChild(direction, o)` in the ordinary branch, for `this.depth = n`. -/
def OrdPost (n : Nat) : Prop :=
  ∀ (fuel : Nat) (h : Heap) (this direction : Nat) (o : Int),
    n < fuel → (h.node this).depth = n → this < h.size → direction < 4 →
    ((h.node this).parent = none ∨
      direction ≠ ((h.node this).parent_to_here_direction + 2) % DIRECTION_COUNT) →
    ∃ h' top, addChild fuel h this direction o = some h' ∧
      h'.size = h.size + cnt n ∧
      (∀ j, j < h.size → j ≠ this → h'.node j = h.node j) ∧
      h'.node this = (h.node this).setChild direction (some top) ∧
      ∀ B, ((h.node this).children direction = none → B = .null) →
        ReprH h' h.size h'.size ((h.node this).children direction) B (some top)
          (slotSpec n ((h.node this).middle + childMiddleOffset direction o) direction
            (o.tdiv 2) B)

/-- Effect of `this.addChild(direction, o)` in the reorder branch, for `this.depth = n`. -/
def SplicePost (n : Nat) : Prop :=
  ∀ (fuel : Nat) (h : Heap) (this direction : Nat) (o : Int) (p : Nat),
    n < fuel → (h.node this).depth = n → this < h.size → p < h.size → p ≠ this →
    (h.node this).parent = some p →
    direction = ((h.node this).parent_to_here_direction + 2) % DIRECTION_COUNT →
    (h.node this).parent_to_here_direction < 4 →
    ∃ h' top, addChild fuel h this direction o = some h' ∧
      h'.size = h.size + cnt n ∧
      (∀ j, j < h.size → j ≠ this → j ≠ p → h'.node j = h.node j) ∧
      h'.node this = (h.node this).setParent (some h.size) ∧
      h'.node p = (h.node p).setChild (h.node this).parent_to_here_direction (some top) ∧
      ∀ B, ReprH h' h.size h'.size (some this) B (some top)
          (slotSpec n ((h.node this).middle + childMiddleOffset direction o)
            (h.node this).parent_to_here_direction (o.tdiv 2) B)

/-- State of the heap after the first `k` iterations of the loop
`new_node->addChild(child_dir, o)` on the node at address `ν`, started in heap `h`. -/
structure LoopInv (n : Nat) (h : Heap) (ν q D : Nat) (m : Point) (o : Int)
    (hole : Option Nat) (k : Nat) (hk : Heap) : Prop where
  size : hk.size = h.size + k * cnt n
  frame : ∀ j, j < ν → j ≠ q → hk.node j = h.node j
  depth : (hk.node ν).depth = n
  middle : (hk.node ν).middle = m
  pth : (hk.node ν).parent_to_here_direction = D
  parent : k ≤ (D + 2) % DIRECTION_COUNT → (hk.node ν).parent = some q
  childDone : ∀ j, j < k → j ≠ (D + 2) % DIRECTION_COUNT →
    ∃ top, (hk.node ν).children j = some top ∧
      ∀ B, ((if j = D then hole else none) = none → B = .null) →
        ReprH hk (ν + 1) hk.size (if j = D then hole else none) B (some top)
          (slotSpec n (m + childMiddleOffset j o) j (o.tdiv 2) B)
  childTodo : ∀ j, (k ≤ j ∨ j = (D + 2) % DIRECTION_COUNT) →
    (hk.node ν).children j = if j = D then hole else none
  qTodo : k ≤ (D + 2) % DIRECTION_COUNT → hk.node q = h.node q
  qDone : (D + 2) % DIRECTION_COUNT < k →
    ∃ top, hk.node q = (h.node q).setChild D (some top) ∧
      ∀ B, ReprH hk (ν + 1) hk.size (some ν) B (some top)
        (slotSpec n (m + childMiddleOffset ((D + 2) % DIRECTION_COUNT) o) D (o.tdiv 2) B)

/-- State of the heap after the first `k` calls `root.addChild(dir, first_offset)`. -/
structure RootInv (d : Nat) (c : Point) (o : Int) (k : Nat) (hk : Heap) : Prop where
  size : hk.size = 1 + k * cnt d
  depth : (hk.node 0).depth = d
  middle : (hk.node 0).middle = c
  pth : (hk.node 0).parent_to_here_direction = DIRECTION_COUNT
  parent : (hk.node 0).parent = none
  childDone : ∀ j, j < k → ∃ top, (hk.node 0).children j = some top ∧
    ReprH hk 1 hk.size none .null (some top)
      (slotSpec d (c + childMiddleOffset j o) j (o.tdiv 2) .null)
  childTodo : ∀ j, k ≤ j → (hk.node 0).children j = none

/-! ## Vocabulary for stating properties of owned trees -/

/-- The field `depth` of an owned node. -/
def Tree.depth : Tree → Int
  | .null => 0
  | .node e _ _ _ _ _ _ => e

/-- The field `middle` of an owned node. -/
def Tree.middle : Tree → Point
  | .null => ⟨0, 0⟩
  | .node _ m _ _ _ _ _ => m

/-- The field `parent_to_here_direction` of an owned node. -/
def Tree.pth : Tree → Nat
  | .null => 0
  | .node _ _ p _ _ _ _ => p

/-- All nodes of a tree (each given as the subtree it owns), the root first. -/
def Tree.nodes : Tree → List Tree
  | .null => []
  | .node e m p c0 c1 c2 c3 =>
    .node e m p c0 c1 c2 c3 :: (c0.nodes ++ c1.nodes ++ c2.nodes ++ c3.nodes)

/-- All nodes of a tree except its root. -/
def Tree.properNodes (t : Tree) : List Tree :=
  (t.child 0).nodes ++ (t.child 1).nodes ++ (t.child 2).nodes ++ (t.child 3).nodes

/-- Number of occupied child slots of a node. -/
def Tree.numChildren (t : Tree) : Nat :=
  (if (t.child 0).isNull then 0 else 1) + (if (t.child 1).isNull then 0 else 1) +
  (if (t.child 2).isNull then 0 else 1) + (if (t.child 3).isNull then 0 else 1)

/-- Number of parent-child edges of a tree. -/
def Tree.edges : Tree → Nat
  | .null => 0
  | .node e m p c0 c1 c2 c3 =>
    (Tree.node e m p c0 c1 c2 c3).numChildren + c0.edges + c1.edges + c2.edges + c3.edges

/-- The node has no child in the direction opposite to its own incoming direction. -/
def Tree.noBackChild (t : Tree) : Prop :=
  (t.child ((t.pth + 2) % DIRECTION_COUNT)).isNull = true

/-- The sequence `walk` emits, written as the recursive description of the traversal:
the node's position, then for `dir_offset = 0, 1, 2, 3` the walk of the child in slot
`(parent_to_here_direction + dir_offset + 2) % 4` followed by the node's position again,
for the occupied slots only. -/
def walkList : Tree → List Point
  | .null => []
  | .node _ middle pth c0 c1 c2 c3 =>
    let seg (dir_offset : Nat) : List Point :=
      match (pth + dir_offset + 2) % DIRECTION_COUNT with
      | 0 => if c0.isNull then [] else walkList c0 ++ [middle]
      | 1 => if c1.isNull then [] else walkList c1 ++ [middle]
      | 2 => if c2.isNull then [] else walkList c2 ++ [middle]
      | _ => if c3.isNull then [] else walkList c3 ++ [middle]
    middle :: (seg 0 ++ seg 1 ++ seg 2 ++ seg 3)

/-- The loop body of `prune` for the slot `child_dir`, stated once for all four slots:
what `children[child_dir]` holds after the iteration, given what it held before. -/
def pruneSlot (child_dir : Nat) (child : Tree) : Tree :=
  if child.isNull then .null
  else if passThrough child_dir child then prune (child.child child_dir)
  else prune child

/-- The predicate `Linked dir t` says that the tree `t` can hang in slot `dir` of a parent:
its node (if any) records `dir` as incoming direction, has no child in the opposite
direction, and the same holds for each of its children in their slots. -/
def Linked : Nat → Tree → Prop
  | _, .null => True
  | dir, .node e m p c0 c1 c2 c3 =>
    p = dir ∧ ((Tree.node e m p c0 c1 c2 c3).child ((dir + 2) % DIRECTION_COUNT)).isNull = true ∧
    Linked 0 c0 ∧ Linked 1 c1 ∧ Linked 2 c2 ∧ Linked 3 c3

/-- The children of the root of `t` are linked in their slots. -/
def ChildrenLinked (t : Tree) : Prop :=
  Linked 0 (t.child 0) ∧ Linked 1 (t.child 1) ∧ Linked 2 (t.child 2) ∧ Linked 3 (t.child 3)

/-- The nodes that `prune` deletes (`delete child`), each as it is at that moment, in the
order of deletion; it follows the recursion of `prune`. -/
def pruneRemoved : Tree → List Tree
  | .null => []
  | .node _ _ _ c0 c1 c2 c3 =>
      (let kept := pruneRemoved c0
       match c0 with
        | .null => []
        | .node e m p front right back left =>
          if !front.isNull && left.isNull && right.isNull then
            .node e m p front right back left :: pruneRemoved front
          else kept) ++
      (let kept := pruneRemoved c1
       match c1 with
        | .null => []
        | .node e m p left front right back =>
          if !front.isNull && left.isNull && right.isNull then
            .node e m p left front right back :: pruneRemoved front
          else kept) ++
      (let kept := pruneRemoved c2
       match c2 with
        | .null => []
        | .node e m p back left front right =>
          if !front.isNull && left.isNull && right.isNull then
            .node e m p back left front right :: pruneRemoved front
          else kept) ++
      (let kept := pruneRemoved c3
       match c3 with
        | .null => []
        | .node e m p right back left front =>
          if !front.isNull && left.isNull && right.isNull then
            .node e m p right back left front :: pruneRemoved front
          else kept)
termination_by structural t => t

/-- The loop body of `pruneRemoved` for the slot `child_dir`. -/
def removedSlot (child_dir : Nat) (child : Tree) : List Tree :=
  if child.isNull then []
  else if passThrough child_dir child then child :: pruneRemoved (child.child child_dir)
  else pruneRemoved child

/-- Positions of the leaves (nodes without children) of a tree, in slot order. -/
def Tree.leafPositions : Tree → List Point
  | .null => []
  | .node _ m _ c0 c1 c2 c3 =>
    if c0.isNull && c1.isNull && c2.isNull && c3.isNull then [m]
    else c0.leafPositions ++ c1.leafPositions ++ c2.leafPositions ++ c3.leafPositions

/-- Length in edges of every root-to-leaf chain of a tree. -/
def Tree.leafDepths : Tree → List Nat
  | .null => []
  | .node _ _ _ c0 c1 c2 c3 =>
    if c0.isNull && c1.isNull && c2.isNull && c3.isNull then [0]
    else (c0.leafDepths ++ c1.leafDepths ++ c2.leafDepths ++ c3.leafDepths).map (· + 1)

/-- Two trees occupy the same child slots at every node. -/
def sameShape : Tree → Tree → Prop
  | .null, .null => True
  | .node _ _ _ a0 a1 a2 a3, .node _ _ _ b0 b1 b2 b3 =>
    sameShape a0 b0 ∧ sameShape a1 b1 ∧ sameShape a2 b2 ∧ sameShape a3 b3
  | _, _ => False

/-- Every `parent` pointer stored in the heap points to an allocated node. -/
def Heap.ParentsValid (h : Heap) : Prop :=
  ∀ j, j < h.size → ∀ p, (h.node j).parent = some p → p < h.size

/-- The fields of a node that no statement of the source assigns after construction. -/
def Node.sameFields (a b : Node) : Prop :=
  a.depth = b.depth ∧ a.middle = b.middle ∧
    a.parent_to_here_direction = b.parent_to_here_direction

/-! ## Further vocabulary -/

/-- A small heap for concrete instances: the root at `(0,0)` with depth `0`, and one child
at address `1` in slot `0`, attached with offset `50`. -/
def demoHeap : Heap := attach (getRoot ⟨0, 0⟩ 0) 0 0 50

/-- Every child pointer stored in the heap points to an allocated node, and the node held in
slot `k` of any node records `k` as its `parent_to_here_direction`. -/
def Heap.SlotConsistent (h : Heap) : Prop :=
  ∀ j k c, j < h.size → (h.node j).children k = some c →
    c < h.size ∧ (h.node c).parent_to_here_direction = k

/-- The predicate `Slotted dir t` says that the node of `t` (if any) records `dir` as its
incoming direction, and that each of its children does so for the slot that holds it, and
so on below. -/
def Slotted : Nat → Tree → Prop
  | _, .null => True
  | dir, .node _ _ p c0 c1 c2 c3 =>
    p = dir ∧ Slotted 0 c0 ∧ Slotted 1 c1 ∧ Slotted 2 c2 ∧ Slotted 3 c3

/-- Every node held in a child slot, anywhere in the tree `t`, records that slot as its
`parent_to_here_direction`. -/
def Tree.SlotsMatch (t : Tree) : Prop :=
  ∀ P ∈ t.nodes, ∀ k, k < 4 → (P.child k).isNull = false → (P.child k).pth = k


/-! ## The debug check -/

/-- The method `Node::debugCheck()` (called on the root by `SpaceFillingTree::debugCheck`):
for every occupied slot `child_dir` the assertion
`child->children[(child_dir + 2) % DIRECTION_COUNT] == nullptr`; the result is `true` when
no assertion fails. -/
def debugCheck : Tree → Bool
  | .null => true
  | .node _ _ _ c0 c1 c2 c3 =>
    let body (child_dir : Nat) (child : Tree) : Bool :=
      if child.isNull then true
      else (child.child ((child_dir + 2) % DIRECTION_COUNT)).isNull
    body 0 c0 && body 1 c1 && body 2 c2 && body 3 c3

/-- A tree that breaks the invariant two levels below the root: the root holds `A` in slot
`0`, `A` holds `B` in slot `1`, and `B` (incoming direction `1`) holds a child in slot `3`,
the direction opposite to its own. -/
def deepViolation : Tree :=
  .node 1 ⟨0, 0⟩ DIRECTION_COUNT
    (.node 0 ⟨-4, 4⟩ 0 .null
      (.node (-1) ⟨-2, 6⟩ 1 .null .null .null
        (.node (-2) ⟨-3, 5⟩ 3 .null .null .null .null))
      .null .null)
    .null .null .null

/-- In every slot other than the node's own incoming direction, an occupied slot holds a
node of smaller `depth`, and still does once `prune` has handled that slot. -/
def Tree.SideDepthsBelow (P : Tree) : Prop :=
  ∀ k, k < 4 → k ≠ P.pth → (P.child k).isNull = false →
    (P.child k).depth < P.depth ∧ (pruneSlot k (P.child k)).depth < P.depth

/-- After `prune` has handled the slots of a node, no slot holds a node that passes the
test `front && !left && !right`. -/
def Tree.Settled (C : Tree) : Prop :=
  ∀ D, D < 4 → (C.child D).isNull = false → passThrough D (pruneSlot D (C.child D)) = false

/-- One deletion performed by `prune`: the position of the node whose `prune()` is running
(`this->middle`), the slot `child_dir` it is handling, and the node `child` it deletes, as
that node is when the test `front && !left && !right` is made (`front` is its child in slot
`child_dir`). -/
structure PruneEvent where
  holder : Point
  child_dir : Nat
  removed : Tree

/-- The deletions `prune` performs, in order; the recursion is the one of `prune`. -/
def pruneEvents : Tree → List PruneEvent
  | .null => []
  | .node _ middle _ c0 c1 c2 c3 =>
      (let kept := pruneEvents c0
       match c0 with
        | .null => []
        | .node e m p front right back left =>
          if !front.isNull && left.isNull && right.isNull then
            ⟨middle, 0, .node e m p front right back left⟩ :: pruneEvents front
          else kept) ++
      (let kept := pruneEvents c1
       match c1 with
        | .null => []
        | .node e m p left front right back =>
          if !front.isNull && left.isNull && right.isNull then
            ⟨middle, 1, .node e m p left front right back⟩ :: pruneEvents front
          else kept) ++
      (let kept := pruneEvents c2
       match c2 with
        | .null => []
        | .node e m p back left front right =>
          if !front.isNull && left.isNull && right.isNull then
            ⟨middle, 2, .node e m p back left front right⟩ :: pruneEvents front
          else kept) ++
      (let kept := pruneEvents c3
       match c3 with
        | .null => []
        | .node e m p right back left front =>
          if !front.isNull && left.isNull && right.isNull then
            ⟨middle, 3, .node e m p right back left front⟩ :: pruneEvents front
          else kept)
termination_by structural t => t

/-- The loop body of `pruneEvents` for the slot `child_dir` of a node at `holder`. -/
def eventSlot (holder : Point) (child_dir : Nat) (child : Tree) : List PruneEvent :=
  if child.isNull then []
  else if passThrough child_dir child then
    ⟨holder, child_dir, child⟩ :: pruneEvents (child.child child_dir)
  else pruneEvents child

/-- The point `x` lies on the closed straight segment from `a` to `b`: the three points are
collinear and each coordinate of `x` is within the range of the endpoints. -/
def onSegment (a x b : Point) : Prop :=
  (x.X - a.X) * (b.Y - a.Y) = (x.Y - a.Y) * (b.X - a.X) ∧
  min a.X b.X ≤ x.X ∧ x.X ≤ max a.X b.X ∧ min a.Y b.Y ≤ x.Y ∧ x.Y ≤ max a.Y b.Y

instance (a x b : Point) : Decidable (onSegment a x b) := by
  unfold onSegment; infer_instance

/-- The tree `B` is empty, or its node lies at `m` moved by some `b ≥ lo` in direction
`D`. -/
def AheadOf (D : Nat) (lo : Int) (m : Point) (B : Tree) : Prop :=
  B.isNull = true ∨ ∃ b, lo ≤ b ∧ B.middle = m + childMiddleOffset D b

/-- Every pass-through child of the node lies on the segment from the node to that child's
front child. -/
def Tree.Straight (C : Tree) : Prop :=
  ∀ D, D < 4 → passThrough D (C.child D) = true →
    onSegment C.middle (C.child D).middle ((C.child D).child D).middle

/-- The node reached from `t` by following the child slots listed in the path. -/
def Tree.descend : Tree → List Nat → Tree
  | t, [] => t
  | t, k :: ks => (t.child k).descend ks

/-- The sequence of nodes on which `walk` calls `visitor.visit`, each node named by the
path of child slots that leads to it from the node `walk` is called on; the recursion is
the one of `walk`. -/
def walkPaths : Tree → List (List Nat)
  | .null => []
  | .node _ _ pth c0 c1 c2 c3 =>
    let seg (dir_offset : Nat) : List (List Nat) :=
      match (pth + dir_offset + 2) % DIRECTION_COUNT with
      | 0 => if c0.isNull then [] else (walkPaths c0).map (fun p => 0 :: p) ++ [[]]
      | 1 => if c1.isNull then [] else (walkPaths c1).map (fun p => 1 :: p) ++ [[]]
      | 2 => if c2.isNull then [] else (walkPaths c2).map (fun p => 2 :: p) ++ [[]]
      | _ => if c3.isNull then [] else (walkPaths c3).map (fun p => 3 :: p) ++ [[]]
    [] :: (seg 0 ++ seg 1 ++ seg 2 ++ seg 3)

/-- The pairs of neighbours of a list, in order. -/
def consecutive {α : Type} : List α → List (α × α)
  | a :: b :: l => (a, b) :: consecutive (b :: l)
  | _ => []

/-- The pair `(p, q)` of paths names a parent-child edge of `t`: `q` extends `p` by one
slot and leads to a node. -/
def Tree.IsEdge (t : Tree) (p q : List Nat) : Prop :=
  (∀ j ∈ q, j < 4) ∧ (∃ k, q = p ++ [k]) ∧ (t.descend q).isNull = false

/-- The part of `walkPaths` contributed by the child `c` held in slot `k`. -/
def pathSeg (k : Nat) (c : Tree) : List (List Nat) :=
  if c.isNull then [] else (walkPaths c).map (fun p => k :: p) ++ [[]]

/-- The steps of the walk contributed by the child `c` held in slot `k`: down to the
child, the steps inside the child, back up. -/
def stepSeg (k : Nat) (c : Tree) : List (List Nat × List Nat) :=
  if c.isNull then []
  else ([], [k]) :: (consecutive (walkPaths c)).map (fun s => (k :: s.1, k :: s.2)) ++
    [([k], [])]
/-! ## Heap lemmas -/

theorem Heap.size_alloc (h : Heap) (n : Node) : (h.alloc n).size = h.size + 1 := by
  simp [Heap.alloc, Heap.size]

theorem Heap.size_set (h : Heap) (i : Nat) (n : Node) : (h.set i n).size = h.size := by
  simp [Heap.set, Heap.size]

theorem Heap.node_alloc (h : Heap) (n : Node) (j : Nat) :
    (h.alloc n).node j = if j = h.size then n else h.node j := by
  unfold Heap.alloc Heap.node Heap.size
  simp only [List.getD_eq_getElem?_getD]
  by_cases hj : j = h.cells.length
  · subst hj; simp
  · rcases Nat.lt_or_gt_of_ne hj with hlt | hgt
    · simp [hj, List.getElem?_append_left hlt]
    · have h1 : h.cells.length ≤ j := Nat.le_of_lt hgt
      have h2 : (h.cells ++ [n])[j]? = none := by
        apply List.getElem?_eq_none; simp; omega
      have h3 : h.cells[j]? = none := List.getElem?_eq_none h1
      simp [hj, h2, h3]

theorem Heap.node_set (h : Heap) (i : Nat) (n : Node) (j : Nat) (hi : i < h.size) :
    (h.set i n).node j = if j = i then n else h.node j := by
  unfold Heap.set Heap.node
  unfold Heap.size at hi
  simp only [List.getD_eq_getElem?_getD]
  by_cases hj : j = i
  · subst hj; simp [hi]
  · have : i ≠ j := fun e => hj e.symm
    simp [hj, List.getElem?_set_ne this]

theorem Node.setChild_setChild (n : Node) (k : Nat) (a b : Option Nat) :
    (n.setChild k a).setChild k b = n.setChild k b := by
  unfold Node.setChild
  congr 1
  funext j
  by_cases hj : j = k <;> simp [hj]

/-! ## The two branches of `attach` -/

theorem attach_below (h : Heap) (this direction : Nat) (child_offset : Int)
    (hthis : this < h.size)
    (hord : (h.node this).parent = none ∨
      direction ≠ ((h.node this).parent_to_here_direction + 2) % DIRECTION_COUNT) :
    (attach h this direction child_offset).size = h.size + 1 ∧
    ∀ j, (attach h this direction child_offset).node j =
      if j = this then (h.node this).setChild direction (some h.size)
      else if j = h.size then newBelow h this direction child_offset
      else h.node j := by
  have hnew : (match (h.node this).children direction with
      | some c => (Node.init (some this) ((h.node this).depth - 1)
          ((h.node this).middle + childMiddleOffset direction child_offset)
          direction).setChild direction (some c)
      | none => Node.init (some this) ((h.node this).depth - 1)
          ((h.node this).middle + childMiddleOffset direction child_offset) direction)
      = newBelow h this direction child_offset := by
    unfold newBelow Node.init Node.setChild
    cases hc : (h.node this).children direction with
    | none => simp
    | some c => simp
  have hne : this ≠ h.size := Nat.ne_of_lt hthis
  have key : attach h this direction child_offset =
      (h.alloc (newBelow h this direction child_offset)).set this
        ((h.node this).setChild direction (some h.size)) := by
    unfold attach
    simp only []
    rcases hord with hp | hd
    · rw [hp]
      simp only [hnew, Heap.node_alloc, hne, if_false]
    · have hdec : decide (direction =
          ((h.node this).parent_to_here_direction + 2) % DIRECTION_COUNT) = false := by
        simp [hd]
      rw [hdec]
      cases hp : (h.node this).parent <;>
        simp only [hnew, Heap.node_alloc, hne, if_false]
  rw [key]
  refine ⟨by simp [Heap.size_set, Heap.size_alloc], fun j => ?_⟩
  rw [Heap.node_set _ _ _ _ (by simp [Heap.size_alloc]; omega), Heap.node_alloc]

theorem attach_above (h : Heap) (this direction : Nat) (child_offset : Int) (parent : Nat)
    (hthis : this < h.size) (hparent : parent < h.size) (hne : parent ≠ this)
    (hp : (h.node this).parent = some parent)
    (hd : direction = ((h.node this).parent_to_here_direction + 2) % DIRECTION_COUNT) :
    (attach h this direction child_offset).size = h.size + 1 ∧
    ∀ j, (attach h this direction child_offset).node j =
      if j = this then (h.node this).setParent (some h.size)
      else if j = parent then
        (h.node parent).setChild (h.node this).parent_to_here_direction (some h.size)
      else if j = h.size then newAbove h this direction child_offset parent
      else h.node j := by
  have hne1 : this ≠ h.size := Nat.ne_of_lt hthis
  have hne2 : parent ≠ h.size := Nat.ne_of_lt hparent
  have hne3 : this ≠ parent := fun e => hne e.symm
  have hnew : (Node.init (some parent) ((h.node this).depth - 1)
      ((h.node this).middle + childMiddleOffset direction child_offset)
      (h.node this).parent_to_here_direction).setChild
        (h.node this).parent_to_here_direction (some this)
      = newAbove h this direction child_offset parent := by
    unfold newAbove Node.init Node.setChild
    simp
  have hdec : decide (direction =
      ((h.node this).parent_to_here_direction + 2) % DIRECTION_COUNT) = true := by
    simp [hd]
  have key : attach h this direction child_offset =
      ((h.alloc (newAbove h this direction child_offset parent)).set parent
        ((h.node parent).setChild (h.node this).parent_to_here_direction
          (some h.size))).set this ((h.node this).setParent (some h.size)) := by
    unfold attach
    simp only []
    rw [hp, hdec]
    simp only [hnew]
    rw [Heap.node_set _ _ _ _ (by simp [Heap.size_alloc]; omega)]
    simp only [Heap.node_alloc, hne1, hne2, hne3, if_false]
  rw [key]
  refine ⟨by simp [Heap.size_set, Heap.size_alloc], fun j => ?_⟩
  rw [Heap.node_set _ _ _ _ (by simp [Heap.size_set, Heap.size_alloc]; omega),
    Heap.node_set _ _ _ _ (by simp [Heap.size_alloc]; omega), Heap.node_alloc]

/-! ## Reading a tree off the heap -/

theorem ReprH.mk_node {h : Heap} {lo hi : Nat} {hole : Option Nat} {B : Tree}
    (j : Nat) (e : Int) (m : Point) (p : Nat) (f : Nat → Tree)
    (hlo : lo ≤ j) (hhi : j < hi) (he : (h.node j).depth = e) (hm : (h.node j).middle = m)
    (hp : (h.node j).parent_to_here_direction = p)
    (hc : ∀ k, k < 4 → ReprH h lo hi hole B ((h.node j).children k) (f k)) :
    ReprH h lo hi hole B (some j) (Tree.ofSlots e m p f) := by
  subst he hm hp
  exact ReprH.node j f hlo hhi hc

/-- Cells outside `[lo, hi)` do not matter. -/
theorem ReprH.frame {h h' : Heap} {lo hi : Nat} {hole : Option Nat} {B : Tree}
    {i : Option Nat} {t : Tree} (hr : ReprH h lo hi hole B i t)
    (hsame : ∀ j, lo ≤ j → j < hi → h'.node j = h.node j) :
    ReprH h' lo hi hole B i t := by
  induction hr with
  | null => exact ReprH.null
  | stop b hb => exact ReprH.stop b hb
  | node j f hlo hhi _ ih =>
    have e := hsame j hlo hhi
    rw [← e]
    exact ReprH.node j f hlo hhi (fun k hk => by rw [e]; exact ih k hk)

/-- The address range may be widened. -/
theorem ReprH.mono {h : Heap} {lo hi lo' hi' : Nat} {hole : Option Nat} {B : Tree}
    {i : Option Nat} {t : Tree} (hr : ReprH h lo hi hole B i t)
    (hlo : lo' ≤ lo) (hhi : hi ≤ hi') : ReprH h lo' hi' hole B i t := by
  induction hr with
  | null => exact ReprH.null
  | stop b hb => exact ReprH.stop b hb
  | node j f hlo1 hhi1 _ ih =>
    exact ReprH.node j f (Nat.le_trans hlo hlo1) (Nat.lt_of_lt_of_le hhi1 hhi) ih

/-- Filling the hole `z` with a tree that is itself read from the heap. -/
theorem ReprH.plug {h : Heap} {lo hi : Nat} {hole : Option Nat} {B Tz : Tree} {z : Nat}
    {i : Option Nat} {t : Tree} (hr : ReprH h lo hi (some z) Tz i t)
    (hz : ReprH h lo hi hole B (some z) Tz) : ReprH h lo hi hole B i t := by
  induction hr with
  | null => exact ReprH.null
  | stop b hb =>
    cases hb
    exact hz
  | node j f hlo hhi _ ih => exact ReprH.node j f hlo hhi ih

/-- A reading that has no hole is a reading for any hole. -/
theorem ReprH.ofNone {h : Heap} {lo hi : Nat} {hole : Option Nat} {B B' : Tree}
    {i : Option Nat} {t : Tree} (hr : ReprH h lo hi none B' i t) :
    ReprH h lo hi hole B i t := by
  induction hr with
  | null => exact ReprH.null
  | stop b hb => cases hb
  | node j f hlo hhi _ ih => exact ReprH.node j f hlo hhi ih

theorem Tree.height_ofSlots (e : Int) (m : Point) (p : Nat) (f : Nat → Tree) (b : Nat)
    (hb : ∀ k, k < 4 → (f k).height ≤ b) : (Tree.ofSlots e m p f).height ≤ 1 + b := by
  unfold Tree.ofSlots
  simp only [Tree.height]
  have h0 := hb 0 (by omega)
  have h1 := hb 1 (by omega)
  have h2 := hb 2 (by omega)
  have h3 := hb 3 (by omega)
  omega

theorem Tree.height_le_of_ofSlots (e : Int) (m : Point) (p : Nat) (f : Nat → Tree) (k : Nat)
    (hk : k < 4) : (f k).height + 1 ≤ (Tree.ofSlots e m p f).height := by
  unfold Tree.ofSlots
  simp only [Tree.height]
  interval_cases k <;> omega

/-- A reading without hole is what `toTree` computes, given fuel for the height. -/
theorem ReprH.toTree_eq {h : Heap} {lo hi : Nat} {B : Tree} {i : Option Nat} {t : Tree}
    (hr : ReprH h lo hi none B i t) :
    ∀ fuel, t.height ≤ fuel → toTree fuel h i = some t := by
  induction hr with
  | null => intro fuel _; cases fuel <;> rfl
  | stop b hb => cases hb
  | node j f hlo hhi _ ih =>
    intro fuel hfuel
    cases fuel with
    | zero =>
      have := Tree.height_le_of_ofSlots (h.node j).depth (h.node j).middle
        (h.node j).parent_to_here_direction f 0 (by omega)
      omega
    | succ fuel =>
      have hk : ∀ k, k < 4 → toTree fuel h ((h.node j).children k) = some (f k) := by
        intro k hk
        apply ih k hk
        have := Tree.height_le_of_ofSlots (h.node j).depth (h.node j).middle
          (h.node j).parent_to_here_direction f k hk
        omega
      simp only [toTree, hk 0 (by omega), hk 1 (by omega), hk 2 (by omega), hk 3 (by omega),
        Option.bind_some, Option.some_bind]
      rfl

/-! ## What one `addChild` call does to the heap -/

theorem addChild_succ (fuel : Nat) (h : Heap) (this direction : Nat) (o : Int) :
    addChild (fuel + 1) h this direction o =
      if ((attach h this direction o).node this).depth ≤ 0 then
        some (attach h this direction o)
      else addChildren fuel (attach h this direction o) h.size (o.tdiv 2) := rfl

theorem loop_step (n fuel : Nat) (hO : OrdPost n) (hS : SplicePost n) (hfuel : n < fuel)
    {h : Heap} {ν q D : Nat} {m : Point} {o : Int} {hole : Option Nat} {k : Nat} {hk : Heap}
    (hsize : h.size = ν + 1) (hq : q < ν) (hD : D < 4) (hk4 : k < 4)
    (inv : LoopInv n h ν q D m o hole k hk) :
    ∃ hk', addChild fuel hk ν k o = some hk' ∧ LoopInv n h ν q D m o hole (k + 1) hk' := by
  have hνk : ν < hk.size := by rw [inv.size, hsize]; omega
  by_cases hko : k = (D + 2) % DIRECTION_COUNT
  · -- the reorder branch
    have hp := inv.parent (Nat.le_of_eq hko)
    obtain ⟨h', top, heq, hsz, hframe, hthis, hpnode, hrepr⟩ :=
      hS fuel hk ν k o q hfuel inv.depth hνk (by omega) (by omega) hp
        (by rw [inv.pth]; exact hko) (by rw [inv.pth]; exact hD)
    refine ⟨h', heq, ?_⟩
    have hsame : ∀ i, ν + 1 ≤ i → i < hk.size → h'.node i = hk.node i :=
      fun i h1 h2 => hframe i h2 (by omega) (by omega)
    constructor
    · rw [hsz, inv.size, Nat.succ_mul]; omega
    · intro j hj hjq
      rw [hframe j (by omega) (by omega) hjq]
      exact inv.frame j hj hjq
    · rw [hthis]; exact inv.depth
    · rw [hthis]; exact inv.middle
    · rw [hthis]; exact inv.pth
    · intro hle; omega
    · intro j hj hjo
      obtain ⟨t, ht, hr⟩ := inv.childDone j (by omega) hjo
      refine ⟨t, by rw [hthis]; exact ht, fun B hB => ?_⟩
      exact ((hr B hB).frame hsame).mono (Nat.le_refl _) (by omega)
    · intro j hj
      rw [hthis]
      exact inv.childTodo j (by omega)
    · intro hle; omega
    · intro _
      refine ⟨top, ?_, fun B => ?_⟩
      · rw [hpnode, inv.qTodo (Nat.le_of_eq hko), inv.pth]
      · have := hrepr B
        rw [inv.middle, inv.pth, hko] at this
        exact this.mono (by omega) (Nat.le_refl _)
  · -- the ordinary branch
    obtain ⟨h', top, heq, hsz, hframe, hthis, hrepr⟩ :=
      hO fuel hk ν k o hfuel inv.depth hνk hk4 (Or.inr (by rw [inv.pth]; exact hko))
    refine ⟨h', heq, ?_⟩
    have hsame : ∀ i, ν + 1 ≤ i → i < hk.size → h'.node i = hk.node i :=
      fun i h1 h2 => hframe i h2 (by omega)
    have hchild : ∀ j, j ≠ k → (h'.node ν).children j = (hk.node ν).children j := by
      intro j hj
      rw [hthis]
      simp [Node.setChild, hj]
    constructor
    · rw [hsz, inv.size, Nat.succ_mul]; omega
    · intro j hj hjq
      rw [hframe j (by omega) (by omega)]
      exact inv.frame j hj hjq
    · rw [hthis]; exact inv.depth
    · rw [hthis]; exact inv.middle
    · rw [hthis]; exact inv.pth
    · intro hle
      rw [hthis]
      exact inv.parent (by omega)
    · intro j hj hjo
      by_cases hjk : j = k
      · subst hjk
        refine ⟨top, by rw [hthis]; simp [Node.setChild], fun B hB => ?_⟩
        have hc := inv.childTodo j (Or.inl (Nat.le_refl _))
        have := hrepr B (by rw [hc]; exact hB)
        rw [hc, inv.middle] at this
        exact this.mono (by omega) (Nat.le_refl _)
      · obtain ⟨t, ht, hr⟩ := inv.childDone j (by omega) hjo
        refine ⟨t, by rw [hchild j hjk]; exact ht, fun B hB => ?_⟩
        exact ((hr B hB).frame hsame).mono (Nat.le_refl _) (by omega)
    · intro j hj
      rw [hchild j (by omega)]
      exact inv.childTodo j (by omega)
    · intro hle
      rw [hframe q (by omega) (by omega)]
      exact inv.qTodo (by omega)
    · intro hlt
      obtain ⟨t, ht, hr⟩ := inv.qDone (by omega)
      refine ⟨t, by rw [hframe q (by omega) (by omega)]; exact ht, fun B => ?_⟩
      exact ((hr B).frame hsame).mono (Nat.le_refl _) (by omega)

theorem slotSpec_succ (n : Nat) (m : Point) (D : Nat) (o : Int) (below : Tree) :
    slotSpec (n + 1) m D o below =
      slotSpec n (m + childMiddleOffset ((D + 2) % DIRECTION_COUNT) o) D (o.tdiv 2)
        (Tree.ofSlots n m D (fun k =>
          if k = (D + 2) % DIRECTION_COUNT then .null
          else slotSpec n (m + childMiddleOffset k o) k (o.tdiv 2)
            (if k = D then below else .null))) := rfl

/-- The whole loop `new_node->addChild(0..3, o)` on a freshly linked node `ν`. -/
theorem loop_spec (n fuel : Nat) (hO : OrdPost n) (hS : SplicePost n) (hfuel : n < fuel)
    (h : Heap) (ν q D : Nat) (m : Point) (o : Int) (hole : Option Nat)
    (hsize : h.size = ν + 1) (hq : q < ν) (hD : D < 4)
    (hdepth : (h.node ν).depth = n) (hmid : (h.node ν).middle = m)
    (hpth : (h.node ν).parent_to_here_direction = D)
    (hpar : (h.node ν).parent = some q)
    (hch : ∀ k, (h.node ν).children k = if k = D then hole else none) :
    ∃ h' top, addChildren fuel h ν o = some h' ∧
      h'.size = h.size + 4 * cnt n ∧
      (∀ j, j < ν → j ≠ q → h'.node j = h.node j) ∧
      h'.node q = (h.node q).setChild D (some top) ∧
      ∀ B, (hole = none → B = .null) →
        ReprH h' ν h'.size hole B (some top) (slotSpec (n + 1) m D o B) := by
  have inv0 : LoopInv n h ν q D m o hole 0 h :=
    { size := by omega
      frame := fun _ _ _ => rfl
      depth := hdepth
      middle := hmid
      pth := hpth
      parent := fun _ => hpar
      childDone := fun j hj _ => by omega
      childTodo := fun j _ => hch j
      qTodo := fun _ => rfl
      qDone := fun hlt => by omega }
  obtain ⟨h1, e1, inv1⟩ := loop_step n fuel hO hS hfuel hsize hq hD (by omega) inv0
  obtain ⟨h2, e2, inv2⟩ := loop_step n fuel hO hS hfuel hsize hq hD (by omega) inv1
  obtain ⟨h3, e3, inv3⟩ := loop_step n fuel hO hS hfuel hsize hq hD (by omega) inv2
  obtain ⟨h4, e4, inv4⟩ := loop_step n fuel hO hS hfuel hsize hq hD (by omega) inv3
  have hopp : (D + 2) % DIRECTION_COUNT < 4 := Nat.mod_lt _ (by decide)
  have hoppD : D ≠ (D + 2) % DIRECTION_COUNT := by
    simp only [DIRECTION_COUNT]; omega
  obtain ⟨top, hqn, hr⟩ := inv4.qDone hopp
  refine ⟨h4, top, ?_, ?_, inv4.frame, hqn, fun B hB => ?_⟩
  · simp [addChildren, e1, e2, e3, e4]
  · have := inv4.size; omega
  · rw [slotSpec_succ]
    have hν : ν < h4.size := by have := inv4.size; omega
    refine ((hr _).mono (Nat.le_succ ν) (Nat.le_refl _)).plug ?_
    refine ReprH.mk_node ν n m D _ (Nat.le_refl _) hν inv4.depth inv4.middle inv4.pth ?_
    intro k hk
    by_cases hko : k = (D + 2) % DIRECTION_COUNT
    · have hkD : k ≠ D := fun e => hoppD (e ▸ hko)
      rw [inv4.childTodo k (Or.inr hko)]
      simp only [hko, if_true]
      rw [← hko, if_neg hkD]
      exact ReprH.null
    · obtain ⟨t, ht, hrk⟩ := inv4.childDone k hk hko
      rw [ht]
      simp only [hko, if_false]
      by_cases hkD : k = D
      · have := hrk B (by simp only [hkD, if_true]; exact hB)
        simp only [hkD, if_true] at this ⊢
        exact this.mono (Nat.le_succ ν) (Nat.le_refl _)
      · have := hrk .null (fun _ => by simp [hkD])
        simp only [hkD, if_false] at this ⊢
        exact (ReprH.ofNone this).mono (Nat.le_succ ν) (Nat.le_refl _)

theorem ordPost_zero : OrdPost 0 := by
  intro fuel h this direction o hfuel hdepth hthis hdir hord
  obtain ⟨fuel, rfl⟩ : ∃ f, fuel = f + 1 := ⟨fuel - 1, by omega⟩
  obtain ⟨hsz, hnode⟩ := attach_below h this direction o hthis hord
  have hne : h.size ≠ this := by omega
  refine ⟨attach h this direction o, h.size, ?_, by rw [hsz]; rfl, ?_, ?_, fun B hB => ?_⟩
  · rw [addChild_succ, hnode this]
    simp [Node.setChild, hdepth]
  · intro j _ hj
    rw [hnode j]
    simp only [hj, if_false]
    rw [if_neg (by omega)]
  · rw [hnode this]; simp
  · rw [hsz]
    have hn : (attach h this direction o).node h.size = newBelow h this direction o := by
      rw [hnode h.size]; simp [hne]
    refine ReprH.mk_node h.size (-1) _ direction _ (Nat.le_refl _) (by omega)
      (by rw [hn]; simp [newBelow, hdepth]) (by rw [hn]; rfl) (by rw [hn]; rfl) ?_
    intro k _
    rw [hn]
    simp only [newBelow]
    by_cases hk : k = direction
    · simp only [hk, if_true]
      cases hc : (h.node this).children direction with
      | none => rw [hB hc]; exact ReprH.null
      | some b => exact ReprH.stop b rfl
    · simp only [hk, if_false]
      exact ReprH.null

theorem splicePost_zero : SplicePost 0 := by
  intro fuel h this direction o p hfuel hdepth hthis hp hne hpar hdir hpth
  obtain ⟨fuel, rfl⟩ : ∃ f, fuel = f + 1 := ⟨fuel - 1, by omega⟩
  obtain ⟨hsz, hnode⟩ := attach_above h this direction o p hthis hp hne hpar hdir
  have hne1 : h.size ≠ this := by omega
  have hne2 : h.size ≠ p := by omega
  refine ⟨attach h this direction o, h.size, ?_, by rw [hsz]; rfl, ?_, ?_, ?_, fun B => ?_⟩
  · rw [addChild_succ, hnode this]
    simp [Node.setParent, hdepth]
  · intro j _ hj hjp
    rw [hnode j]
    simp only [hj, hjp, if_false]
    rw [if_neg (by omega)]
  · rw [hnode this]; simp
  · rw [hnode p]; simp [hne]
  · rw [hsz]
    have hn : (attach h this direction o).node h.size = newAbove h this direction o p := by
      rw [hnode h.size]; simp [hne1, hne2]
    refine ReprH.mk_node h.size (-1) _ _ _ (Nat.le_refl _) (by omega)
      (by rw [hn]; simp [newAbove, hdepth]) (by rw [hn]; rfl) (by rw [hn]; rfl) ?_
    intro k _
    rw [hn]
    simp only [newAbove]
    by_cases hk : k = (h.node this).parent_to_here_direction
    · simp only [hk, if_true]
      exact ReprH.stop this rfl
    · simp only [hk, if_false]
      exact ReprH.null

theorem ordPost_succ (n : Nat) (hO : OrdPost n) (hS : SplicePost n) : OrdPost (n + 1) := by
  intro fuel h this direction o hfuel hdepth hthis hdir hord
  obtain ⟨fuel, rfl⟩ : ∃ f, fuel = f + 1 := ⟨fuel - 1, by omega⟩
  obtain ⟨hsz, hnode⟩ := attach_below h this direction o hthis hord
  have hne : h.size ≠ this := by omega
  have hn : (attach h this direction o).node h.size = newBelow h this direction o := by
    rw [hnode h.size]; simp [hne]
  obtain ⟨h', top, heq, hsz', hframe, hq, hr⟩ :=
    loop_spec n fuel hO hS (by omega) (attach h this direction o) h.size this direction
      ((h.node this).middle + childMiddleOffset direction o) (o.tdiv 2)
      ((h.node this).children direction) hsz hthis hdir
      (by rw [hn]; simp [newBelow, hdepth]) (by rw [hn]; rfl) (by rw [hn]; rfl)
      (by rw [hn]; rfl) (by intro k; rw [hn]; rfl)
  refine ⟨h', top, ?_, ?_, ?_, ?_, fun B hB => hr B hB⟩
  · rw [addChild_succ, hnode this]
    have : ¬ ((n : Int) + 1 ≤ 0) := by omega
    simp [Node.setChild, hdepth, this, heq]
  · rw [hsz', hsz]; simp only [cnt]; omega
  · intro j hj hjt
    rw [hframe j hj hjt, hnode j]
    simp only [hjt, if_false]
    rw [if_neg (by omega)]
  · rw [hq, hnode this]
    simp only [if_true]
    exact Node.setChild_setChild _ _ _ _

theorem splicePost_succ (n : Nat) (hO : OrdPost n) (hS : SplicePost n) :
    SplicePost (n + 1) := by
  intro fuel h this direction o p hfuel hdepth hthis hp hne hpar hdir hpth
  obtain ⟨fuel, rfl⟩ : ∃ f, fuel = f + 1 := ⟨fuel - 1, by omega⟩
  obtain ⟨hsz, hnode⟩ := attach_above h this direction o p hthis hp hne hpar hdir
  have hne1 : h.size ≠ this := by omega
  have hne2 : h.size ≠ p := by omega
  have hn : (attach h this direction o).node h.size = newAbove h this direction o p := by
    rw [hnode h.size]; simp [hne1, hne2]
  obtain ⟨h', top, heq, hsz', hframe, hq, hr⟩ :=
    loop_spec n fuel hO hS (by omega) (attach h this direction o) h.size p
      (h.node this).parent_to_here_direction
      ((h.node this).middle + childMiddleOffset direction o) (o.tdiv 2)
      (some this) hsz hp hpth
      (by rw [hn]; simp [newAbove, hdepth]) (by rw [hn]; rfl) (by rw [hn]; rfl)
      (by rw [hn]; rfl) (by intro k; rw [hn]; rfl)
  refine ⟨h', top, ?_, ?_, ?_, ?_, ?_, fun B => hr B (fun e => by cases e)⟩
  · rw [addChild_succ, hnode this]
    have : ¬ ((n : Int) + 1 ≤ 0) := by omega
    simp [Node.setParent, hdepth, this, heq]
  · rw [hsz', hsz]; simp only [cnt]; omega
  · intro j hj hjt hjp
    rw [hframe j hj hjp, hnode j]
    simp only [hjt, hjp, if_false]
    rw [if_neg (by omega)]
  · rw [hframe this hthis (fun e => hne e.symm), hnode this]
    simp
  · rw [hq, hnode p]
    simp only [hne, if_false, if_true]
    exact Node.setChild_setChild _ _ _ _

theorem addChild_post (n : Nat) : OrdPost n ∧ SplicePost n := by
  induction n with
  | zero => exact ⟨ordPost_zero, splicePost_zero⟩
  | succ n ih => exact ⟨ordPost_succ n ih.1 ih.2, splicePost_succ n ih.1 ih.2⟩

/-! ## The constructor computes `specTree` -/

theorem root_step (d fuel : Nat) (hfuel : d < fuel) {c : Point} {o : Int} {k : Nat}
    {hk : Heap} (hk4 : k < 4) (inv : RootInv d c o k hk) :
    ∃ hk', addChild fuel hk 0 k o = some hk' ∧ RootInv d c o (k + 1) hk' := by
  have h0 : 0 < hk.size := by rw [inv.size]; omega
  obtain ⟨h', top, heq, hsz, hframe, hthis, hrepr⟩ :=
    (addChild_post d).1 fuel hk 0 k o hfuel inv.depth h0 hk4 (Or.inl inv.parent)
  refine ⟨h', heq, ?_⟩
  have hsame : ∀ i, 1 ≤ i → i < hk.size → h'.node i = hk.node i :=
    fun i h1 h2 => hframe i h2 (by omega)
  have hchild : ∀ j, j ≠ k → (h'.node 0).children j = (hk.node 0).children j := by
    intro j hj
    rw [hthis]
    simp [Node.setChild, hj]
  constructor
  · rw [hsz, inv.size, Nat.succ_mul]; omega
  · rw [hthis]; exact inv.depth
  · rw [hthis]; exact inv.middle
  · rw [hthis]; exact inv.pth
  · rw [hthis]; exact inv.parent
  · intro j hj
    by_cases hjk : j = k
    · subst hjk
      refine ⟨top, by rw [hthis]; simp [Node.setChild], ?_⟩
      have hc := inv.childTodo j (Nat.le_refl _)
      have := hrepr .null (fun _ => rfl)
      rw [hc, inv.middle] at this
      exact this.mono (by omega) (Nat.le_refl _)
    · obtain ⟨t, ht, hr⟩ := inv.childDone j (by omega)
      refine ⟨t, by rw [hchild j hjk]; exact ht, ?_⟩
      exact (hr.frame hsame).mono (Nat.le_refl _) (by omega)
  · intro j hj
    rw [hchild j (by omega)]
    exact inv.childTodo j (by omega)

theorem two_pow_le_cnt (n : Nat) : 2 ^ n ≤ cnt n := by
  induction n with
  | zero => simp [cnt]
  | succ n ih => simp only [cnt, pow_succ]; omega

theorem height_slotSpec (n : Nat) : ∀ (m : Point) (D : Nat) (o : Int) (B : Tree),
    (slotSpec n m D o B).height + 1 ≤ 2 ^ (n + 1) + B.height := by
  induction n with
  | zero =>
    intro m D o B
    have := Tree.height_ofSlots (-1) m D (fun k => if k = D then B else .null) B.height
      (by intro k _; by_cases hk : k = D <;> simp [hk, Tree.height])
    simp only [slotSpec]
    omega
  | succ n ih =>
    intro m D o B
    rw [slotSpec_succ]
    have hX := Tree.height_ofSlots n m D (fun k =>
          if k = (D + 2) % DIRECTION_COUNT then .null
          else slotSpec n (m + childMiddleOffset k o) k (o.tdiv 2)
            (if k = D then B else .null)) (2 ^ (n + 1) + B.height - 1)
      (by
        intro k _
        by_cases hk : k = (D + 2) % DIRECTION_COUNT
        · simp [hk, Tree.height]
        · simp only [hk, if_false]
          have := ih (m + childMiddleOffset k o) k (o.tdiv 2) (if k = D then B else .null)
          have hB : (if k = D then B else Tree.null).height ≤ B.height := by
            by_cases hkD : k = D <;> simp [hkD, Tree.height]
          omega)
    have := ih (m + childMiddleOffset ((D + 2) % DIRECTION_COUNT) o) D (o.tdiv 2)
      (Tree.ofSlots n m D (fun k =>
          if k = (D + 2) % DIRECTION_COUNT then .null
          else slotSpec n (m + childMiddleOffset k o) k (o.tdiv 2)
            (if k = D then B else .null)))
    have hpos : 0 < 2 ^ (n + 1) := Nat.pow_pos (by decide)
    have h2 : 2 ^ (n + 1 + 1) = 2 ^ (n + 1) + 2 ^ (n + 1) := by rw [pow_succ]; omega
    omega

theorem build_spec (c : Point) (r : Int) (d : Nat) :
    ∃ h, build c r d = some h ∧ h.size = 1 + 4 * cnt d ∧
      ReprH h 0 h.size none .null (some 0) (specTree c r d) := by
  have inv0 : RootInv d c (r.tdiv 2) 0 (getRoot c d) :=
    { size := by simp [getRoot, Heap.size]
      depth := rfl
      middle := rfl
      pth := rfl
      parent := rfl
      childDone := fun j hj => by omega
      childTodo := fun j _ => rfl }
  have hfuel : d < (d : Int).toNat + 1 := by simp
  obtain ⟨h1, e1, inv1⟩ := root_step d _ hfuel (by omega) inv0
  obtain ⟨h2, e2, inv2⟩ := root_step d _ hfuel (by omega) inv1
  obtain ⟨h3, e3, inv3⟩ := root_step d _ hfuel (by omega) inv2
  obtain ⟨h4, e4, inv4⟩ := root_step d _ hfuel (by omega) inv3
  refine ⟨h4, ?_, by have := inv4.size; omega, ?_⟩
  · simp only [build, e1, e2, e3, e4, Option.some_bind, Option.bind_some]
  · refine ReprH.mk_node 0 d c DIRECTION_COUNT _ (Nat.le_refl _)
      (by have := inv4.size; omega) inv4.depth inv4.middle inv4.pth ?_
    intro k hk
    obtain ⟨t, ht, hr⟩ := inv4.childDone k hk
    rw [ht]
    exact hr.mono (by omega) (Nat.le_refl _)

theorem height_specTree (c : Point) (r : Int) (d : Nat) :
    (specTree c r d).height ≤ 2 ^ (d + 1) := by
  have := Tree.height_ofSlots d c DIRECTION_COUNT (fun k =>
    slotSpec d (c + childMiddleOffset k (r.tdiv 2)) k ((r.tdiv 2).tdiv 2) .null)
    (2 ^ (d + 1) - 1)
    (by
      intro k _
      have := height_slotSpec d (c + childMiddleOffset k (r.tdiv 2)) k
        ((r.tdiv 2).tdiv 2) .null
      simp only [Tree.height] at this
      show (slotSpec d (c + childMiddleOffset k (r.tdiv 2)) k
        ((r.tdiv 2).tdiv 2) .null).height ≤ _
      omega)
  have hpos : 0 < 2 ^ (d + 1) := Nat.pow_pos (by decide)
  unfold specTree
  omega

/-- The four `root.addChild` calls terminate and leave `root` owning `specTree`. -/
theorem buildTree_eq (c : Point) (r : Int) (d : Nat) :
    buildTree c r d = some (specTree c r d) := by
  obtain ⟨h, hb, hsz, hr⟩ := build_spec c r d
  unfold buildTree
  rw [hb]
  simp only [Option.some_bind, Option.bind_some]
  apply hr.toTree_eq
  have h1 := height_specTree c r d
  have h2 := two_pow_le_cnt d
  have h3 : 2 ^ (d + 1) = 2 * 2 ^ d := by rw [pow_succ]; omega
  omega

/-- The constructor terminates and returns the pruned `specTree`. -/
theorem construct_eq (c : Point) (r : Int) (d : Nat) :
    construct c r d = some (prune (specTree c r d)) := by
  unfold construct
  rw [buildTree_eq]
  rfl

/-! ## `walk` -/

theorem Tree.isNull_node (e : Int) (m : Point) (p : Nat) (c0 c1 c2 c3 : Tree) :
    (Tree.node e m p c0 c1 c2 c3).isNull = false := rfl

theorem Tree.isNull_null : Tree.null.isNull = true := rfl

theorem mod4_cases (I : Nat) : I % 4 = 0 ∨ I % 4 = 1 ∨ I % 4 = 2 ∨ I % 4 = 3 := by omega

/-- Whatever the visitor, `walk` feeds it the positions of `walkList`, in order. -/
theorem walk_eq_foldl {σ : Type} (visit : Point → σ → σ) (t : Tree) :
    ∀ s, walk visit t s = (walkList t).foldl (fun s p => visit p s) s := by
  induction t with
  | null => intro s; rfl
  | node e m I c0 c1 c2 c3 ih0 ih1 ih2 ih3 =>
    intro s
    simp only [walk, walkList, List.foldl_cons, List.foldl_nil, DIRECTION_COUNT]
    rcases mod4_cases I with h | h | h | h
    · have e0 : (I + 0 + 2) % 4 = 2 := by omega
      have e1 : (I + 1 + 2) % 4 = 3 := by omega
      have e2 : (I + 2 + 2) % 4 = 0 := by omega
      have e3 : (I + 3 + 2) % 4 = 1 := by omega
      simp only [e0, e1, e2, e3]
      cases h0 : c0.isNull <;> cases h1 : c1.isNull <;> cases h2 : c2.isNull <;>
        cases h3 : c3.isNull <;> simp [ih0, ih1, ih2, ih3, List.foldl_append]
    · have e0 : (I + 0 + 2) % 4 = 3 := by omega
      have e1 : (I + 1 + 2) % 4 = 0 := by omega
      have e2 : (I + 2 + 2) % 4 = 1 := by omega
      have e3 : (I + 3 + 2) % 4 = 2 := by omega
      simp only [e0, e1, e2, e3]
      cases h0 : c0.isNull <;> cases h1 : c1.isNull <;> cases h2 : c2.isNull <;>
        cases h3 : c3.isNull <;> simp [ih0, ih1, ih2, ih3, List.foldl_append]
    · have e0 : (I + 0 + 2) % 4 = 0 := by omega
      have e1 : (I + 1 + 2) % 4 = 1 := by omega
      have e2 : (I + 2 + 2) % 4 = 2 := by omega
      have e3 : (I + 3 + 2) % 4 = 3 := by omega
      simp only [e0, e1, e2, e3]
      cases h0 : c0.isNull <;> cases h1 : c1.isNull <;> cases h2 : c2.isNull <;>
        cases h3 : c3.isNull <;> simp [ih0, ih1, ih2, ih3, List.foldl_append]
    · have e0 : (I + 0 + 2) % 4 = 1 := by omega
      have e1 : (I + 1 + 2) % 4 = 2 := by omega
      have e2 : (I + 2 + 2) % 4 = 3 := by omega
      have e3 : (I + 3 + 2) % 4 = 0 := by omega
      simp only [e0, e1, e2, e3]
      cases h0 : c0.isNull <;> cases h1 : c1.isNull <;> cases h2 : c2.isNull <;>
        cases h3 : c3.isNull <;> simp [ih0, ih1, ih2, ih3, List.foldl_append]

theorem foldl_snoc_eq (l : List Point) :
    ∀ acc : List Point, l.foldl (fun s p => s ++ [p]) acc = acc ++ l := by
  induction l with
  | nil => intro acc; simp
  | cons a l ih => intro acc; simp [ih]

theorem walkSeq_eq_walkList (t : Tree) : walkSeq t = walkList t := by
  unfold walkSeq
  rw [walk_eq_foldl, foldl_snoc_eq]
  simp

theorem nodes_of_isNull (t : Tree) (h : t.isNull = true) : t.nodes = [] := by
  cases t with
  | null => rfl
  | node => simp [Tree.isNull] at h

theorem edges_of_isNull (t : Tree) (h : t.isNull = true) : t.edges = 0 := by
  cases t with
  | null => rfl
  | node => simp [Tree.isNull] at h

/-- The recursive description of `walkList`, with the slots addressed by `Tree.child`. -/
theorem walkList_node (e : Int) (m : Point) (I : Nat) (c0 c1 c2 c3 : Tree) :
    walkList (.node e m I c0 c1 c2 c3) =
      m :: ((if ((Tree.node e m I c0 c1 c2 c3).child ((I + 2 + 0) % 4)).isNull then []
              else walkList ((Tree.node e m I c0 c1 c2 c3).child ((I + 2 + 0) % 4)) ++ [m]) ++
            (if ((Tree.node e m I c0 c1 c2 c3).child ((I + 2 + 1) % 4)).isNull then []
              else walkList ((Tree.node e m I c0 c1 c2 c3).child ((I + 2 + 1) % 4)) ++ [m]) ++
            (if ((Tree.node e m I c0 c1 c2 c3).child ((I + 2 + 2) % 4)).isNull then []
              else walkList ((Tree.node e m I c0 c1 c2 c3).child ((I + 2 + 2) % 4)) ++ [m]) ++
            (if ((Tree.node e m I c0 c1 c2 c3).child ((I + 2 + 3) % 4)).isNull then []
              else walkList ((Tree.node e m I c0 c1 c2 c3).child ((I + 2 + 3) % 4)) ++ [m])) := by
  simp only [walkList, DIRECTION_COUNT]
  rcases mod4_cases I with h | h | h | h
  · have e0 : (I + 0 + 2) % 4 = 2 := by omega
    have e1 : (I + 1 + 2) % 4 = 3 := by omega
    have e2 : (I + 2 + 2) % 4 = 0 := by omega
    have e3 : (I + 3 + 2) % 4 = 1 := by omega
    have f0 : (I + 2 + 0) % 4 = 2 := by omega
    have f1 : (I + 2 + 1) % 4 = 3 := by omega
    have f2 : (I + 2 + 2) % 4 = 0 := by omega
    have f3 : (I + 2 + 3) % 4 = 1 := by omega
    simp only [e0, e1, e2, e3, f0, f1, f2, f3, Tree.child]
  · have e0 : (I + 0 + 2) % 4 = 3 := by omega
    have e1 : (I + 1 + 2) % 4 = 0 := by omega
    have e2 : (I + 2 + 2) % 4 = 1 := by omega
    have e3 : (I + 3 + 2) % 4 = 2 := by omega
    have f0 : (I + 2 + 0) % 4 = 3 := by omega
    have f1 : (I + 2 + 1) % 4 = 0 := by omega
    have f2 : (I + 2 + 2) % 4 = 1 := by omega
    have f3 : (I + 2 + 3) % 4 = 2 := by omega
    simp only [e0, e1, e2, e3, f0, f1, f2, f3, Tree.child]
  · have e0 : (I + 0 + 2) % 4 = 0 := by omega
    have e1 : (I + 1 + 2) % 4 = 1 := by omega
    have e2 : (I + 2 + 2) % 4 = 2 := by omega
    have e3 : (I + 3 + 2) % 4 = 3 := by omega
    have f0 : (I + 2 + 0) % 4 = 0 := by omega
    have f1 : (I + 2 + 1) % 4 = 1 := by omega
    have f2 : (I + 2 + 2) % 4 = 2 := by omega
    have f3 : (I + 2 + 3) % 4 = 3 := by omega
    simp only [e0, e1, e2, e3, f0, f1, f2, f3, Tree.child]
  · have e0 : (I + 0 + 2) % 4 = 1 := by omega
    have e1 : (I + 1 + 2) % 4 = 2 := by omega
    have e2 : (I + 2 + 2) % 4 = 3 := by omega
    have e3 : (I + 3 + 2) % 4 = 0 := by omega
    have f0 : (I + 2 + 0) % 4 = 1 := by omega
    have f1 : (I + 2 + 1) % 4 = 2 := by omega
    have f2 : (I + 2 + 2) % 4 = 3 := by omega
    have f3 : (I + 2 + 3) % 4 = 0 := by omega
    simp only [e0, e1, e2, e3, f0, f1, f2, f3, Tree.child]

/-- Up to order, `walkList` of a node is its position, and for every occupied slot the
walk of that child followed by the position again. -/
theorem walkList_node_perm (e : Int) (m : Point) (I : Nat) (c0 c1 c2 c3 : Tree) :
    (walkList (.node e m I c0 c1 c2 c3)).Perm
      (m :: ((if c0.isNull then [] else walkList c0 ++ [m]) ++
             (if c1.isNull then [] else walkList c1 ++ [m]) ++
             (if c2.isNull then [] else walkList c2 ++ [m]) ++
             (if c3.isNull then [] else walkList c3 ++ [m]))) := by
  rw [walkList_node]
  refine List.Perm.cons m ?_
  generalize hs0 : (if c0.isNull then [] else walkList c0 ++ [m]) = s0
  generalize hs1 : (if c1.isNull then [] else walkList c1 ++ [m]) = s1
  generalize hs2 : (if c2.isNull then [] else walkList c2 ++ [m]) = s2
  generalize hs3 : (if c3.isNull then [] else walkList c3 ++ [m]) = s3
  rcases mod4_cases I with h | h | h | h
  · have f0 : (I + 2 + 0) % 4 = 2 := by omega
    have f1 : (I + 2 + 1) % 4 = 3 := by omega
    have f2 : (I + 2 + 2) % 4 = 0 := by omega
    have f3 : (I + 2 + 3) % 4 = 1 := by omega
    simp only [f0, f1, f2, f3, Tree.child, hs0, hs1, hs2, hs3]
    have : s2 ++ s3 ++ s0 ++ s1 = (s2 ++ s3) ++ (s0 ++ s1) := by simp
    rw [this]
    have : s0 ++ s1 ++ s2 ++ s3 = (s0 ++ s1) ++ (s2 ++ s3) := by simp
    rw [this]
    exact List.perm_append_comm
  · have f0 : (I + 2 + 0) % 4 = 3 := by omega
    have f1 : (I + 2 + 1) % 4 = 0 := by omega
    have f2 : (I + 2 + 2) % 4 = 1 := by omega
    have f3 : (I + 2 + 3) % 4 = 2 := by omega
    simp only [f0, f1, f2, f3, Tree.child, hs0, hs1, hs2, hs3]
    have : s3 ++ s0 ++ s1 ++ s2 = s3 ++ (s0 ++ s1 ++ s2) := by simp
    rw [this]
    exact List.perm_append_comm
  · have f0 : (I + 2 + 0) % 4 = 0 := by omega
    have f1 : (I + 2 + 1) % 4 = 1 := by omega
    have f2 : (I + 2 + 2) % 4 = 2 := by omega
    have f3 : (I + 2 + 3) % 4 = 3 := by omega
    simp only [f0, f1, f2, f3, Tree.child, hs0, hs1, hs2, hs3]
    exact List.Perm.refl _
  · have f0 : (I + 2 + 0) % 4 = 1 := by omega
    have f1 : (I + 2 + 1) % 4 = 2 := by omega
    have f2 : (I + 2 + 2) % 4 = 3 := by omega
    have f3 : (I + 2 + 3) % 4 = 0 := by omega
    simp only [f0, f1, f2, f3, Tree.child, hs0, hs1, hs2, hs3]
    have : s1 ++ s2 ++ s3 ++ s0 = (s1 ++ s2 ++ s3) ++ s0 := by simp
    rw [this]
    have : s0 ++ s1 ++ s2 ++ s3 = s0 ++ (s1 ++ s2 ++ s3) := by simp
    rw [this]
    exact List.perm_append_comm

theorem walkList_length (t : Tree) :
    (walkList t).length = if t.isNull then 0 else 2 * t.edges + 1 := by
  induction t with
  | null => rfl
  | node e m I c0 c1 c2 c3 ih0 ih1 ih2 ih3 =>
    rw [(walkList_node_perm e m I c0 c1 c2 c3).length_eq]
    simp only [Tree.isNull_node, Tree.edges, Tree.numChildren, Tree.child]
    rcases Bool.eq_false_or_eq_true c0.isNull with h0 | h0 <;>
      rcases Bool.eq_false_or_eq_true c1.isNull with h1 | h1 <;>
      rcases Bool.eq_false_or_eq_true c2.isNull with h2 | h2 <;>
      rcases Bool.eq_false_or_eq_true c3.isNull with h3 | h3 <;>
      simp [h0, h1, h2, h3, ih0, ih1, ih2, ih3, edges_of_isNull] <;> omega

theorem nodes_length (t : Tree) :
    t.nodes.length = if t.isNull then 0 else t.edges + 1 := by
  induction t with
  | null => rfl
  | node e m I c0 c1 c2 c3 ih0 ih1 ih2 ih3 =>
    simp only [Tree.nodes, Tree.isNull_node, Tree.edges, Tree.numChildren, Tree.child,
      List.length_cons, List.length_append, ih0, ih1, ih2, ih3]
    rcases Bool.eq_false_or_eq_true c0.isNull with h0 | h0 <;>
      rcases Bool.eq_false_or_eq_true c1.isNull with h1 | h1 <;>
      rcases Bool.eq_false_or_eq_true c2.isNull with h2 | h2 <;>
      rcases Bool.eq_false_or_eq_true c3.isNull with h3 | h3 <;>
      simp [h0, h1, h2, h3, edges_of_isNull] <;> omega

theorem mem_walkList_of_mem_nodes (t : Tree) :
    ∀ N ∈ t.nodes, N.middle ∈ walkList t := by
  induction t with
  | null => intro N hN; simp [Tree.nodes] at hN
  | node e m I c0 c1 c2 c3 ih0 ih1 ih2 ih3 =>
    intro N hN
    rw [(walkList_node_perm e m I c0 c1 c2 c3).mem_iff]
    simp only [Tree.nodes, List.mem_cons, List.mem_append] at hN
    have key : ∀ c : Tree, (∀ N ∈ c.nodes, N.middle ∈ walkList c) → N ∈ c.nodes →
        N.middle ∈ (if c.isNull then [] else walkList c ++ [m]) := by
      intro c ih hc
      rcases Bool.eq_false_or_eq_true c.isNull with hn | hn
      · rw [nodes_of_isNull c hn] at hc; simp at hc
      · simp [hn, ih N hc]
    rcases hN with rfl | ((h | h) | h) | h
    · simp [Tree.middle]
    · have := key c0 ih0 h; simp only [List.mem_cons, List.mem_append]; tauto
    · have := key c1 ih1 h; simp only [List.mem_cons, List.mem_append]; tauto
    · have := key c2 ih2 h; simp only [List.mem_cons, List.mem_append]; tauto
    · have := key c3 ih3 h; simp only [List.mem_cons, List.mem_append]; tauto

theorem walkList_subset_nodes (t : Tree) :
    ∀ p ∈ walkList t, ∃ N ∈ t.nodes, N.middle = p := by
  induction t with
  | null => intro p hp; simp [walkList] at hp
  | node e m I c0 c1 c2 c3 ih0 ih1 ih2 ih3 =>
    intro p hp
    rw [(walkList_node_perm e m I c0 c1 c2 c3).mem_iff] at hp
    have key : ∀ c : Tree, (∀ p ∈ walkList c, ∃ N ∈ c.nodes, N.middle = p) →
        p ∈ (if c.isNull then [] else walkList c ++ [m]) →
        p = m ∨ ∃ N ∈ c.nodes, N.middle = p := by
      intro c ih hc
      rcases Bool.eq_false_or_eq_true c.isNull with hn | hn
      · simp [hn] at hc
      · rw [hn] at hc
        simp only [Bool.false_eq_true, if_false, List.mem_append, List.mem_singleton] at hc
        rcases hc with hc | hc
        · exact Or.inr (ih p hc)
        · exact Or.inl hc
    have hroot : ∃ N ∈ (Tree.node e m I c0 c1 c2 c3).nodes, N.middle = m :=
      ⟨Tree.node e m I c0 c1 c2 c3, by simp [Tree.nodes], rfl⟩
    simp only [List.mem_cons, List.mem_append] at hp
    rcases hp with rfl | ((h | h) | h) | h
    · exact hroot
    · rcases key c0 ih0 h with rfl | ⟨N, hN, hNm⟩
      · exact hroot
      · exact ⟨N, by simp [Tree.nodes, hN], hNm⟩
    · rcases key c1 ih1 h with rfl | ⟨N, hN, hNm⟩
      · exact hroot
      · exact ⟨N, by simp [Tree.nodes, hN], hNm⟩
    · rcases key c2 ih2 h with rfl | ⟨N, hN, hNm⟩
      · exact hroot
      · exact ⟨N, by simp [Tree.nodes, hN], hNm⟩
    · rcases key c3 ih3 h with rfl | ⟨N, hN, hNm⟩
      · exact hroot
      · exact ⟨N, by simp [Tree.nodes, hN], hNm⟩

theorem foldl_count (l : List Point) :
    ∀ n : Nat, l.foldl (fun s _ => s + 1) n = n + l.length := by
  induction l with
  | nil => intro n; simp
  | cons a l ih => intro n; simp [ih]; omega

/-! ## `prune` -/

theorem prune_null : prune .null = .null := rfl

theorem pruneRemoved_null : pruneRemoved .null = [] := rfl

theorem prune_node (e : Int) (m : Point) (p : Nat) (c0 c1 c2 c3 : Tree) :
    prune (.node e m p c0 c1 c2 c3) =
      .node e m p (pruneSlot 0 c0) (pruneSlot 1 c1) (pruneSlot 2 c2) (pruneSlot 3 c3) := by
  cases c0 <;> cases c1 <;> cases c2 <;> cases c3 <;> rfl

theorem pruneRemoved_node (e : Int) (m : Point) (p : Nat) (c0 c1 c2 c3 : Tree) :
    pruneRemoved (.node e m p c0 c1 c2 c3) =
      removedSlot 0 c0 ++ removedSlot 1 c1 ++ removedSlot 2 c2 ++ removedSlot 3 c3 := by
  cases c0 <;> cases c1 <;> cases c2 <;> cases c3 <;> rfl

/-- Induction over a tree with the hypothesis available for children and grandchildren. -/
theorem Tree.induction2 (P : Tree → Prop) (hnull : P .null)
    (hnode : ∀ e m p c0 c1 c2 c3,
      P c0 → P c1 → P c2 → P c3 →
      (∀ k, P (c0.child k)) → (∀ k, P (c1.child k)) →
      (∀ k, P (c2.child k)) → (∀ k, P (c3.child k)) →
      P (.node e m p c0 c1 c2 c3)) : ∀ t, P t := by
  have key : ∀ t, P t ∧ ∀ k, P (t.child k) := by
    intro t
    induction t with
    | null => exact ⟨hnull, fun k => by simpa [Tree.child] using hnull⟩
    | node e m p c0 c1 c2 c3 ih0 ih1 ih2 ih3 =>
      refine ⟨hnode e m p c0 c1 c2 c3 ih0.1 ih1.1 ih2.1 ih3.1 ih0.2 ih1.2 ih2.2 ih3.2, ?_⟩
      intro k
      match k with
      | 0 => exact ih0.1
      | 1 => exact ih1.1
      | 2 => exact ih2.1
      | k + 3 =>
        have : (Tree.node e m p c0 c1 c2 c3).child (k + 3) = c3 := by
          cases k <;> rfl
        rw [this]; exact ih3.1
  exact fun t => (key t).1

theorem pruneSlot_cases (k : Nat) (c : Tree) :
    (c.isNull = true ∧ pruneSlot k c = .null) ∨
    (c.isNull = false ∧ passThrough k c = true ∧ pruneSlot k c = prune (c.child k)) ∨
    (c.isNull = false ∧ passThrough k c = false ∧ pruneSlot k c = prune c) := by
  unfold pruneSlot
  rcases Bool.eq_false_or_eq_true c.isNull with h | h
  · simp [h]
  · rcases Bool.eq_false_or_eq_true (passThrough k c) with h2 | h2
    · simp [h, h2]
    · simp [h, h2]

theorem prune_isNull (t : Tree) : (prune t).isNull = t.isNull := by
  cases t with
  | null => rfl
  | node e m p c0 c1 c2 c3 => rw [prune_node]; rfl

theorem passThrough_front (k : Nat) (c : Tree) (h : passThrough k c = true) :
    (c.child k).isNull = false ∧ (c.child ((k + 3) % DIRECTION_COUNT)).isNull = true ∧
    (c.child ((k + 1) % DIRECTION_COUNT)).isNull = true := by
  unfold passThrough at h
  simp only [Bool.and_eq_true, Bool.not_eq_true'] at h
  exact ⟨h.1.1, h.1.2, h.2⟩

theorem pruneSlot_isNull (k : Nat) (c : Tree) : (pruneSlot k c).isNull = c.isNull := by
  rcases pruneSlot_cases k c with ⟨h, e⟩ | ⟨h, hp, e⟩ | ⟨h, _, e⟩
  · rw [e, h]; rfl
  · rw [e, prune_isNull, h]; exact (passThrough_front k c hp).1
  · rw [e, prune_isNull]

theorem mem_nodes_child (t : Tree) (k : Nat) : ∀ N ∈ (t.child k).nodes, N ∈ t.nodes := by
  intro N hN
  cases t with
  | null => simpa [Tree.child] using hN
  | node e m p c0 c1 c2 c3 =>
    simp only [Tree.nodes, List.mem_cons, List.mem_append]
    match k, hN with
    | 0, hN => exact Or.inr (Or.inl (Or.inl (Or.inl hN)))
    | 1, hN => exact Or.inr (Or.inl (Or.inl (Or.inr hN)))
    | 2, hN => exact Or.inr (Or.inl (Or.inr hN))
    | k + 3, hN =>
      have : (Tree.node e m p c0 c1 c2 c3).child (k + 3) = c3 := by
        cases k <;> rfl
      rw [this] at hN
      exact Or.inr (Or.inr hN)

/-- Pruning creates no node: every node of the pruned tree carries the fields of a node
of the original tree. -/
theorem prune_nodes_fields (t : Tree) :
    ∀ N' ∈ (prune t).nodes, ∃ N ∈ t.nodes,
      N'.depth = N.depth ∧ N'.middle = N.middle ∧ N'.pth = N.pth := by
  induction t using Tree.induction2 with
  | hnull => intro N' h; rw [prune_null] at h; simp [Tree.nodes] at h
  | hnode e m p c0 c1 c2 c3 ih0 ih1 ih2 ih3 ig0 ig1 ig2 ig3 =>
    have slot : ∀ (k : Nat) (c : Tree),
        (∀ N' ∈ (prune c).nodes, ∃ N ∈ c.nodes,
          N'.depth = N.depth ∧ N'.middle = N.middle ∧ N'.pth = N.pth) →
        (∀ N' ∈ (prune (c.child k)).nodes, ∃ N ∈ (c.child k).nodes,
          N'.depth = N.depth ∧ N'.middle = N.middle ∧ N'.pth = N.pth) →
        ∀ N' ∈ (pruneSlot k c).nodes, ∃ N ∈ c.nodes,
          N'.depth = N.depth ∧ N'.middle = N.middle ∧ N'.pth = N.pth := by
      intro k c h1 h2 N' hN'
      rcases pruneSlot_cases k c with ⟨_, e⟩ | ⟨_, _, e⟩ | ⟨_, _, e⟩
      · rw [e] at hN'; simp [Tree.nodes] at hN'
      · rw [e] at hN'
        obtain ⟨N, hN, hf⟩ := h2 N' hN'
        exact ⟨N, mem_nodes_child c k N hN, hf⟩
      · rw [e] at hN'
        exact h1 N' hN'
    intro N' hN'
    rw [prune_node] at hN'
    simp only [Tree.nodes, List.mem_cons, List.mem_append] at hN' ⊢
    rcases hN' with rfl | ((h | h) | h) | h
    · exact ⟨_, Or.inl rfl, rfl, rfl, rfl⟩
    · obtain ⟨N, hN, hf⟩ := slot 0 c0 ih0 (ig0 0) N' h
      exact ⟨N, Or.inr (Or.inl (Or.inl (Or.inl hN))), hf⟩
    · obtain ⟨N, hN, hf⟩ := slot 1 c1 ih1 (ig1 1) N' h
      exact ⟨N, Or.inr (Or.inl (Or.inl (Or.inr hN))), hf⟩
    · obtain ⟨N, hN, hf⟩ := slot 2 c2 ih2 (ig2 2) N' h
      exact ⟨N, Or.inr (Or.inl (Or.inr hN)), hf⟩
    · obtain ⟨N, hN, hf⟩ := slot 3 c3 ih3 (ig3 3) N' h
      exact ⟨N, Or.inr (Or.inr hN), hf⟩

/-! ## Slot consistency (`Linked`) -/

theorem Tree.child_ofSlots (e : Int) (m : Point) (p : Nat) (f : Nat → Tree) (k : Nat)
    (hk : k < 4) : (Tree.ofSlots e m p f).child k = f k := by
  interval_cases k <;> rfl

theorem Tree.child_ge (t : Tree) (k : Nat) : t.child (k + 3) = t.child 3 := by
  cases t with
  | null => rfl
  | node e m p c0 c1 c2 c3 => cases k <;> rfl

theorem Linked.child_linked {dir : Nat} {t : Tree} (h : Linked dir t) (k : Nat) (hk : k < 4) :
    Linked k (t.child k) := by
  cases t with
  | null => simp [Tree.child, Linked]
  | node e m p c0 c1 c2 c3 =>
    simp only [Linked] at h
    interval_cases k
    · exact h.2.2.1
    · exact h.2.2.2.1
    · exact h.2.2.2.2.1
    · exact h.2.2.2.2.2

theorem Linked.childrenLinked {dir : Nat} {t : Tree} (h : Linked dir t) : ChildrenLinked t :=
  ⟨h.child_linked 0 (by omega), h.child_linked 1 (by omega), h.child_linked 2 (by omega), h.child_linked 3 (by omega)⟩

theorem linked_ofSlots (dir : Nat) (e : Int) (m : Point) (p : Nat) (f : Nat → Tree) :
    Linked dir (Tree.ofSlots e m p f) ↔
      p = dir ∧ (f ((dir + 2) % DIRECTION_COUNT)).isNull = true ∧ ∀ k, k < 4 → Linked k (f k) := by
  have hlt : (dir + 2) % DIRECTION_COUNT < 4 := Nat.mod_lt _ (by decide)
  have hc := Tree.child_ofSlots e m p f _ hlt
  unfold Tree.ofSlots at hc ⊢
  simp only [Linked, hc]
  constructor
  · rintro ⟨h1, h2, h3, h4, h5, h6⟩
    refine ⟨h1, h2, fun k hk => ?_⟩
    interval_cases k <;> assumption
  · rintro ⟨h1, h2, h3⟩
    exact ⟨h1, h2, h3 0 (by omega), h3 1 (by omega), h3 2 (by omega), h3 3 (by omega)⟩

theorem linked_null (dir : Nat) : Linked dir .null := by simp [Linked]

/-- Pruning keeps every node consistent with the slot that holds it. -/
theorem prune_linked (t : Tree) : ∀ dir, Linked dir t → Linked dir (prune t) := by
  induction t using Tree.induction2 with
  | hnull => intro dir _; rw [prune_null]; exact linked_null dir
  | hnode e m p c0 c1 c2 c3 ih0 ih1 ih2 ih3 ig0 ig1 ig2 ig3 =>
    have slot : ∀ (k : Nat) (c : Tree), k < 4 →
        (∀ dir, Linked dir c → Linked dir (prune c)) →
        (∀ dir, Linked dir (c.child k) → Linked dir (prune (c.child k))) →
        Linked k c → Linked k (pruneSlot k c) := by
      intro k c hk h1 h2 hl
      rcases pruneSlot_cases k c with ⟨_, e⟩ | ⟨_, _, e⟩ | ⟨_, _, e⟩
      · rw [e]; exact linked_null k
      · rw [e]; exact h2 k (hl.child_linked k hk)
      · rw [e]; exact h1 k hl
    intro dir hl
    have hl' := hl
    simp only [Linked] at hl
    obtain ⟨hp, hback, l0, l1, l2, l3⟩ := hl
    rw [prune_node]
    simp only [Linked]
    refine ⟨hp, ?_, slot 0 c0 (by omega) ih0 (ig0 0) l0, slot 1 c1 (by omega) ih1 (ig1 1) l1,
      slot 2 c2 (by omega) ih2 (ig2 2) l2, slot 3 c3 (by omega) ih3 (ig3 3) l3⟩
    have hlt : (dir + 2) % DIRECTION_COUNT < 4 := Nat.mod_lt _ (by decide)
    revert hback
    generalize (dir + 2) % DIRECTION_COUNT = b at hlt ⊢
    interval_cases b <;> simp only [Tree.child, pruneSlot_isNull] <;> exact id

theorem pruneSlot_linked (k : Nat) (c : Tree) (hk : k < 4) (h : Linked k c) :
    Linked k (pruneSlot k c) := by
  rcases pruneSlot_cases k c with ⟨_, e⟩ | ⟨_, _, e⟩ | ⟨_, _, e⟩
  · rw [e]; exact linked_null k
  · rw [e]; exact prune_linked _ k (h.child_linked k hk)
  · rw [e]; exact prune_linked _ k h

theorem prune_childrenLinked (t : Tree) (h : ChildrenLinked t) : ChildrenLinked (prune t) := by
  cases t with
  | null => exact h
  | node e m p c0 c1 c2 c3 =>
    rw [prune_node]
    obtain ⟨h0, h1, h2, h3⟩ := h
    exact ⟨pruneSlot_linked 0 c0 (by omega) h0, pruneSlot_linked 1 c1 (by omega) h1,
      pruneSlot_linked 2 c2 (by omega) h2, pruneSlot_linked 3 c3 (by omega) h3⟩

theorem linked_noBackChild (t : Tree) : ∀ dir, Linked dir t → ∀ N ∈ t.nodes, N.noBackChild := by
  induction t with
  | null => intro dir _ N hN; simp [Tree.nodes] at hN
  | node e m p c0 c1 c2 c3 ih0 ih1 ih2 ih3 =>
    intro dir hl N hN
    have hl' := hl
    simp only [Linked] at hl
    obtain ⟨hp, hback, l0, l1, l2, l3⟩ := hl
    simp only [Tree.nodes, List.mem_cons, List.mem_append] at hN
    rcases hN with rfl | ((h | h) | h) | h
    · unfold Tree.noBackChild
      simp only [Tree.pth]
      subst hp; exact hback
    · exact ih0 0 l0 N h
    · exact ih1 1 l1 N h
    · exact ih2 2 l2 N h
    · exact ih3 3 l3 N h

theorem childrenLinked_noBackChild (t : Tree) (h : ChildrenLinked t) :
    ∀ N ∈ t.properNodes, N.noBackChild := by
  intro N hN
  obtain ⟨h0, h1, h2, h3⟩ := h
  simp only [Tree.properNodes, List.mem_append] at hN
  rcases hN with ((hN | hN) | hN) | hN
  · exact linked_noBackChild _ 0 h0 N hN
  · exact linked_noBackChild _ 1 h1 N hN
  · exact linked_noBackChild _ 2 h2 N hN
  · exact linked_noBackChild _ 3 h3 N hN

theorem opp_ne (D : Nat) : (D + 2) % DIRECTION_COUNT ≠ D := by
  simp only [DIRECTION_COUNT]; omega

theorem slotSpec_zero (m : Point) (D : Nat) (o : Int) (below : Tree) :
    slotSpec 0 m D o below =
      Tree.ofSlots (-1) m D (fun k => if k = D then below else .null) := rfl

/-- Every slot content that `addChild` builds is consistent with its slot. -/
theorem slotSpec_linked (n : Nat) : ∀ (m : Point) (D : Nat) (o : Int) (B : Tree),
    D < 4 → Linked D B → Linked D (slotSpec n m D o B) := by
  induction n with
  | zero =>
    intro m D o B hD hB
    rw [slotSpec_zero, linked_ofSlots D _ _ _ _]
    refine ⟨rfl, by simp [opp_ne D, Tree.isNull], fun k hk => ?_⟩
    by_cases hkD : k = D
    · simp only [hkD, if_true]; exact hB
    · simp only [hkD, if_false]; exact linked_null k
  | succ n ih =>
    intro m D o B hD hB
    rw [slotSpec_succ]
    apply ih _ D _ _ hD
    rw [linked_ofSlots D _ _ _ _]
    refine ⟨rfl, by simp [Tree.isNull], fun k hk => ?_⟩
    by_cases hko : k = (D + 2) % DIRECTION_COUNT
    · simp only [hko, if_true]; exact linked_null _
    · simp only [hko, if_false]
      apply ih _ k _ _ hk
      by_cases hkD : k = D
      · simp only [hkD, if_true]; exact hB
      · simp only [hkD, if_false]; exact linked_null k

theorem specTree_childrenLinked (c : Point) (r : Int) (d : Nat) :
    ChildrenLinked (specTree c r d) := by
  unfold ChildrenLinked specTree
  simp only [Tree.child_ofSlots _ _ _ _ _ (show 0 < 4 by omega),
    Tree.child_ofSlots _ _ _ _ _ (show 1 < 4 by omega),
    Tree.child_ofSlots _ _ _ _ _ (show 2 < 4 by omega),
    Tree.child_ofSlots _ _ _ _ _ (show 3 < 4 by omega)]
  exact ⟨slotSpec_linked d _ 0 _ _ (by omega) (linked_null 0),
    slotSpec_linked d _ 1 _ _ (by omega) (linked_null 1),
    slotSpec_linked d _ 2 _ _ (by omega) (linked_null 2),
    slotSpec_linked d _ 3 _ _ (by omega) (linked_null 3)⟩

/-! ## Small cases of the closed form -/

theorem childMiddleOffset_LU (o : Int) : childMiddleOffset 0 o = ⟨-o, o⟩ := by
  simp [childMiddleOffset]

theorem childMiddleOffset_RU (o : Int) : childMiddleOffset 1 o = ⟨o, o⟩ := by
  simp [childMiddleOffset]

theorem childMiddleOffset_RD (o : Int) : childMiddleOffset 2 o = ⟨o, -o⟩ := by
  simp [childMiddleOffset]

theorem childMiddleOffset_LD (o : Int) : childMiddleOffset 3 o = ⟨-o, -o⟩ := by
  simp [childMiddleOffset]

theorem Point.add_def (a b : Point) : a + b = ⟨a.X + b.X, a.Y + b.Y⟩ := rfl

theorem specTree_zero (c : Point) (r : Int) :
    specTree c r 0 =
      .node 0 c 4
        (.node (-1) ⟨c.X - r.tdiv 2, c.Y + r.tdiv 2⟩ 0 .null .null .null .null)
        (.node (-1) ⟨c.X + r.tdiv 2, c.Y + r.tdiv 2⟩ 1 .null .null .null .null)
        (.node (-1) ⟨c.X + r.tdiv 2, c.Y - r.tdiv 2⟩ 2 .null .null .null .null)
        (.node (-1) ⟨c.X - r.tdiv 2, c.Y - r.tdiv 2⟩ 3 .null .null .null .null) := by
  simp only [specTree, slotSpec_zero, Tree.ofSlots, childMiddleOffset_LU, childMiddleOffset_RU,
    childMiddleOffset_RD, childMiddleOffset_LD, Point.add_def, DIRECTION_COUNT]
  simp [sub_eq_add_neg]

/-! ## Field invariants of the closed form -/

theorem mem_nodes_ofSlots (e : Int) (m : Point) (p : Nat) (f : Nat → Tree) (N : Tree) :
    N ∈ (Tree.ofSlots e m p f).nodes ↔
      N = Tree.ofSlots e m p f ∨ ∃ k, k < 4 ∧ N ∈ (f k).nodes := by
  unfold Tree.ofSlots
  simp only [Tree.nodes, List.mem_cons, List.mem_append]
  constructor
  · rintro (h | ((h | h) | h) | h)
    · exact Or.inl h
    · exact Or.inr ⟨0, by omega, h⟩
    · exact Or.inr ⟨1, by omega, h⟩
    · exact Or.inr ⟨2, by omega, h⟩
    · exact Or.inr ⟨3, by omega, h⟩
  · rintro (h | ⟨k, hk, h⟩)
    · exact Or.inl h
    · interval_cases k
      · exact Or.inr (Or.inl (Or.inl (Or.inl h)))
      · exact Or.inr (Or.inl (Or.inl (Or.inr h)))
      · exact Or.inr (Or.inl (Or.inr h))
      · exact Or.inr (Or.inr h)

theorem Tree.depth_ofSlots (e : Int) (m : Point) (p : Nat) (f : Nat → Tree) :
    (Tree.ofSlots e m p f).depth = e := rfl

theorem Tree.middle_ofSlots (e : Int) (m : Point) (p : Nat) (f : Nat → Tree) :
    (Tree.ofSlots e m p f).middle = m := rfl

theorem Tree.pth_ofSlots (e : Int) (m : Point) (p : Nat) (f : Nat → Tree) :
    (Tree.ofSlots e m p f).pth = p := rfl

/-- No node of a slot content has a depth value below `-1`. -/
theorem slotSpec_depth_ge (n : Nat) : ∀ (m : Point) (D : Nat) (o : Int) (B : Tree),
    (∀ N ∈ B.nodes, -1 ≤ N.depth) → ∀ N ∈ (slotSpec n m D o B).nodes, -1 ≤ N.depth := by
  induction n with
  | zero =>
    intro m D o B hB N hN
    rw [slotSpec_zero, mem_nodes_ofSlots] at hN
    rcases hN with rfl | ⟨k, _, hk⟩
    · simp [Tree.depth_ofSlots]
    · by_cases hkD : k = D
      · simp only [hkD, if_true] at hk; exact hB N hk
      · simp [hkD, Tree.nodes] at hk
  | succ n ih =>
    intro m D o B hB N hN
    rw [slotSpec_succ] at hN
    refine ih _ D _ _ ?_ N hN
    intro N hN
    rw [mem_nodes_ofSlots] at hN
    rcases hN with rfl | ⟨k, _, hk⟩
    · rw [Tree.depth_ofSlots]; omega
    · by_cases hko : k = (D + 2) % DIRECTION_COUNT
      · simp [hko, Tree.nodes] at hk
      · simp only [hko, if_false] at hk
        refine ih _ k _ _ ?_ N hk
        intro N hN
        by_cases hkD : k = D
        · simp only [hkD, if_true] at hN; exact hB N hN
        · simp [hkD, Tree.nodes] at hN

theorem specTree_depth_ge (c : Point) (r : Int) (d : Nat) :
    ∀ N ∈ (specTree c r d).nodes, -1 ≤ N.depth := by
  intro N hN
  unfold specTree at hN
  rw [mem_nodes_ofSlots] at hN
  rcases hN with rfl | ⟨k, _, hk⟩
  · rw [Tree.depth_ofSlots]; omega
  · exact slotSpec_depth_ge d _ k _ .null (by simp [Tree.nodes]) N hk

theorem childMiddleOffset_X (k : Nat) (o : Int) :
    (childMiddleOffset k o).X = o ∨ (childMiddleOffset k o).X = -o := by
  unfold childMiddleOffset
  by_cases h : k = LD ∨ k = LU <;> simp [h]

theorem childMiddleOffset_Y (k : Nat) (o : Int) :
    (childMiddleOffset k o).Y = o ∨ (childMiddleOffset k o).Y = -o := by
  unfold childMiddleOffset
  by_cases h : k = LD ∨ k = RD <;> simp [h]

theorem tdiv_two_bounds (o : Int) (ho : 0 ≤ o) : 0 ≤ o.tdiv 2 ∧ 2 * o.tdiv 2 ≤ o := by
  rw [Int.tdiv_eq_ediv ho (by decide)]
  omega

/-- Every node of a slot content stays inside the square of half-width `R` around `c`, when
the first node `m` leaves room for twice the offset `o` used below it. -/
theorem slotSpec_within (c : Point) (R : Int) (n : Nat) :
    ∀ (m : Point) (D : Nat) (o : Int) (B : Tree), 0 ≤ o →
    c.X - R + 2 * o ≤ m.X → m.X ≤ c.X + R - 2 * o →
    c.Y - R + 2 * o ≤ m.Y → m.Y ≤ c.Y + R - 2 * o →
    (∀ N ∈ B.nodes, c.X - R ≤ N.middle.X ∧ N.middle.X ≤ c.X + R ∧
      c.Y - R ≤ N.middle.Y ∧ N.middle.Y ≤ c.Y + R) →
    ∀ N ∈ (slotSpec n m D o B).nodes, c.X - R ≤ N.middle.X ∧ N.middle.X ≤ c.X + R ∧
      c.Y - R ≤ N.middle.Y ∧ N.middle.Y ≤ c.Y + R := by
  induction n with
  | zero =>
    intro m D o B ho h1 h2 h3 h4 hB N hN
    rw [slotSpec_zero, mem_nodes_ofSlots] at hN
    rcases hN with rfl | ⟨k, _, hk⟩
    · simp only [Tree.middle_ofSlots]; omega
    · by_cases hkD : k = D
      · simp only [hkD, if_true] at hk; exact hB N hk
      · simp [hkD, Tree.nodes] at hk
  | succ n ih =>
    intro m D o B ho h1 h2 h3 h4 hB N hN
    rw [slotSpec_succ] at hN
    obtain ⟨hd1, hd2⟩ := tdiv_two_bounds o ho
    have step : ∀ k, c.X - R + 2 * o.tdiv 2 ≤ (m + childMiddleOffset k o).X ∧
        (m + childMiddleOffset k o).X ≤ c.X + R - 2 * o.tdiv 2 ∧
        c.Y - R + 2 * o.tdiv 2 ≤ (m + childMiddleOffset k o).Y ∧
        (m + childMiddleOffset k o).Y ≤ c.Y + R - 2 * o.tdiv 2 := by
      intro k
      simp only [Point.add_def]
      rcases childMiddleOffset_X k o with hx | hx <;>
        rcases childMiddleOffset_Y k o with hy | hy <;>
        rw [hx, hy] <;> omega
    obtain ⟨s1, s2, s3, s4⟩ := step ((D + 2) % DIRECTION_COUNT)
    refine ih _ D _ _ hd1 s1 s2 s3 s4 ?_ N hN
    intro N hN
    rw [mem_nodes_ofSlots] at hN
    rcases hN with rfl | ⟨k, _, hk⟩
    · simp only [Tree.middle_ofSlots]; omega
    · by_cases hko : k = (D + 2) % DIRECTION_COUNT
      · simp [hko, Tree.nodes] at hk
      · simp only [hko, if_false] at hk
        obtain ⟨t1, t2, t3, t4⟩ := step k
        refine ih _ k _ _ hd1 t1 t2 t3 t4 ?_ N hk
        intro N hN
        by_cases hkD : k = D
        · simp only [hkD, if_true] at hN; exact hB N hN
        · simp [hkD, Tree.nodes] at hN

theorem specTree_within (c : Point) (r : Int) (d : Nat) (hr : 0 ≤ r) :
    ∀ N ∈ (specTree c r d).nodes, c.X - r ≤ N.middle.X ∧ N.middle.X ≤ c.X + r ∧
      c.Y - r ≤ N.middle.Y ∧ N.middle.Y ≤ c.Y + r := by
  intro N hN
  unfold specTree at hN
  rw [mem_nodes_ofSlots] at hN
  obtain ⟨hd1, hd2⟩ := tdiv_two_bounds r hr
  obtain ⟨he1, he2⟩ := tdiv_two_bounds (r.tdiv 2) hd1
  rcases hN with rfl | ⟨k, _, hk⟩
  · simp only [Tree.middle_ofSlots]; omega
  · have step : c.X - r + 2 * (r.tdiv 2).tdiv 2 ≤ (c + childMiddleOffset k (r.tdiv 2)).X ∧
        (c + childMiddleOffset k (r.tdiv 2)).X ≤ c.X + r - 2 * (r.tdiv 2).tdiv 2 ∧
        c.Y - r + 2 * (r.tdiv 2).tdiv 2 ≤ (c + childMiddleOffset k (r.tdiv 2)).Y ∧
        (c + childMiddleOffset k (r.tdiv 2)).Y ≤ c.Y + r - 2 * (r.tdiv 2).tdiv 2 := by
      simp only [Point.add_def]
      rcases childMiddleOffset_X k (r.tdiv 2) with hx | hx <;>
        rcases childMiddleOffset_Y k (r.tdiv 2) with hy | hy <;>
        rw [hx, hy] <;> omega
    obtain ⟨t1, t2, t3, t4⟩ := step
    exact slotSpec_within c r d _ k _ .null he1 t1 t2 t3 t4 (by simp [Tree.nodes]) N hk

/-! ## Height of the pruned tree -/

theorem prune_ofSlots (e : Int) (m : Point) (p : Nat) (f : Nat → Tree) :
    prune (Tree.ofSlots e m p f) = Tree.ofSlots e m p (fun k => pruneSlot k (f k)) := by
  unfold Tree.ofSlots
  rw [prune_node]

theorem passThrough_ofSlots (D : Nat) (hD : D < 4) (e : Int) (m : Point) (p : Nat)
    (f : Nat → Tree) :
    passThrough D (Tree.ofSlots e m p f) =
      (!(f D).isNull && (f ((D + 3) % DIRECTION_COUNT)).isNull &&
        (f ((D + 1) % DIRECTION_COUNT)).isNull) := by
  unfold passThrough
  simp only [Tree.child_ofSlots e m p f D hD,
    Tree.child_ofSlots e m p f _ (Nat.mod_lt (D + 3) (by decide : 0 < DIRECTION_COUNT)),
    Tree.child_ofSlots e m p f _ (Nat.mod_lt (D + 1) (by decide : 0 < DIRECTION_COUNT))]

theorem Tree.isNull_ofSlots (e : Int) (m : Point) (p : Nat) (f : Nat → Tree) :
    (Tree.ofSlots e m p f).isNull = false := rfl

theorem Tree.height_pos (t : Tree) (h : t.isNull = false) : 1 ≤ t.height := by
  cases t with
  | null => simp [Tree.isNull] at h
  | node => simp [Tree.height]

theorem Tree.height_of_isNull (t : Tree) (h : t.isNull = true) : t.height = 0 := by
  cases t with
  | null => rfl
  | node => simp [Tree.isNull] at h

theorem side_ne (D : Nat) : (D + 3) % DIRECTION_COUNT ≠ D ∧ (D + 1) % DIRECTION_COUNT ≠ D := by
  simp only [DIRECTION_COUNT]; omega

/-- What `prune` leaves in slot `D` of a slot content of `addChild`: one pass of `prune`
removes every second node of the chain in direction `D`. -/
theorem pruneSlot_slotSpec_height (n : Nat) : ∀ (m : Point) (D : Nat) (o : Int) (B : Tree),
    D < 4 →
    (pruneSlot D (slotSpec n m D o B)).height + (if B.isNull then 0 else 1) ≤
      (prune B).height + 2 ^ n := by
  induction n with
  | zero =>
    intro m D o B hD
    rw [slotSpec_zero]
    rcases Bool.eq_false_or_eq_true B.isNull with hB | hB
    · -- nothing below: the node is a leaf and stays
      have hpt : passThrough D (Tree.ofSlots (-1) m D
          (fun k => if k = D then B else .null)) = false := by
        rw [passThrough_ofSlots D hD]; simp [hB]
      have : pruneSlot D (Tree.ofSlots (-1) m D (fun k => if k = D then B else .null)) =
          prune (Tree.ofSlots (-1) m D (fun k => if k = D then B else .null)) := by
        unfold pruneSlot; simp [Tree.isNull_ofSlots, hpt]
      rw [this, prune_ofSlots]
      have hb := Tree.height_ofSlots (-1) m D
        (fun k => pruneSlot k (if k = D then B else .null)) 0 (by
          intro k _
          have : (if k = D then B else Tree.null).isNull = true := by
            by_cases hk : k = D <;> simp [hk, hB, Tree.isNull_null]
          have h0 := pruneSlot_isNull k (if k = D then B else Tree.null)
          rw [this] at h0
          rw [Tree.height_of_isNull _ h0])
      simp only [hB, if_true]
      simp only [pow_zero]
      omega
    · -- something below: the node is a pass-through and is removed
      have hpt : passThrough D (Tree.ofSlots (-1) m D
          (fun k => if k = D then B else .null)) = true := by
        rw [passThrough_ofSlots D hD]
        simp [hB, (side_ne D).1, (side_ne D).2, Tree.isNull_null]
      have : pruneSlot D (Tree.ofSlots (-1) m D (fun k => if k = D then B else .null)) =
          prune B := by
        unfold pruneSlot
        simp [Tree.isNull_ofSlots, hpt, Tree.child_ofSlots _ _ _ _ D hD]
      rw [this]
      simp [hB]
  | succ n ih =>
    intro m D o B hD
    rw [slotSpec_succ]
    have hX := ih (m + childMiddleOffset ((D + 2) % DIRECTION_COUNT) o) D (o.tdiv 2)
      (Tree.ofSlots n m D (fun k =>
        if k = (D + 2) % DIRECTION_COUNT then .null
        else slotSpec n (m + childMiddleOffset k o) k (o.tdiv 2)
          (if k = D then B else .null))) hD
    rw [Tree.isNull_ofSlots, prune_ofSlots] at hX
    simp only [Bool.false_eq_true, if_false] at hX
    have hpow : 2 ^ (n + 1) = 2 ^ n + 2 ^ n := by rw [pow_succ]; omega
    have hpos : 0 < 2 ^ n := Nat.pow_pos (by decide)
    have hB0 : B.isNull = true → (prune B).height = 0 := fun h =>
      Tree.height_of_isNull _ (by rw [prune_isNull]; exact h)
    have hB1 : B.isNull = false → 1 ≤ (prune B).height := fun h =>
      Tree.height_pos _ (by rw [prune_isNull]; exact h)
    have hb := Tree.height_ofSlots n m D (fun k => pruneSlot k
        (if k = (D + 2) % DIRECTION_COUNT then .null
        else slotSpec n (m + childMiddleOffset k o) k (o.tdiv 2)
          (if k = D then B else .null)))
      ((prune B).height + 2 ^ n - (if B.isNull then 0 else 1)) (by
        intro k hk
        by_cases hko : k = (D + 2) % DIRECTION_COUNT
        · simp only [hko, if_true]
          rw [Tree.height_of_isNull _ (by rw [pruneSlot_isNull]; rfl)]
          omega
        · simp only [hko, if_false]
          have hk' := ih (m + childMiddleOffset k o) k (o.tdiv 2)
            (if k = D then B else .null) hk
          by_cases hkD : k = D
          · simp only [hkD, if_true] at hk' ⊢
            omega
          · simp only [hkD, if_false, Tree.isNull_null, if_true, prune_null,
              Tree.height] at hk' ⊢
            rcases Bool.eq_false_or_eq_true B.isNull with hB | hB
            · simp only [hB, if_true]; omega
            · have := hB1 hB
              simp only [hB, Bool.false_eq_true, if_false]; omega)
    rcases Bool.eq_false_or_eq_true B.isNull with hB | hB
    · have := hB0 hB
      simp only [hB, if_true] at hb ⊢
      omega
    · have := hB1 hB
      simp only [hB, Bool.false_eq_true, if_false] at hb ⊢
      omega

theorem height_prune_specTree (c : Point) (r : Int) (d : Nat) :
    (prune (specTree c r d)).height ≤ 2 ^ d + 1 := by
  unfold specTree
  rw [prune_ofSlots]
  have := Tree.height_ofSlots d c DIRECTION_COUNT (fun k => pruneSlot k
      (slotSpec d (c + childMiddleOffset k (r.tdiv 2)) k ((r.tdiv 2).tdiv 2) .null)) (2 ^ d) (by
    intro k hk
    have := pruneSlot_slotSpec_height d (c + childMiddleOffset k (r.tdiv 2)) k
      ((r.tdiv 2).tdiv 2) .null hk
    simpa [Tree.isNull_null, prune_null, Tree.height] using this)
  omega

theorem leafDepths_lt_height (t : Tree) : ∀ l ∈ t.leafDepths, l < t.height := by
  induction t with
  | null => intro l hl; simp [Tree.leafDepths] at hl
  | node e m p c0 c1 c2 c3 ih0 ih1 ih2 ih3 =>
    intro l hl
    simp only [Tree.leafDepths] at hl
    simp only [Tree.height]
    split at hl
    · simp at hl; omega
    · simp only [List.mem_map, List.mem_append] at hl
      obtain ⟨l', hl', rfl⟩ := hl
      rcases hl' with ((h | h) | h) | h
      · have := ih0 l' h; omega
      · have := ih1 l' h; omega
      · have := ih2 l' h; omega
      · have := ih3 l' h; omega

theorem leafDepths_of_isNull (t : Tree) (h : t.isNull = true) : t.leafDepths = [] := by
  cases t with
  | null => rfl
  | node => simp [Tree.isNull] at h

theorem mem_leafDepths_ofSlots (e : Int) (m : Point) (p : Nat) (f : Nat → Tree) (k : Nat)
    (hk : k < 4) (l : Nat) (hl : l ∈ (f k).leafDepths) :
    l + 1 ∈ (Tree.ofSlots e m p f).leafDepths := by
  have hnn : (f k).isNull = false := by
    rcases Bool.eq_false_or_eq_true (f k).isNull with h | h
    · rw [leafDepths_of_isNull _ h] at hl; simp at hl
    · exact h
  unfold Tree.ofSlots
  simp only [Tree.leafDepths]
  have hcond : ((f 0).isNull && (f 1).isNull && (f 2).isNull && (f 3).isNull) = false := by
    interval_cases k <;> simp [hnn]
  rw [hcond]
  simp only [Bool.false_eq_true, if_false, List.mem_map, List.mem_append]
  refine ⟨l, ?_, rfl⟩
  interval_cases k
  · exact Or.inl (Or.inl (Or.inl hl))
  · exact Or.inl (Or.inl (Or.inr hl))
  · exact Or.inl (Or.inr hl)
  · exact Or.inr hl

/-- The chain in direction `D` survives `prune` with every second node removed: below a
slot content of `addChild` some leaf sits `2 ^ n - 1` edges deeper than it would below the
earlier content alone. -/
theorem pruneSlot_slotSpec_deep (n : Nat) : ∀ (m : Point) (D : Nat) (o : Int) (B : Tree),
    D < 4 →
    (B.isNull = true → 2 ^ n - 1 ∈ (pruneSlot D (slotSpec n m D o B)).leafDepths) ∧
    (B.isNull = false → ∀ l ∈ (prune B).leafDepths,
      l + (2 ^ n - 1) ∈ (pruneSlot D (slotSpec n m D o B)).leafDepths) := by
  induction n with
  | zero =>
    intro m D o B hD
    rw [slotSpec_zero]
    constructor
    · intro hB
      have hpt : passThrough D (Tree.ofSlots (-1) m D
          (fun k => if k = D then B else .null)) = false := by
        rw [passThrough_ofSlots D hD]; simp [hB]
      have : pruneSlot D (Tree.ofSlots (-1) m D (fun k => if k = D then B else .null)) =
          prune (Tree.ofSlots (-1) m D (fun k => if k = D then B else .null)) := by
        unfold pruneSlot; simp [Tree.isNull_ofSlots, hpt]
      rw [this, prune_ofSlots]
      have hnull : ∀ k, (pruneSlot k (if k = D then B else Tree.null)).isNull = true := by
        intro k
        rw [pruneSlot_isNull]
        by_cases hk : k = D <;> simp [hk, hB, Tree.isNull_null]
      unfold Tree.ofSlots
      simp [Tree.leafDepths, hnull]
    · intro hB l hl
      have hpt : passThrough D (Tree.ofSlots (-1) m D
          (fun k => if k = D then B else .null)) = true := by
        rw [passThrough_ofSlots D hD]
        simp [hB, (side_ne D).1, (side_ne D).2, Tree.isNull_null]
      have : pruneSlot D (Tree.ofSlots (-1) m D (fun k => if k = D then B else .null)) =
          prune B := by
        unfold pruneSlot
        simp [Tree.isNull_ofSlots, hpt, Tree.child_ofSlots _ _ _ _ D hD]
      rw [this]
      simpa using hl
  | succ n ih =>
    intro m D o B hD
    rw [slotSpec_succ]
    have hX := (ih (m + childMiddleOffset ((D + 2) % DIRECTION_COUNT) o) D (o.tdiv 2)
      (Tree.ofSlots n m D (fun k =>
        if k = (D + 2) % DIRECTION_COUNT then .null
        else slotSpec n (m + childMiddleOffset k o) k (o.tdiv 2)
          (if k = D then B else .null))) hD).2 (Tree.isNull_ofSlots _ _ _ _)
    rw [prune_ofSlots] at hX
    have hpow : 2 ^ (n + 1) = 2 ^ n + 2 ^ n := by rw [pow_succ]; omega
    have hpos : 0 < 2 ^ n := Nat.pow_pos (by decide)
    have hfront := ih (m + childMiddleOffset D o) D (o.tdiv 2) B hD
    have hDo : D ≠ (D + 2) % DIRECTION_COUNT := fun e => opp_ne D e.symm
    have up : ∀ l, l ∈ (pruneSlot D (slotSpec n (m + childMiddleOffset D o) D (o.tdiv 2)
        B)).leafDepths → l + 1 + (2 ^ n - 1) ∈ (pruneSlot D (slotSpec n
          (m + childMiddleOffset ((D + 2) % DIRECTION_COUNT) o) D (o.tdiv 2)
          (Tree.ofSlots n m D (fun k =>
            if k = (D + 2) % DIRECTION_COUNT then .null
            else slotSpec n (m + childMiddleOffset k o) k (o.tdiv 2)
              (if k = D then B else .null))))).leafDepths := by
      intro l hl
      apply hX
      apply mem_leafDepths_ofSlots _ _ _ _ D hD
      simp only [hDo, if_false, if_true]
      exact hl
    constructor
    · intro hB
      have := up _ (hfront.1 hB)
      have e : 2 ^ n - 1 + 1 + (2 ^ n - 1) = 2 ^ (n + 1) - 1 := by omega
      rw [e] at this
      exact this
    · intro hB l hl
      have := up _ (hfront.2 hB l hl)
      have e : l + (2 ^ n - 1) + 1 + (2 ^ n - 1) = l + (2 ^ (n + 1) - 1) := by omega
      rw [e] at this
      exact this

theorem deep_leaf_prune_specTree (c : Point) (r : Int) (d : Nat) :
    2 ^ d ∈ (prune (specTree c r d)).leafDepths := by
  unfold specTree
  rw [prune_ofSlots]
  have h := (pruneSlot_slotSpec_deep d (c + childMiddleOffset 0 (r.tdiv 2)) 0
    ((r.tdiv 2).tdiv 2) .null (by omega)).1 rfl
  have := mem_leafDepths_ofSlots d c DIRECTION_COUNT (fun k => pruneSlot k
      (slotSpec d (c + childMiddleOffset k (r.tdiv 2)) k ((r.tdiv 2).tdiv 2) .null)) 0
      (by omega) _ h
  have hpos : 0 < 2 ^ d := Nat.pow_pos (by decide)
  have e : 2 ^ d - 1 + 1 = 2 ^ d := by omega
  rw [e] at this
  exact this

/-! ## What `prune` removes -/

theorem removedSlot_cases (k : Nat) (c : Tree) :
    (c.isNull = true ∧ removedSlot k c = []) ∨
    (c.isNull = false ∧ passThrough k c = true ∧
      removedSlot k c = c :: pruneRemoved (c.child k)) ∨
    (c.isNull = false ∧ passThrough k c = false ∧ removedSlot k c = pruneRemoved c) := by
  unfold removedSlot
  rcases Bool.eq_false_or_eq_true c.isNull with h | h
  · simp [h]
  · rcases Bool.eq_false_or_eq_true (passThrough k c) with h2 | h2
    · simp [h, h2]
    · simp [h, h2]

theorem leafPositions_of_isNull (t : Tree) (h : t.isNull = true) : t.leafPositions = [] := by
  cases t with
  | null => rfl
  | node => simp [Tree.isNull] at h

/-- A pass-through node that is consistent with its slot has its front child as only
child. -/
theorem passThrough_single (k : Nat) (hk : k < 4) (c : Tree) (hl : Linked k c)
    (hp : passThrough k c = true) :
    c.numChildren = 1 ∧ c.leafPositions = (c.child k).leafPositions := by
  obtain ⟨hf, hleft, hright⟩ := passThrough_front k c hp
  cases c with
  | null => simp [Tree.child, Tree.isNull] at hf
  | node e m p c0 c1 c2 c3 =>
    simp only [Linked] at hl
    obtain ⟨_, hback, _⟩ := hl
    simp only [DIRECTION_COUNT] at hleft hright hback
    interval_cases k <;> simp only [Tree.child, Nat.reduceAdd, Nat.reduceMod] at hf hleft hright hback
    · simp [Tree.numChildren, Tree.leafPositions, Tree.child, hf, hleft, hright, hback,
        leafPositions_of_isNull]
    · simp [Tree.numChildren, Tree.leafPositions, Tree.child, hf, hleft, hright, hback,
        leafPositions_of_isNull]
    · simp [Tree.numChildren, Tree.leafPositions, Tree.child, hf, hleft, hright, hback,
        leafPositions_of_isNull]
    · simp [Tree.numChildren, Tree.leafPositions, Tree.child, hf, hleft, hright, hback,
        leafPositions_of_isNull]

/-- In a tree whose nodes are consistent with their slots, every node that `prune` deletes
has exactly one child when it is deleted. -/
theorem pruneRemoved_single (t : Tree) :
    ChildrenLinked t → ∀ X ∈ pruneRemoved t, X.numChildren = 1 := by
  induction t using Tree.induction2 with
  | hnull => intro _ X hX; rw [pruneRemoved_null] at hX; simp at hX
  | hnode e m p c0 c1 c2 c3 ih0 ih1 ih2 ih3 ig0 ig1 ig2 ig3 =>
    have slot : ∀ (k : Nat) (c : Tree), k < 4 →
        (ChildrenLinked c → ∀ X ∈ pruneRemoved c, X.numChildren = 1) →
        (ChildrenLinked (c.child k) → ∀ X ∈ pruneRemoved (c.child k), X.numChildren = 1) →
        Linked k c → ∀ X ∈ removedSlot k c, X.numChildren = 1 := by
      intro k c hk h1 h2 hl X hX
      rcases removedSlot_cases k c with ⟨_, e⟩ | ⟨_, hp, e⟩ | ⟨_, _, e⟩
      · rw [e] at hX; simp at hX
      · rw [e] at hX
        simp only [List.mem_cons] at hX
        rcases hX with rfl | hX
        · exact (passThrough_single k hk _ hl hp).1
        · exact h2 (hl.child_linked k hk).childrenLinked X hX
      · rw [e] at hX
        exact h1 hl.childrenLinked X hX
    intro hcl X hX
    obtain ⟨l0, l1, l2, l3⟩ := hcl
    rw [pruneRemoved_node] at hX
    simp only [List.mem_append] at hX
    rcases hX with ((h | h) | h) | h
    · exact slot 0 c0 (by omega) ih0 (ig0 0) l0 X h
    · exact slot 1 c1 (by omega) ih1 (ig1 1) l1 X h
    · exact slot 2 c2 (by omega) ih2 (ig2 2) l2 X h
    · exact slot 3 c3 (by omega) ih3 (ig3 3) l3 X h

/-- In a tree whose nodes are consistent with their slots, `prune` keeps the leaves. -/
theorem prune_leafPositions (t : Tree) :
    ChildrenLinked t → (prune t).leafPositions = t.leafPositions := by
  induction t using Tree.induction2 with
  | hnull => intro _; rw [prune_null]
  | hnode e m p c0 c1 c2 c3 ih0 ih1 ih2 ih3 ig0 ig1 ig2 ig3 =>
    have slot : ∀ (k : Nat) (c : Tree), k < 4 →
        (ChildrenLinked c → (prune c).leafPositions = c.leafPositions) →
        (ChildrenLinked (c.child k) →
          (prune (c.child k)).leafPositions = (c.child k).leafPositions) →
        Linked k c → (pruneSlot k c).leafPositions = c.leafPositions := by
      intro k c hk h1 h2 hl
      rcases pruneSlot_cases k c with ⟨hn, e⟩ | ⟨_, hp, e⟩ | ⟨_, _, e⟩
      · rw [e, leafPositions_of_isNull c hn]; rfl
      · rw [e, h2 (hl.child_linked k hk).childrenLinked, (passThrough_single k hk _ hl hp).2]
      · rw [e, h1 hl.childrenLinked]
    intro hcl
    obtain ⟨l0, l1, l2, l3⟩ := hcl
    rw [prune_node]
    simp only [Tree.leafPositions, pruneSlot_isNull,
      slot 0 c0 (by omega) ih0 (ig0 0) l0, slot 1 c1 (by omega) ih1 (ig1 1) l1,
      slot 2 c2 (by omega) ih2 (ig2 2) l2, slot 3 c3 (by omega) ih3 (ig3 3) l3]

theorem passThrough_single_nodes (k : Nat) (hk : k < 4) (c : Tree) (hl : Linked k c)
    (hp : passThrough k c = true) :
    c.nodes.length = (c.child k).nodes.length + 1 := by
  obtain ⟨hf, hleft, hright⟩ := passThrough_front k c hp
  cases c with
  | null => simp [Tree.child, Tree.isNull] at hf
  | node e m p c0 c1 c2 c3 =>
    simp only [Linked] at hl
    obtain ⟨_, hback, _⟩ := hl
    simp only [DIRECTION_COUNT] at hleft hright hback
    interval_cases k <;>
      simp only [Tree.child, Nat.reduceAdd, Nat.reduceMod] at hf hleft hright hback <;>
      simp [Tree.nodes, Tree.child, nodes_of_isNull, hleft, hright, hback]

/-- The nodes listed by `pruneRemoved` are exactly the nodes that disappear: in a tree
whose nodes are consistent with their slots, the pruned tree and the removed nodes
together count the nodes of the original tree. -/
theorem prune_nodes_count (t : Tree) :
    ChildrenLinked t → (prune t).nodes.length + (pruneRemoved t).length = t.nodes.length := by
  induction t using Tree.induction2 with
  | hnull => intro _; rw [prune_null, pruneRemoved_null]; rfl
  | hnode e m p c0 c1 c2 c3 ih0 ih1 ih2 ih3 ig0 ig1 ig2 ig3 =>
    have slot : ∀ (k : Nat) (c : Tree), k < 4 →
        (ChildrenLinked c → (prune c).nodes.length + (pruneRemoved c).length = c.nodes.length) →
        (ChildrenLinked (c.child k) → (prune (c.child k)).nodes.length +
          (pruneRemoved (c.child k)).length = (c.child k).nodes.length) →
        Linked k c → (pruneSlot k c).nodes.length + (removedSlot k c).length = c.nodes.length := by
      intro k c hk h1 h2 hl
      rcases pruneSlot_cases k c with ⟨hn, e⟩ | ⟨hn, hp, e⟩ | ⟨hn, hp, e⟩
      · have e' : removedSlot k c = [] := by unfold removedSlot; simp [hn]
        rw [e, e', nodes_of_isNull c hn]; rfl
      · have e' : removedSlot k c = c :: pruneRemoved (c.child k) := by
          unfold removedSlot; simp [hn, hp]
        rw [e, e', passThrough_single_nodes k hk c hl hp, List.length_cons]
        have := h2 (hl.child_linked k hk).childrenLinked
        omega
      · have e' : removedSlot k c = pruneRemoved c := by
          unfold removedSlot; simp [hn, hp]
        rw [e, e']
        exact h1 hl.childrenLinked
    intro hcl
    obtain ⟨l0, l1, l2, l3⟩ := hcl
    rw [prune_node, pruneRemoved_node]
    have s0 := slot 0 c0 (by omega) ih0 (ig0 0) l0
    have s1 := slot 1 c1 (by omega) ih1 (ig1 1) l1
    have s2 := slot 2 c2 (by omega) ih2 (ig2 2) l2
    have s3 := slot 3 c3 (by omega) ih3 (ig3 3) l3
    simp only [Tree.nodes, List.length_cons, List.length_append]
    omega

/-! ## Shape of a tree -/

theorem sameShape_null : sameShape .null .null := by simp [sameShape]

theorem sameShape_isNull {a b : Tree} (h : sameShape a b) : a.isNull = b.isNull := by
  cases a <;> cases b <;> simp [sameShape, Tree.isNull] at h ⊢

theorem sameShape_child {a b : Tree} (h : sameShape a b) (k : Nat) :
    sameShape (a.child k) (b.child k) := by
  cases a with
  | null =>
    cases b with
    | null => simpa [Tree.child] using sameShape_null
    | node => simp [sameShape] at h
  | node e m p a0 a1 a2 a3 =>
    cases b with
    | null => simp [sameShape] at h
    | node e' m' p' b0 b1 b2 b3 =>
      simp only [sameShape] at h
      match k with
      | 0 => exact h.1
      | 1 => exact h.2.1
      | 2 => exact h.2.2.1
      | k + 3 =>
        rw [Tree.child_ge, Tree.child_ge]
        exact h.2.2.2

theorem sameShape_ofSlots (e e' : Int) (m m' : Point) (p p' : Nat) (f g : Nat → Tree)
    (h : ∀ k, k < 4 → sameShape (f k) (g k)) :
    sameShape (Tree.ofSlots e m p f) (Tree.ofSlots e' m' p' g) := by
  unfold Tree.ofSlots
  simp only [sameShape]
  exact ⟨h 0 (by omega), h 1 (by omega), h 2 (by omega), h 3 (by omega)⟩

theorem sameShape_passThrough {a b : Tree} (h : sameShape a b) (k : Nat) :
    passThrough k a = passThrough k b := by
  unfold passThrough
  simp only [sameShape_isNull (sameShape_child h _)]

/-- Whether `prune` removes a node depends on the occupied slots only. -/
theorem prune_sameShape (a : Tree) : ∀ b, sameShape a b → sameShape (prune a) (prune b) := by
  induction a using Tree.induction2 with
  | hnull =>
    intro b h
    cases b with
    | null => rw [prune_null]; exact sameShape_null
    | node => simp [sameShape] at h
  | hnode e m p a0 a1 a2 a3 ih0 ih1 ih2 ih3 ig0 ig1 ig2 ig3 =>
    have slot : ∀ (k : Nat) (a b : Tree),
        (∀ b, sameShape a b → sameShape (prune a) (prune b)) →
        (∀ b, sameShape (a.child k) b → sameShape (prune (a.child k)) (prune b)) →
        sameShape a b → sameShape (pruneSlot k a) (pruneSlot k b) := by
      intro k a b h1 h2 hs
      have hn := sameShape_isNull hs
      have hp := sameShape_passThrough hs k
      rcases pruneSlot_cases k a with ⟨ha, e⟩ | ⟨ha, hpa, e⟩ | ⟨ha, hpa, e⟩
      · rw [e]
        have : pruneSlot k b = .null := by unfold pruneSlot; simp [← hn, ha]
        rw [this]; exact sameShape_null
      · rw [e]
        have : pruneSlot k b = prune (b.child k) := by
          unfold pruneSlot; simp [← hn, ha, ← hp, hpa]
        rw [this]; exact h2 _ (sameShape_child hs k)
      · rw [e]
        have : pruneSlot k b = prune b := by
          unfold pruneSlot; simp [← hn, ha, ← hp, hpa]
        rw [this]; exact h1 _ hs
    intro b h
    cases b with
    | null => simp [sameShape] at h
    | node e' m' p' b0 b1 b2 b3 =>
      simp only [sameShape] at h
      rw [prune_node, prune_node]
      simp only [sameShape]
      exact ⟨slot 0 a0 b0 ih0 (ig0 0) h.1, slot 1 a1 b1 ih1 (ig1 1) h.2.1,
        slot 2 a2 b2 ih2 (ig2 2) h.2.2.1, slot 3 a3 b3 ih3 (ig3 3) h.2.2.2⟩

theorem sameShape_edges (a : Tree) : ∀ b, sameShape a b → a.edges = b.edges := by
  induction a with
  | null =>
    intro b h
    cases b with
    | null => rfl
    | node => simp [sameShape] at h
  | node e m p a0 a1 a2 a3 ih0 ih1 ih2 ih3 =>
    intro b h
    cases b with
    | null => simp [sameShape] at h
    | node e' m' p' b0 b1 b2 b3 =>
      simp only [sameShape] at h
      simp only [Tree.edges, Tree.numChildren, Tree.child, ih0 b0 h.1, ih1 b1 h.2.1,
        ih2 b2 h.2.2.1, ih3 b3 h.2.2.2, sameShape_isNull h.1, sameShape_isNull h.2.1,
        sameShape_isNull h.2.2.1, sameShape_isNull h.2.2.2]

theorem sameShape_walk_length {a b : Tree} (h : sameShape a b) :
    (walkSeq a).length = (walkSeq b).length := by
  rw [walkSeq_eq_walkList, walkSeq_eq_walkList, walkList_length, walkList_length,
    sameShape_isNull h, sameShape_edges a b h]

/-- The occupied slots of a slot content depend neither on the position nor on the
offset. -/
theorem slotSpec_sameShape (n : Nat) : ∀ (m m' : Point) (D : Nat) (o o' : Int) (B B' : Tree),
    sameShape B B' → sameShape (slotSpec n m D o B) (slotSpec n m' D o' B') := by
  induction n with
  | zero =>
    intro m m' D o o' B B' hB
    rw [slotSpec_zero, slotSpec_zero]
    apply sameShape_ofSlots
    intro k _
    by_cases hk : k = D
    · simp only [hk, if_true]; exact hB
    · simp only [hk, if_false]; exact sameShape_null
  | succ n ih =>
    intro m m' D o o' B B' hB
    rw [slotSpec_succ, slotSpec_succ]
    apply ih
    apply sameShape_ofSlots
    intro k _
    by_cases hko : k = (D + 2) % DIRECTION_COUNT
    · simp only [hko, if_true]; exact sameShape_null
    · simp only [hko, if_false]
      apply ih
      by_cases hk : k = D
      · simp only [hk, if_true]; exact hB
      · simp only [hk, if_false]; exact sameShape_null

theorem specTree_sameShape (c c' : Point) (r r' : Int) (d : Nat) :
    sameShape (specTree c r d) (specTree c' r' d) := by
  unfold specTree
  apply sameShape_ofSlots
  intro k _
  exact slotSpec_sameShape d _ _ k _ _ _ _ sameShape_null

theorem Point.eq_of_coords (a b : Point) (hx : a.X = b.X) (hy : a.Y = b.Y) : a = b := by
  cases a; cases b; simp_all

/-! ## `addChild` on an arbitrary heap -/

theorem Node.sameFields_trans {a b c : Node} (h1 : a.sameFields b) (h2 : b.sameFields c) :
    a.sameFields c :=
  ⟨h1.1.trans h2.1, h1.2.1.trans h2.2.1, h1.2.2.trans h2.2.2⟩

/-- The pointer surgery of `addChild` on any heap with valid `parent` pointers: it
allocates one node, positioned at `middle + child_middle_offset`, and assigns only
`children` and `parent` fields. -/
theorem attach_general (h : Heap) (this direction : Nat) (o : Int) (hthis : this < h.size)
    (hv : h.ParentsValid) :
    (attach h this direction o).size = h.size + 1 ∧
    (∀ j, j < h.size → ((attach h this direction o).node j).sameFields (h.node j)) ∧
    ((attach h this direction o).node h.size).middle =
      (h.node this).middle + childMiddleOffset direction o ∧
    ((attach h this direction o).node h.size).depth = (h.node this).depth - 1 ∧
    (attach h this direction o).ParentsValid := by
  by_cases hsp : ∃ p, (h.node this).parent = some p ∧
      direction = ((h.node this).parent_to_here_direction + 2) % DIRECTION_COUNT
  · obtain ⟨p, hp, hd⟩ := hsp
    have hpv : p < h.size := hv this hthis p hp
    have hne1 : this ≠ h.size := Nat.ne_of_lt hthis
    have hne2 : p ≠ h.size := Nat.ne_of_lt hpv
    have hdec : decide (direction =
        ((h.node this).parent_to_here_direction + 2) % DIRECTION_COUNT) = true := by
      simp [hd]
    have key : ∀ j, (attach h this direction o).node j =
        if j = this then
          (if this = p then
            ((h.node p).setChild (h.node this).parent_to_here_direction (some h.size))
          else h.node this).setParent (some h.size)
        else if j = p then
          (h.node p).setChild (h.node this).parent_to_here_direction (some h.size)
        else if j = h.size then
          (Node.init (some p) ((h.node this).depth - 1)
            ((h.node this).middle + childMiddleOffset direction o)
            (h.node this).parent_to_here_direction).setChild
              (h.node this).parent_to_here_direction (some this)
        else h.node j := by
      intro j
      unfold attach
      simp only []
      rw [hp, hdec]
      simp only []
      rw [Heap.node_set _ _ _ _ (by simp [Heap.size_set, Heap.size_alloc]; omega),
        Heap.node_set _ _ _ _ (by simp [Heap.size_alloc]; omega),
        Heap.node_set _ _ _ _ (by simp [Heap.size_alloc]; omega)]
      simp only [Heap.node_alloc, hne1, hne2, if_false]
    have hsz : (attach h this direction o).size = h.size + 1 := by
      unfold attach
      simp only []
      rw [hp, hdec]
      simp [Heap.size_set, Heap.size_alloc]
    refine ⟨hsz, ?_, ?_, ?_, ?_⟩
    · intro j hj
      rw [key j]
      by_cases h1 : j = this
      · subst h1
        by_cases h2 : j = p
        · subst h2; simp [Node.sameFields, Node.setParent, Node.setChild]
        · simp [h2, Node.sameFields, Node.setParent]
      · by_cases h2 : j = p
        · subst h2; simp [h1, Node.sameFields, Node.setChild]
        · simp [h1, h2, Nat.ne_of_lt hj, Node.sameFields]
    · rw [key h.size]
      simp [hne1.symm, hne2.symm, Node.setChild, Node.init]
    · rw [key h.size]
      simp [hne1.symm, hne2.symm, Node.setChild, Node.init]
    · intro j hj q hq
      rw [hsz] at hj ⊢
      rw [key j] at hq
      by_cases h1 : j = this
      · simp [h1, Node.setParent] at hq; omega
      · by_cases h2 : j = p
        · subst h2
          simp only [h1, if_false, if_true, Node.setChild] at hq
          have := hv j hpv q hq; omega
        · by_cases h3 : j = h.size
          · simp [h1, h2, h3, hne1.symm, hne2.symm, Node.setChild, Node.init] at hq
            omega
          · simp only [h1, h2, h3, if_false] at hq
            have := hv j (by omega) q hq; omega
  · have hord : (h.node this).parent = none ∨
        direction ≠ ((h.node this).parent_to_here_direction + 2) % DIRECTION_COUNT := by
      by_cases hd : direction = ((h.node this).parent_to_here_direction + 2) % DIRECTION_COUNT
      · left
        cases hp : (h.node this).parent with
        | none => rfl
        | some p => exact absurd ⟨p, hp, hd⟩ hsp
      · exact Or.inr hd
    obtain ⟨hsz, key⟩ := attach_below h this direction o hthis hord
    have hne1 : h.size ≠ this := (Nat.ne_of_lt hthis).symm
    refine ⟨hsz, ?_, ?_, ?_, ?_⟩
    · intro j hj
      rw [key j]
      by_cases h1 : j = this
      · subst h1; simp [Node.sameFields, Node.setChild]
      · simp [h1, Nat.ne_of_lt hj, Node.sameFields]
    · rw [key h.size]; simp [hne1, newBelow]
    · rw [key h.size]; simp [hne1, newBelow]
    · intro j hj q hq
      rw [hsz] at hj ⊢
      rw [key j] at hq
      by_cases h1 : j = this
      · subst h1
        simp only [if_true, Node.setChild] at hq
        have := hv j hthis q hq; omega
      · by_cases h3 : j = h.size
        · simp [h1, h3, hne1, newBelow] at hq
          omega
        · simp only [h1, h3, if_false] at hq
          have := hv j (by omega) q hq; omega

/-- On any heap with valid `parent` pointers, `addChild` returns once the fuel exceeds the
`depth` of `this`; it only adds nodes, the new node at address `h.size` is positioned at
`middle + child_middle_offset`, and no existing node changes `depth`, `middle` or
`parent_to_here_direction`. -/
theorem addChild_general (fuel : Nat) : ∀ (h : Heap) (this direction : Nat) (o : Int),
    this < h.size → h.ParentsValid → (h.node this).depth.toNat < fuel →
    ∃ h', addChild fuel h this direction o = some h' ∧ h.size < h'.size ∧
      (∀ j, j < h.size → (h'.node j).sameFields (h.node j)) ∧
      (h'.node h.size).middle = (h.node this).middle + childMiddleOffset direction o ∧
      (h'.node h.size).depth = (h.node this).depth - 1 ∧
      h'.ParentsValid := by
  induction fuel with
  | zero => intro h this direction o _ _ hf; omega
  | succ fuel ih =>
    intro h this direction o hthis hv hf
    obtain ⟨hsz, hsame, hmid, hdep, hv1⟩ := attach_general h this direction o hthis hv
    rw [addChild_succ]
    have hd0 : ((attach h this direction o).node this).depth = (h.node this).depth :=
      (hsame this hthis).1
    by_cases hle : (h.node this).depth ≤ 0
    · refine ⟨attach h this direction o, by simp [hd0, hle], by omega, hsame, hmid, hdep, hv1⟩
    · have hnew : h.size < (attach h this direction o).size := by omega
      have hf1 : ((attach h this direction o).node h.size).depth.toNat < fuel := by
        rw [hdep]; omega
      obtain ⟨h2, e2, s2, f2, _, _, v2⟩ :=
        ih (attach h this direction o) h.size 0 (o.tdiv 2) hnew hv1 hf1
      have g2 := f2 h.size hnew
      obtain ⟨h3, e3, s3, f3, _, _, v3⟩ :=
        ih h2 h.size 1 (o.tdiv 2) (by omega) v2 (by rw [g2.1]; exact hf1)
      have g3 := Node.sameFields_trans (f3 h.size (by omega)) g2
      obtain ⟨h4, e4, s4, f4, _, _, v4⟩ :=
        ih h3 h.size 2 (o.tdiv 2) (by omega) v3 (by rw [g3.1]; exact hf1)
      have g4 := Node.sameFields_trans (f4 h.size (by omega)) g3
      obtain ⟨h5, e5, s5, f5, _, _, v5⟩ :=
        ih h4 h.size 3 (o.tdiv 2) (by omega) v4 (by rw [g4.1]; exact hf1)
      have g5 := Node.sameFields_trans (f5 h.size (by omega)) g4
      refine ⟨h5, ?_, by omega, ?_, ?_, ?_, v5⟩
      · simp [hd0, hle, addChildren, e2, e3, e4, e5]
      · intro j hj
        exact Node.sameFields_trans (f5 j (by omega))
          (Node.sameFields_trans (f4 j (by omega))
            (Node.sameFields_trans (f3 j (by omega))
              (Node.sameFields_trans (f2 j (by omega)) (hsame j hj))))
      · rw [g5.2.1, hmid]
      · rw [g5.1, hdep]

theorem getRoot_parentsValid (c : Point) (d : Int) : (getRoot c d).ParentsValid := by
  intro j hj p hp
  have hj0 : j = 0 := by
    simp [getRoot, Heap.size] at hj; exact hj
  subst hj0
  simp [getRoot, Heap.node, Node.init] at hp

/-! ## Slot consistency during construction -/

/-- The cells of the heap after the reorder branch of `attach`, on any heap with valid
`parent` pointers (the parent may even be the node itself). -/
theorem attach_above_cells (h : Heap) (this direction : Nat) (o : Int) (p : Nat)
    (hthis : this < h.size) (hpv : p < h.size)
    (hp : (h.node this).parent = some p)
    (hd : direction = ((h.node this).parent_to_here_direction + 2) % DIRECTION_COUNT) :
    ∀ j, (attach h this direction o).node j =
      if j = this then
        (if this = p then
          ((h.node p).setChild (h.node this).parent_to_here_direction (some h.size))
        else h.node this).setParent (some h.size)
      else if j = p then
        (h.node p).setChild (h.node this).parent_to_here_direction (some h.size)
      else if j = h.size then newAbove h this direction o p
      else h.node j := by
  have hne1 : this ≠ h.size := Nat.ne_of_lt hthis
  have hne2 : p ≠ h.size := Nat.ne_of_lt hpv
  have hdec : decide (direction =
      ((h.node this).parent_to_here_direction + 2) % DIRECTION_COUNT) = true := by
    simp [hd]
  have hnew : (Node.init (some p) ((h.node this).depth - 1)
      ((h.node this).middle + childMiddleOffset direction o)
      (h.node this).parent_to_here_direction).setChild
        (h.node this).parent_to_here_direction (some this)
      = newAbove h this direction o p := by
    unfold newAbove Node.init Node.setChild
    simp
  intro j
  unfold attach
  simp only []
  rw [hp, hdec]
  simp only [hnew]
  rw [Heap.node_set _ _ _ _ (by simp [Heap.size_set, Heap.size_alloc]; omega),
    Heap.node_set _ _ _ _ (by simp [Heap.size_alloc]; omega),
    Heap.node_set _ _ _ _ (by simp [Heap.size_alloc]; omega)]
  simp only [Heap.node_alloc, hne1, hne2, if_false]

/-- Both branches of `attach` keep the heap slot-consistent. -/
theorem attach_slotConsistent (h : Heap) (this direction : Nat) (o : Int)
    (hthis : this < h.size) (hv : h.ParentsValid) (hc : h.SlotConsistent) :
    (attach h this direction o).SlotConsistent := by
  obtain ⟨hsz, hsame, _, _, _⟩ := attach_general h this direction o hthis hv
  have hpth : ∀ c, c < h.size →
      ((attach h this direction o).node c).parent_to_here_direction =
        (h.node c).parent_to_here_direction := fun c hc' => (hsame c hc').2.2
  have old : ∀ j k c, j < h.size → (h.node j).children k = some c →
      c < (attach h this direction o).size ∧
      ((attach h this direction o).node c).parent_to_here_direction = k := by
    intro j k c hj hjc
    obtain ⟨h1, h2⟩ := hc j k c hj hjc
    exact ⟨by omega, by rw [hpth c h1]; exact h2⟩
  by_cases hsp : ∃ p, (h.node this).parent = some p ∧
      direction = ((h.node this).parent_to_here_direction + 2) % DIRECTION_COUNT
  · obtain ⟨p, hp, hd⟩ := hsp
    have hpv : p < h.size := hv this hthis p hp
    have key := attach_above_cells h this direction o p hthis hpv hp hd
    have hne1 : h.size ≠ this := (Nat.ne_of_lt hthis).symm
    have hne2 : h.size ≠ p := (Nat.ne_of_lt hpv).symm
    have hX : ((attach h this direction o).node h.size).parent_to_here_direction =
        (h.node this).parent_to_here_direction := by
      rw [key h.size]; simp [hne1, hne2, newAbove]
    intro j k c hj hjc
    rw [hsz] at hj
    rw [key j] at hjc
    by_cases h1 : j = this
    · subst h1
      by_cases h2 : j = p
      · subst h2
        simp only [if_true, Node.setParent, Node.setChild] at hjc
        by_cases hk : k = (h.node j).parent_to_here_direction
        · simp only [hk, if_true, Option.some.injEq] at hjc
          subst hjc
          exact ⟨by omega, by rw [hX, hk]⟩
        · simp only [hk, if_false] at hjc
          exact old j k c hthis hjc
      · simp only [if_true, h2, if_false, Node.setParent] at hjc
        exact old j k c hthis hjc
    · by_cases h2 : j = p
      · subst h2
        simp only [h1, if_false, if_true, Node.setChild] at hjc
        by_cases hk : k = (h.node this).parent_to_here_direction
        · simp only [hk, if_true, Option.some.injEq] at hjc
          subst hjc
          exact ⟨by omega, by rw [hX, hk]⟩
        · simp only [hk, if_false] at hjc
          exact old j k c hpv hjc
      · by_cases h3 : j = h.size
        · subst h3
          simp only [h1, h2, if_false, if_true, newAbove] at hjc
          by_cases hk : k = (h.node this).parent_to_here_direction
          · simp only [hk, if_true, Option.some.injEq] at hjc
            subst hjc
            exact ⟨by omega, by rw [hpth _ hthis, hk]⟩
          · simp [hk] at hjc
        · simp only [h1, h2, h3, if_false] at hjc
          exact old j k c (by omega) hjc
  · have hord : (h.node this).parent = none ∨
        direction ≠ ((h.node this).parent_to_here_direction + 2) % DIRECTION_COUNT := by
      by_cases hd : direction = ((h.node this).parent_to_here_direction + 2) % DIRECTION_COUNT
      · left
        cases hp : (h.node this).parent with
        | none => rfl
        | some p => exact absurd ⟨p, hp, hd⟩ hsp
      · exact Or.inr hd
    obtain ⟨_, key⟩ := attach_below h this direction o hthis hord
    have hne1 : h.size ≠ this := (Nat.ne_of_lt hthis).symm
    have hX : ((attach h this direction o).node h.size).parent_to_here_direction =
        direction := by
      rw [key h.size]; simp [hne1, newBelow]
    intro j k c hj hjc
    rw [hsz] at hj
    rw [key j] at hjc
    by_cases h1 : j = this
    · subst h1
      simp only [if_true, Node.setChild] at hjc
      by_cases hk : k = direction
      · simp only [hk, if_true, Option.some.injEq] at hjc
        subst hjc
        exact ⟨by omega, by rw [hX, hk]⟩
      · simp only [hk, if_false] at hjc
        exact old j k c hthis hjc
    · by_cases h3 : j = h.size
      · subst h3
        simp only [h1, if_false, if_true, newBelow] at hjc
        by_cases hk : k = direction
        · simp only [hk, if_true] at hjc
          rw [hk]
          exact old this direction c hthis hjc
        · simp [hk] at hjc
      · simp only [h1, h3, if_false] at hjc
        exact old j k c (by omega) hjc

/-- Every `addChild` call that returns keeps the heap slot-consistent (and its `parent`
pointers valid). -/
theorem addChild_slotConsistent (fuel : Nat) :
    ∀ (h : Heap) (this direction : Nat) (o : Int) (h' : Heap),
    this < h.size → h.ParentsValid → h.SlotConsistent →
    addChild fuel h this direction o = some h' →
    h'.SlotConsistent ∧ h'.ParentsValid ∧ h.size < h'.size := by
  induction fuel with
  | zero => intro h this direction o h' _ _ _ he; simp [addChild] at he
  | succ fuel ih =>
    intro h this direction o h' hthis hv hc he
    obtain ⟨hsz, _, _, _, hv1⟩ := attach_general h this direction o hthis hv
    have hc1 := attach_slotConsistent h this direction o hthis hv hc
    rw [addChild_succ] at he
    split at he
    · simp only [Option.some.injEq] at he
      subst he
      exact ⟨hc1, hv1, by omega⟩
    · unfold addChildren at he
      simp only [Option.bind_eq_some] at he
      obtain ⟨h2, e2, h3, e3, h4, e4, e5⟩ := he
      obtain ⟨c2, v2, s2⟩ := ih _ _ _ _ _ (by omega) hv1 hc1 e2
      obtain ⟨c3, v3, s3⟩ := ih _ _ _ _ _ (by omega) v2 c2 e3
      obtain ⟨c4, v4, s4⟩ := ih _ _ _ _ _ (by omega) v3 c3 e4
      obtain ⟨c5, v5, s5⟩ := ih _ _ _ _ _ (by omega) v4 c4 e5
      exact ⟨c5, v5, by omega⟩

theorem getRoot_slotConsistent (c : Point) (d : Int) : (getRoot c d).SlotConsistent := by
  intro j k x hj hx
  have hj0 : j = 0 := by
    simp [getRoot, Heap.size] at hj; exact hj
  subst hj0
  simp [getRoot, Heap.node, Node.init] at hx

/-- The heap left by the four `root.addChild` calls is slot-consistent. -/
theorem build_slotConsistent (c : Point) (r d : Int) (h : Heap) (hb : build c r d = some h) :
    h.SlotConsistent := by
  unfold build at hb
  simp only [Option.bind_eq_some] at hb
  obtain ⟨h1, e1, h2, e2, h3, e3, e4⟩ := hb
  have s0 : 0 < (getRoot c d).size := by simp [getRoot, Heap.size]
  obtain ⟨c1, v1, s1⟩ := addChild_slotConsistent _ _ _ _ _ _ s0
    (getRoot_parentsValid c d) (getRoot_slotConsistent c d) e1
  obtain ⟨c2, v2, s2⟩ := addChild_slotConsistent _ _ _ _ _ _ (by omega) v1 c1 e2
  obtain ⟨c3, v3, s3⟩ := addChild_slotConsistent _ _ _ _ _ _ (by omega) v2 c2 e3
  obtain ⟨c4, _, _⟩ := addChild_slotConsistent _ _ _ _ _ _ (by omega) v3 c3 e4
  exact c4

/-! ## Matching slots in owned trees -/

theorem slotted_null (dir : Nat) : Slotted dir .null := by simp [Slotted]

theorem Slotted.child_slotted {dir : Nat} {t : Tree} (h : Slotted dir t) (k : Nat)
    (hk : k < 4) : Slotted k (t.child k) := by
  cases t with
  | null => simp [Tree.child, Slotted]
  | node e m p c0 c1 c2 c3 =>
    simp only [Slotted] at h
    interval_cases k
    · exact h.2.1
    · exact h.2.2.1
    · exact h.2.2.2.1
    · exact h.2.2.2.2

theorem Slotted.pth_eq {dir : Nat} {t : Tree} (h : Slotted dir t) (hn : t.isNull = false) :
    t.pth = dir := by
  cases t with
  | null => simp [Tree.isNull] at hn
  | node e m p c0 c1 c2 c3 =>
    simp only [Slotted] at h
    exact h.1

theorem linked_slotted (t : Tree) : ∀ dir, Linked dir t → Slotted dir t := by
  induction t with
  | null => intro dir _; exact slotted_null dir
  | node e m p c0 c1 c2 c3 ih0 ih1 ih2 ih3 =>
    intro dir h
    simp only [Linked] at h
    simp only [Slotted]
    exact ⟨h.1, ih0 0 h.2.2.1, ih1 1 h.2.2.2.1, ih2 2 h.2.2.2.2.1, ih3 3 h.2.2.2.2.2⟩

/-- A tree whose children are slotted in their slots has matching slots everywhere. -/
theorem slotsMatch_of_children (t : Tree)
    (h : ∀ k, k < 4 → Slotted k (t.child k)) : t.SlotsMatch := by
  have sub : ∀ (s : Tree) (dir : Nat), Slotted dir s → s.SlotsMatch := by
    intro s
    induction s with
    | null => intro dir _ P hP; simp [Tree.nodes] at hP
    | node e m p c0 c1 c2 c3 ih0 ih1 ih2 ih3 =>
      intro dir hs P hP k hk hnn
      have hs' := hs
      simp only [Slotted] at hs
      obtain ⟨_, l0, l1, l2, l3⟩ := hs
      simp only [Tree.nodes, List.mem_cons, List.mem_append] at hP
      rcases hP with rfl | ((h | h) | h) | h
      · exact (hs'.child_slotted k hk).pth_eq hnn
      · exact ih0 0 l0 P h k hk hnn
      · exact ih1 1 l1 P h k hk hnn
      · exact ih2 2 l2 P h k hk hnn
      · exact ih3 3 l3 P h k hk hnn
  cases t with
  | null => intro P hP; simp [Tree.nodes] at hP
  | node e m p c0 c1 c2 c3 =>
    intro P hP k hk hnn
    simp only [Tree.nodes, List.mem_cons, List.mem_append] at hP
    rcases hP with rfl | ((h' | h') | h') | h'
    · exact (h k hk).pth_eq hnn
    · exact sub c0 0 (h 0 (by omega)) P h' k hk hnn
    · exact sub c1 1 (h 1 (by omega)) P h' k hk hnn
    · exact sub c2 2 (h 2 (by omega)) P h' k hk hnn
    · exact sub c3 3 (h 3 (by omega)) P h' k hk hnn

theorem mem_nodes_self (t : Tree) (hn : t.isNull = false) : t ∈ t.nodes := by
  cases t with
  | null => simp [Tree.isNull] at hn
  | node e m p c0 c1 c2 c3 => simp [Tree.nodes]

/-- Matching slots everywhere make every child slotted in its slot. -/
theorem children_of_slotsMatch (t : Tree) (h : t.SlotsMatch) :
    ∀ k, k < 4 → Slotted k (t.child k) := by
  induction t with
  | null => intro k _; simp [Tree.child, Slotted]
  | node e m p c0 c1 c2 c3 ih0 ih1 ih2 ih3 =>
    have hsub : ∀ (j : Nat) (c : Tree), j < 4 → (Tree.node e m p c0 c1 c2 c3).child j = c →
        (c.SlotsMatch → ∀ k, k < 4 → Slotted k (c.child k)) → Slotted j c := by
      intro j c hj hc ih
      have hm : c.SlotsMatch := by
        intro P hP k hk hnn
        exact h P (mem_nodes_child _ j P (by rw [hc]; exact hP)) k hk hnn
      rcases Bool.eq_false_or_eq_true c.isNull with hn | hn
      · cases c with
        | null => exact slotted_null j
        | node => simp [Tree.isNull] at hn
      · have hp : c.pth = j := by
          have := h _ (mem_nodes_self _ (Tree.isNull_node e m p c0 c1 c2 c3)) j hj
            (by rw [hc]; exact hn)
          rw [hc] at this; exact this
        have hch := ih hm
        cases c with
        | null => exact slotted_null j
        | node e' m' p' d0 d1 d2 d3 =>
          simp only [Slotted]
          exact ⟨hp, hch 0 (by omega), hch 1 (by omega), hch 2 (by omega), hch 3 (by omega)⟩
    intro k hk
    interval_cases k
    · exact hsub 0 c0 (by omega) rfl ih0
    · exact hsub 1 c1 (by omega) rfl ih1
    · exact hsub 2 c2 (by omega) rfl ih2
    · exact hsub 3 c3 (by omega) rfl ih3

/-- The promotion of the front grandchild by `prune` keeps nodes slotted. -/
theorem prune_slotted (t : Tree) : ∀ dir, Slotted dir t → Slotted dir (prune t) := by
  induction t using Tree.induction2 with
  | hnull => intro dir _; rw [prune_null]; exact slotted_null dir
  | hnode e m p c0 c1 c2 c3 ih0 ih1 ih2 ih3 ig0 ig1 ig2 ig3 =>
    have slot : ∀ (k : Nat) (c : Tree), k < 4 →
        (∀ dir, Slotted dir c → Slotted dir (prune c)) →
        (∀ dir, Slotted dir (c.child k) → Slotted dir (prune (c.child k))) →
        Slotted k c → Slotted k (pruneSlot k c) := by
      intro k c hk h1 h2 hl
      rcases pruneSlot_cases k c with ⟨_, e⟩ | ⟨_, _, e⟩ | ⟨_, _, e⟩
      · rw [e]; exact slotted_null k
      · rw [e]; exact h2 k (hl.child_slotted k hk)
      · rw [e]; exact h1 k hl
    intro dir hl
    simp only [Slotted] at hl
    obtain ⟨hp, l0, l1, l2, l3⟩ := hl
    rw [prune_node]
    simp only [Slotted]
    exact ⟨hp, slot 0 c0 (by omega) ih0 (ig0 0) l0, slot 1 c1 (by omega) ih1 (ig1 1) l1,
      slot 2 c2 (by omega) ih2 (ig2 2) l2, slot 3 c3 (by omega) ih3 (ig3 3) l3⟩

/-- For any tree, `prune` keeps the slots matching. -/
theorem prune_slotsMatch (t : Tree) (h : t.SlotsMatch) : (prune t).SlotsMatch := by
  have hc := children_of_slotsMatch t h
  apply slotsMatch_of_children
  intro k hk
  cases t with
  | null => rw [prune_null]; simp [Tree.child, Slotted]
  | node e m p c0 c1 c2 c3 =>
    rw [prune_node]
    have slot : ∀ (j : Nat) (c : Tree), j < 4 → Slotted j c → Slotted j (pruneSlot j c) := by
      intro j c hj hl
      rcases pruneSlot_cases j c with ⟨_, e⟩ | ⟨_, _, e⟩ | ⟨_, _, e⟩
      · rw [e]; exact slotted_null j
      · rw [e]; exact prune_slotted _ j (hl.child_slotted j hj)
      · rw [e]; exact prune_slotted _ j hl
    interval_cases k
    · exact slot 0 c0 (by omega) (hc 0 (by omega))
    · exact slot 1 c1 (by omega) (hc 1 (by omega))
    · exact slot 2 c2 (by omega) (hc 2 (by omega))
    · exact slot 3 c3 (by omega) (hc 3 (by omega))

theorem specTree_slotsMatch (c : Point) (r : Int) (d : Nat) : (specTree c r d).SlotsMatch := by
  apply slotsMatch_of_children
  intro k hk
  have h := specTree_childrenLinked c r d
  obtain ⟨h0, h1, h2, h3⟩ := h
  interval_cases k
  · exact linked_slotted _ 0 h0
  · exact linked_slotted _ 1 h1
  · exact linked_slotted _ 2 h2
  · exact linked_slotted _ 3 h3


/-! ## Nodes of a pruned tree -/

theorem prune_depth (t : Tree) : (prune t).depth = t.depth := by
  cases t with
  | null => rfl
  | node e m p c0 c1 c2 c3 => rw [prune_node]; rfl

theorem prune_pth (t : Tree) : (prune t).pth = t.pth := by
  cases t with
  | null => rfl
  | node e m p c0 c1 c2 c3 => rw [prune_node]; rfl

theorem prune_middle (t : Tree) : (prune t).middle = t.middle := by
  cases t with
  | null => rfl
  | node e m p c0 c1 c2 c3 => rw [prune_node]; rfl

theorem prune_child (t : Tree) (k : Nat) (hk : k < 4) :
    (prune t).child k = pruneSlot k (t.child k) := by
  cases t with
  | null => interval_cases k <;> rfl
  | node e m p c0 c1 c2 c3 => rw [prune_node]; interval_cases k <;> rfl

/-- Every node of the pruned tree is the pruned form of a node of the original tree. -/
theorem prune_nodes_image (t : Tree) :
    ∀ N' ∈ (prune t).nodes, ∃ N ∈ t.nodes, N' = prune N := by
  induction t using Tree.induction2 with
  | hnull => intro N' h; rw [prune_null] at h; simp [Tree.nodes] at h
  | hnode e m p c0 c1 c2 c3 ih0 ih1 ih2 ih3 ig0 ig1 ig2 ig3 =>
    have slot : ∀ (k : Nat) (c : Tree),
        (∀ N' ∈ (prune c).nodes, ∃ N ∈ c.nodes, N' = prune N) →
        (∀ N' ∈ (prune (c.child k)).nodes, ∃ N ∈ (c.child k).nodes, N' = prune N) →
        ∀ N' ∈ (pruneSlot k c).nodes, ∃ N ∈ c.nodes, N' = prune N := by
      intro k c h1 h2 N' hN'
      rcases pruneSlot_cases k c with ⟨_, e⟩ | ⟨_, _, e⟩ | ⟨_, _, e⟩
      · rw [e] at hN'; simp [Tree.nodes] at hN'
      · rw [e] at hN'
        obtain ⟨N, hN, hf⟩ := h2 N' hN'
        exact ⟨N, mem_nodes_child c k N hN, hf⟩
      · rw [e] at hN'
        exact h1 N' hN'
    intro N' hN'
    have hN'' := hN'
    rw [prune_node] at hN'
    simp only [Tree.nodes, List.mem_cons, List.mem_append] at hN' ⊢
    rcases hN' with h | ((h | h) | h) | h
    · exact ⟨_, Or.inl rfl, by rw [h, prune_node]⟩
    · obtain ⟨N, hN, hf⟩ := slot 0 c0 ih0 (ig0 0) N' h
      exact ⟨N, Or.inr (Or.inl (Or.inl (Or.inl hN))), hf⟩
    · obtain ⟨N, hN, hf⟩ := slot 1 c1 ih1 (ig1 1) N' h
      exact ⟨N, Or.inr (Or.inl (Or.inl (Or.inr hN))), hf⟩
    · obtain ⟨N, hN, hf⟩ := slot 2 c2 ih2 (ig2 2) N' h
      exact ⟨N, Or.inr (Or.inl (Or.inr hN)), hf⟩
    · obtain ⟨N, hN, hf⟩ := slot 3 c3 ih3 (ig3 3) N' h
      exact ⟨N, Or.inr (Or.inr hN), hf⟩

/-! ## Depth values along the edges of the closed form -/

/-- The node on top of a slot content is the one created last, with `depth = -1`. -/
theorem slotSpec_depth_top (n : Nat) : ∀ (m : Point) (D : Nat) (o : Int) (B : Tree),
    (slotSpec n m D o B).depth = -1 ∧ (slotSpec n m D o B).isNull = false := by
  induction n with
  | zero => intro m D o B; rw [slotSpec_zero]; exact ⟨rfl, rfl⟩
  | succ n ih => intro m D o B; rw [slotSpec_succ]; exact ih _ _ _ _

/-- The depth value on top of a slot after `prune` has handled it. -/
theorem pruneSlot_slotSpec_depth (n : Nat) : ∀ (m : Point) (D : Nat) (o : Int) (B : Tree),
    D < 4 →
    (pruneSlot D (slotSpec n m D o B)).depth =
      if n = 0 then (if B.isNull then -1 else B.depth) else 0 := by
  induction n with
  | zero =>
    intro m D o B hD
    rw [slotSpec_zero]
    rcases pruneSlot_cases D (Tree.ofSlots (-1) m D (fun k => if k = D then B else .null))
      with ⟨h, _⟩ | ⟨_, hp, e⟩ | ⟨_, hp, e⟩
    · simp [Tree.isNull_ofSlots] at h
    · rw [e, prune_depth, Tree.child_ofSlots _ _ _ _ D hD]
      have := (passThrough_front D _ hp).1
      rw [Tree.child_ofSlots _ _ _ _ D hD] at this
      simp only [if_true] at this ⊢
      simp [this]
    · rw [e, prune_depth, Tree.depth_ofSlots]
      rw [passThrough_ofSlots D hD] at hp
      have h1 := (side_ne D).1
      have h2 := (side_ne D).2
      simp only [h1, h2, if_false, if_true, Tree.isNull_null, Bool.and_true,
        Bool.not_eq_eq_eq_not, Bool.not_false] at hp
      simp [hp]
  | succ n ih =>
    intro m D o B hD
    rw [slotSpec_succ, ih _ D _ _ hD]
    simp only [Tree.isNull_ofSlots, Tree.depth_ofSlots]
    by_cases hn : n = 0
    · simp [hn]
    · simp [hn]

theorem slotSpec_sideDepths (n : Nat) : ∀ (m : Point) (D : Nat) (o : Int) (B : Tree),
    D < 4 → (∀ P ∈ B.nodes, P.SideDepthsBelow) →
    ∀ P ∈ (slotSpec n m D o B).nodes, P.SideDepthsBelow := by
  induction n with
  | zero =>
    intro m D o B hD hB P hP
    rw [slotSpec_zero, mem_nodes_ofSlots] at hP
    rcases hP with rfl | ⟨k, _, hk⟩
    · intro k hk hne hnn
      rw [Tree.pth_ofSlots] at hne
      rw [Tree.child_ofSlots _ _ _ _ k hk] at hnn
      simp [hne, Tree.isNull_null] at hnn
    · by_cases hkD : k = D
      · simp only [hkD, if_true] at hk; exact hB P hk
      · simp [hkD, Tree.nodes] at hk
  | succ n ih =>
    intro m D o B hD hB P hP
    rw [slotSpec_succ] at hP
    refine ih _ D _ _ hD ?_ P hP
    intro P hP
    rw [mem_nodes_ofSlots] at hP
    rcases hP with rfl | ⟨k, hk4, hk⟩
    · intro k hk hne hnn
      rw [Tree.pth_ofSlots] at hne
      rw [Tree.child_ofSlots _ _ _ _ k hk] at hnn ⊢
      rw [Tree.depth_ofSlots]
      by_cases hko : k = (D + 2) % DIRECTION_COUNT
      · simp [hko, Tree.isNull_null] at hnn
      · simp only [hko, if_false, hne]
        refine ⟨?_, ?_⟩
        · rw [(slotSpec_depth_top n _ k _ _).1]; omega
        · rw [pruneSlot_slotSpec_depth n _ k _ _ hk]
          by_cases hn : n = 0
          · simp [hn, Tree.isNull_null]
          · simp only [hn, if_false]; omega
    · by_cases hko : k = (D + 2) % DIRECTION_COUNT
      · simp [hko, Tree.nodes] at hk
      · simp only [hko, if_false] at hk
        refine ih _ k _ _ hk4 ?_ P hk
        intro N hN
        by_cases hkD : k = D
        · simp only [hkD, if_true] at hN; exact hB N hN
        · simp [hkD, Tree.nodes] at hN

theorem specTree_sideDepths (c : Point) (r : Int) (d : Nat) :
    ∀ P ∈ (specTree c r d).nodes, P.SideDepthsBelow := by
  intro P hP
  unfold specTree at hP
  rw [mem_nodes_ofSlots] at hP
  rcases hP with rfl | ⟨k, hk4, hk⟩
  · intro k hk hne hnn
    rw [Tree.child_ofSlots _ _ _ _ k hk, Tree.depth_ofSlots]
    refine ⟨?_, ?_⟩
    · rw [(slotSpec_depth_top d _ k _ _).1]; omega
    · rw [pruneSlot_slotSpec_depth d _ k _ _ hk]
      by_cases hn : d = 0
      · simp [hn, Tree.isNull_null]
      · simp only [hn, if_false]; omega
  · exact slotSpec_sideDepths d _ k _ .null hk4 (by simp [Tree.nodes]) P hk

/-! ## One pass of `prune` removes every pass-through node of the closed form -/

theorem passThrough_prune (D : Nat) (hD : D < 4) (t : Tree) :
    passThrough D (prune t) = passThrough D t := by
  unfold passThrough
  simp only [prune_child t D hD,
    prune_child t _ (Nat.mod_lt (D + 3) (by decide : 0 < DIRECTION_COUNT)),
    prune_child t _ (Nat.mod_lt (D + 1) (by decide : 0 < DIRECTION_COUNT)),
    pruneSlot_isNull]

theorem passThrough_of_isNull (D : Nat) (t : Tree) (h : t.isNull = true) :
    passThrough D t = false := by
  cases t with
  | null => simp [passThrough, Tree.child, Tree.isNull_null]
  | node => simp [Tree.isNull] at h

theorem pruneSlot_settled (D : Nat) (hD : D < 4) (B : Tree) (hB : passThrough D B = false) :
    passThrough D (pruneSlot D B) = false := by
  rcases pruneSlot_cases D B with ⟨_, e⟩ | ⟨_, hp, _⟩ | ⟨_, _, e⟩
  · rw [e]; exact passThrough_of_isNull D .null rfl
  · rw [hB] at hp; cases hp
  · rw [e, passThrough_prune D hD]; exact hB

/-- The node that carries the side subtrees is no pass-through node. -/
theorem passThrough_branching (n : Nat) (m : Point) (D : Nat) (hD : D < 4) (o : Int)
    (g : Nat → Tree) :
    passThrough D (Tree.ofSlots n m D (fun k =>
        if k = (D + 2) % DIRECTION_COUNT then .null
        else slotSpec n (m + childMiddleOffset k o) k (o.tdiv 2) (g k))) = false := by
  rw [passThrough_ofSlots D hD]
  have h1 : (D + 1) % DIRECTION_COUNT ≠ (D + 2) % DIRECTION_COUNT := by
    simp only [DIRECTION_COUNT]; omega
  simp only [h1, if_false, (slotSpec_depth_top n _ _ _ _).2, Bool.and_false]

theorem pruneSlot_slotSpec_settled (n : Nat) : ∀ (m : Point) (D : Nat) (o : Int) (B : Tree),
    D < 4 → passThrough D B = false →
    passThrough D (pruneSlot D (slotSpec n m D o B)) = false := by
  induction n with
  | zero =>
    intro m D o B hD hB
    rw [slotSpec_zero]
    rcases pruneSlot_cases D (Tree.ofSlots (-1) m D (fun k => if k = D then B else .null))
      with ⟨h, _⟩ | ⟨_, _, e⟩ | ⟨_, hp, e⟩
    · simp [Tree.isNull_ofSlots] at h
    · rw [e, passThrough_prune D hD, Tree.child_ofSlots _ _ _ _ D hD]
      simpa using hB
    · rw [e, passThrough_prune D hD]; exact hp
  | succ n ih =>
    intro m D o B hD hB
    rw [slotSpec_succ]
    exact ih _ D _ _ hD (passThrough_branching n m D hD o _)

theorem slotSpec_settled (n : Nat) : ∀ (m : Point) (D : Nat) (o : Int) (B : Tree),
    D < 4 → passThrough D B = false → (∀ P ∈ B.nodes, P.Settled) →
    ∀ P ∈ (slotSpec n m D o B).nodes, P.Settled := by
  induction n with
  | zero =>
    intro m D o B hD hB hall P hP
    rw [slotSpec_zero, mem_nodes_ofSlots] at hP
    rcases hP with rfl | ⟨k, _, hk⟩
    · intro k hk hnn
      rw [Tree.child_ofSlots _ _ _ _ k hk] at hnn ⊢
      by_cases hkD : k = D
      · subst hkD
        simp only [if_true]
        exact pruneSlot_settled k hk B hB
      · simp [hkD, Tree.isNull_null] at hnn
    · by_cases hkD : k = D
      · simp only [hkD, if_true] at hk; exact hall P hk
      · simp [hkD, Tree.nodes] at hk
  | succ n ih =>
    intro m D o B hD hB hall P hP
    rw [slotSpec_succ] at hP
    refine ih _ D _ _ hD (passThrough_branching n m D hD o _) ?_ P hP
    intro P hP
    rw [mem_nodes_ofSlots] at hP
    rcases hP with rfl | ⟨k, hk4, hk⟩
    · intro k hk hnn
      rw [Tree.child_ofSlots _ _ _ _ k hk] at hnn ⊢
      by_cases hko : k = (D + 2) % DIRECTION_COUNT
      · simp [hko, Tree.isNull_null] at hnn
      · simp only [hko, if_false]
        refine pruneSlot_slotSpec_settled n _ k _ _ hk ?_
        by_cases hkD : k = D
        · simp only [hkD, if_true]; exact hB
        · simp only [hkD, if_false]; exact passThrough_of_isNull k .null rfl
    · by_cases hko : k = (D + 2) % DIRECTION_COUNT
      · simp [hko, Tree.nodes] at hk
      · simp only [hko, if_false] at hk
        by_cases hkD : k = D
        · simp only [hkD, if_true] at hk
          exact ih _ D _ _ hD hB hall P hk
        · simp only [hkD, if_false] at hk
          exact ih _ k _ .null hk4 (passThrough_of_isNull k .null rfl) (by simp [Tree.nodes]) P hk

theorem specTree_settled (c : Point) (r : Int) (d : Nat) :
    ∀ P ∈ (specTree c r d).nodes, P.Settled := by
  intro P hP
  unfold specTree at hP
  rw [mem_nodes_ofSlots] at hP
  rcases hP with rfl | ⟨k, hk4, hk⟩
  · intro k hk hnn
    rw [Tree.child_ofSlots _ _ _ _ k hk]
    exact pruneSlot_slotSpec_settled d _ k _ .null hk (passThrough_of_isNull k .null rfl)
  · exact slotSpec_settled d _ k _ .null hk4 (passThrough_of_isNull k .null rfl)
      (by simp [Tree.nodes]) P hk

/-! ## The deletions of `prune` and where they happen -/

theorem pruneEvents_null : pruneEvents .null = [] := rfl

theorem pruneEvents_node (e : Int) (m : Point) (p : Nat) (c0 c1 c2 c3 : Tree) :
    pruneEvents (.node e m p c0 c1 c2 c3) =
      eventSlot m 0 c0 ++ eventSlot m 1 c1 ++ eventSlot m 2 c2 ++ eventSlot m 3 c3 := by
  cases c0 <;> cases c1 <;> cases c2 <;> cases c3 <;> rfl

theorem eventSlot_cases (h : Point) (k : Nat) (c : Tree) :
    (c.isNull = true ∧ eventSlot h k c = []) ∨
    (c.isNull = false ∧ passThrough k c = true ∧
      eventSlot h k c = ⟨h, k, c⟩ :: pruneEvents (c.child k)) ∨
    (c.isNull = false ∧ passThrough k c = false ∧ eventSlot h k c = pruneEvents c) := by
  unfold eventSlot
  rcases Bool.eq_false_or_eq_true c.isNull with h1 | h1
  · simp [h1]
  · rcases Bool.eq_false_or_eq_true (passThrough k c) with h2 | h2
    · simp [h1, h2]
    · simp [h1, h2]

/-- The nodes named by the deletion events are the nodes `pruneRemoved` lists. -/
theorem pruneEvents_removed (t : Tree) :
    (pruneEvents t).map (fun ev => ev.removed) = pruneRemoved t := by
  induction t using Tree.induction2 with
  | hnull => rfl
  | hnode e m p c0 c1 c2 c3 ih0 ih1 ih2 ih3 ig0 ig1 ig2 ig3 =>
    have slot : ∀ (k : Nat) (c : Tree),
        (pruneEvents c).map (fun ev => ev.removed) = pruneRemoved c →
        (pruneEvents (c.child k)).map (fun ev => ev.removed) = pruneRemoved (c.child k) →
        (eventSlot m k c).map (fun ev => ev.removed) = removedSlot k c := by
      intro k c h1 h2
      rcases eventSlot_cases m k c with ⟨hn, e⟩ | ⟨hn, hp, e⟩ | ⟨hn, hp, e⟩
      · rw [e]; unfold removedSlot; simp [hn]
      · rw [e]; unfold removedSlot; simp [hn, hp, h2]
      · rw [e]; unfold removedSlot; simp [hn, hp, h1]
    rw [pruneEvents_node, pruneRemoved_node]
    simp only [List.map_append]
    rw [slot 0 c0 ih0 (ig0 0), slot 1 c1 ih1 (ig1 1), slot 2 c2 ih2 (ig2 2),
      slot 3 c3 ih3 (ig3 3)]

/-- Every deletion happens at a node of the tree as it was before pruning: the deleted node
is the child that node held in the slot, and it passes the test of `prune`. -/
theorem pruneEvents_sound (t : Tree) :
    ∀ ev ∈ pruneEvents t, ∃ C ∈ t.nodes, ev.holder = C.middle ∧ ev.child_dir < 4 ∧
      ev.removed = C.child ev.child_dir ∧ passThrough ev.child_dir ev.removed = true := by
  induction t using Tree.induction2 with
  | hnull => intro ev h; rw [pruneEvents_null] at h; simp at h
  | hnode e m p c0 c1 c2 c3 ih0 ih1 ih2 ih3 ig0 ig1 ig2 ig3 =>
    have slot : ∀ (k : Nat) (c : Tree), k < 4 →
        c = (Tree.node e m p c0 c1 c2 c3).child k →
        (∀ ev ∈ pruneEvents c, ∃ C ∈ c.nodes, ev.holder = C.middle ∧ ev.child_dir < 4 ∧
          ev.removed = C.child ev.child_dir ∧ passThrough ev.child_dir ev.removed = true) →
        (∀ ev ∈ pruneEvents (c.child k), ∃ C ∈ (c.child k).nodes, ev.holder = C.middle ∧
          ev.child_dir < 4 ∧ ev.removed = C.child ev.child_dir ∧
          passThrough ev.child_dir ev.removed = true) →
        ∀ ev ∈ eventSlot m k c, ∃ C ∈ (Tree.node e m p c0 c1 c2 c3).nodes,
          ev.holder = C.middle ∧ ev.child_dir < 4 ∧
          ev.removed = C.child ev.child_dir ∧ passThrough ev.child_dir ev.removed = true := by
      intro k c hk hc h1 h2 ev hev
      rcases eventSlot_cases m k c with ⟨_, e1⟩ | ⟨_, hp, e1⟩ | ⟨_, _, e1⟩
      · rw [e1] at hev; simp at hev
      · rw [e1] at hev
        simp only [List.mem_cons] at hev
        rcases hev with rfl | hev
        · exact ⟨_, mem_nodes_self _ rfl, rfl, hk, hc, hp⟩
        · obtain ⟨C, hC, hf⟩ := h2 ev hev
          refine ⟨C, ?_, hf⟩
          have := mem_nodes_child c k C hC
          rw [hc] at this
          exact mem_nodes_child _ k C this
      · rw [e1] at hev
        obtain ⟨C, hC, hf⟩ := h1 ev hev
        refine ⟨C, ?_, hf⟩
        rw [hc] at hC
        exact mem_nodes_child _ k C hC
    intro ev hev
    rw [pruneEvents_node] at hev
    simp only [List.mem_append] at hev
    rcases hev with ((h | h) | h) | h
    · exact slot 0 c0 (by omega) rfl ih0 (ig0 0) ev h
    · exact slot 1 c1 (by omega) rfl ih1 (ig1 1) ev h
    · exact slot 2 c2 (by omega) rfl ih2 (ig2 2) ev h
    · exact slot 3 c3 (by omega) rfl ih3 (ig3 3) ev h

/-! ## Positions along one direction -/

theorem offset_zero (m : Point) (D : Nat) : m + childMiddleOffset D 0 = m := by
  simp [childMiddleOffset, Point.add_def]

theorem offset_add (m : Point) (D : Nat) (a b : Int) :
    m + childMiddleOffset D a + childMiddleOffset D b = m + childMiddleOffset D (a + b) := by
  simp only [childMiddleOffset, Point.add_def]
  by_cases h1 : D = LD ∨ D = RD <;> by_cases h2 : D = LD ∨ D = LU <;>
    simp only [h1, h2, if_true, if_false, Point.mk.injEq] <;> constructor <;> ring

theorem offset_opp (D : Nat) (hD : D < 4) (o : Int) :
    childMiddleOffset ((D + 2) % DIRECTION_COUNT) o = childMiddleOffset D (-o) := by
  interval_cases D <;> simp [childMiddleOffset, DIRECTION_COUNT, LD, RD, LU]

theorem onSegment_ahead (c : Point) (D : Nat) (a b : Int) (ha : 0 ≤ a) (hb : 0 ≤ b) :
    onSegment c (c + childMiddleOffset D a)
      (c + childMiddleOffset D a + childMiddleOffset D b) := by
  rw [offset_add]
  unfold onSegment
  simp only [childMiddleOffset, Point.add_def]
  by_cases h1 : D = LD ∨ D = RD <;> by_cases h2 : D = LD ∨ D = LU <;>
    simp only [h1, h2, if_true, if_false] <;> refine ⟨by ring, ?_, ?_, ?_, ?_⟩ <;> omega

/-- The node on top of a slot content lies between the holder and the first node linked in
the slot, and its front child lies further ahead. -/
theorem slotSpec_top_ahead (n : Nat) : ∀ (m : Point) (D : Nat) (o : Int) (B : Tree),
    D < 4 → 0 ≤ o → AheadOf D 0 m B →
    ∃ s, 0 ≤ s ∧ s ≤ 2 * o ∧ (slotSpec n m D o B).middle = m + childMiddleOffset D (-s) ∧
      AheadOf D 0 (slotSpec n m D o B).middle ((slotSpec n m D o B).child D) := by
  induction n with
  | zero =>
    intro m D o B hD ho hB
    refine ⟨0, le_refl _, by omega, ?_, ?_⟩
    · rw [slotSpec_zero, Tree.middle_ofSlots]; simp [offset_zero]
    · rw [slotSpec_zero, Tree.middle_ofSlots, Tree.child_ofSlots _ _ _ _ D hD]
      simpa using hB
  | succ n ih =>
    intro m D o B hD ho _
    obtain ⟨hd1, hd2⟩ := tdiv_two_bounds o ho
    rw [slotSpec_succ]
    obtain ⟨s, hs0, hs1, hm, ha⟩ := ih (m + childMiddleOffset ((D + 2) % DIRECTION_COUNT) o)
      D (o.tdiv 2) (Tree.ofSlots n m D (fun k =>
        if k = (D + 2) % DIRECTION_COUNT then .null
        else slotSpec n (m + childMiddleOffset k o) k (o.tdiv 2)
          (if k = D then B else .null))) hD hd1
      (Or.inr ⟨o, ho, by
        rw [Tree.middle_ofSlots, offset_opp D hD, offset_add]
        simp [offset_zero]⟩)
    refine ⟨o + s, by omega, by omega, ?_, ha⟩
    rw [hm, offset_opp D hD, offset_add]
    congr 2
    ring

theorem straight_of_top (c : Point) (D : Nat) (a s : Int) (X : Tree) (m : Point)
    (hs : s ≤ a) (hm : m = c + childMiddleOffset D a)
    (hX : X.middle = m + childMiddleOffset D (-s))
    (hF : AheadOf D 0 X.middle (X.child D)) (hp : passThrough D X = true) :
    onSegment c X.middle (X.child D).middle := by
  rcases hF with hF | ⟨b, hb, hF⟩
  · rw [(passThrough_front D X hp).1] at hF; cases hF
  · have h1 : X.middle = c + childMiddleOffset D (a - s) := by
      rw [hX, hm, offset_add]; congr 2
    rw [hF, h1]
    exact onSegment_ahead c D (a - s) b (by omega) hb

theorem slotSpec_straight (n : Nat) : ∀ (m : Point) (D : Nat) (o : Int) (B : Tree),
    D < 4 → 0 ≤ o → passThrough D B = false → AheadOf D (2 * o) m B →
    (∀ P ∈ B.nodes, P.Straight) →
    ∀ P ∈ (slotSpec n m D o B).nodes, P.Straight := by
  induction n with
  | zero =>
    intro m D o B hD ho hB _ hall P hP
    rw [slotSpec_zero, mem_nodes_ofSlots] at hP
    rcases hP with rfl | ⟨k, _, hk⟩
    · intro k hk hp
      rw [Tree.child_ofSlots _ _ _ _ k hk] at hp
      by_cases hkD : k = D
      · subst hkD
        simp only [if_true] at hp
        rw [hB] at hp; cases hp
      · simp only [hkD, if_false] at hp
        rw [passThrough_of_isNull k .null rfl] at hp; cases hp
    · by_cases hkD : k = D
      · simp only [hkD, if_true] at hk; exact hall P hk
      · simp [hkD, Tree.nodes] at hk
  | succ n ih =>
    intro m D o B hD ho hB hA hall P hP
    obtain ⟨hd1, hd2⟩ := tdiv_two_bounds o ho
    rw [slotSpec_succ] at hP
    have below : ∀ k, k < 4 →
        AheadOf k (2 * o.tdiv 2) (m + childMiddleOffset k o) (if k = D then B else .null) := by
      intro k _
      by_cases hkD : k = D
      · subst hkD
        simp only [if_true]
        rcases hA with hA | ⟨b, hb, hA⟩
        · exact Or.inl hA
        · refine Or.inr ⟨b - o, by omega, ?_⟩
          rw [hA, offset_add]; congr 2; ring
      · simp only [hkD, if_false]; exact Or.inl rfl
    have below0 : ∀ k, k < 4 →
        AheadOf k 0 (m + childMiddleOffset k o) (if k = D then B else .null) := by
      intro k hk
      rcases below k hk with h | ⟨b, hb, h⟩
      · exact Or.inl h
      · exact Or.inr ⟨b, by omega, h⟩
    refine ih _ D _ _ hD hd1 (passThrough_branching n m D hD o _) ?_ ?_ P hP
    · refine Or.inr ⟨o, hd2, ?_⟩
      rw [Tree.middle_ofSlots, offset_opp D hD, offset_add]
      simp [offset_zero]
    intro P hP
    rw [mem_nodes_ofSlots] at hP
    rcases hP with rfl | ⟨k, hk4, hk⟩
    · intro k hk hp
      rw [Tree.child_ofSlots _ _ _ _ k hk] at hp ⊢
      rw [Tree.middle_ofSlots]
      by_cases hko : k = (D + 2) % DIRECTION_COUNT
      · simp only [hko, if_true] at hp
        rw [passThrough_of_isNull _ .null rfl] at hp; cases hp
      · simp only [hko, if_false] at hp ⊢
        obtain ⟨s, _, hs1, hm, ha⟩ := slotSpec_top_ahead n (m + childMiddleOffset k o) k
          (o.tdiv 2) (if k = D then B else .null) hk hd1 (below0 k hk)
        exact straight_of_top m k o s _ _ (by omega) rfl hm ha hp
    · by_cases hko : k = (D + 2) % DIRECTION_COUNT
      · simp [hko, Tree.nodes] at hk
      · simp only [hko, if_false] at hk
        refine ih _ k _ _ hk4 hd1 ?_ (below k hk4) ?_ P hk
        · by_cases hkD : k = D
          · simp only [hkD, if_true]; exact hB
          · simp only [hkD, if_false]; exact passThrough_of_isNull k .null rfl
        · intro N hN
          by_cases hkD : k = D
          · simp only [hkD, if_true] at hN; exact hall N hN
          · simp [hkD, Tree.nodes] at hN

theorem specTree_straight (c : Point) (r : Int) (d : Nat) (hr : 0 ≤ r) :
    ∀ P ∈ (specTree c r d).nodes, P.Straight := by
  obtain ⟨hd1, hd2⟩ := tdiv_two_bounds r hr
  obtain ⟨he1, he2⟩ := tdiv_two_bounds (r.tdiv 2) hd1
  intro P hP
  unfold specTree at hP
  rw [mem_nodes_ofSlots] at hP
  rcases hP with rfl | ⟨k, hk4, hk⟩
  · intro k hk hp
    rw [Tree.child_ofSlots _ _ _ _ k hk] at hp ⊢
    rw [Tree.middle_ofSlots]
    obtain ⟨s, _, hs1, hm, ha⟩ := slotSpec_top_ahead d (c + childMiddleOffset k (r.tdiv 2)) k
      ((r.tdiv 2).tdiv 2) .null hk he1 (Or.inl rfl)
    exact straight_of_top c k (r.tdiv 2) s _ _ (by omega) rfl hm ha hp
  · exact slotSpec_straight d _ k _ .null hk4 he1 (passThrough_of_isNull k .null rfl)
      (Or.inl rfl) (by simp [Tree.nodes]) P hk

/-- The deletions at center `(0,0)`, radius `64`, depth `1`: holder, slot, deleted node and
promoted front child. -/
theorem pruneEvents_depth_one :
    (pruneEvents (specTree ⟨0, 0⟩ 64 1)).map
      (fun ev => (ev.holder, ev.child_dir, ev.removed.middle,
        (ev.removed.child ev.child_dir).middle)) =
      [(⟨0, 0⟩, 0, ⟨-16, 16⟩, ⟨-32, 32⟩), (⟨0, 0⟩, 1, ⟨16, 16⟩, ⟨32, 32⟩),
       (⟨0, 0⟩, 2, ⟨16, -16⟩, ⟨32, -32⟩), (⟨0, 0⟩, 3, ⟨-16, -16⟩, ⟨-32, -32⟩)] := by
  decide

/-! ## The walk before and after pruning -/

/-- The walk of a pass-through node: its position, the walk of its front child, its
position again. -/
theorem walkList_passThrough (k : Nat) (hk : k < 4) (c : Tree) (hl : Linked k c)
    (hp : passThrough k c = true) :
    walkList c = c.middle :: (walkList (c.child k) ++ [c.middle]) := by
  obtain ⟨hf, hleft, hright⟩ := passThrough_front k c hp
  cases c with
  | null => simp [Tree.child, Tree.isNull] at hf
  | node e m p c0 c1 c2 c3 =>
    simp only [Linked] at hl
    obtain ⟨hpk, hback, _⟩ := hl
    subst hpk
    simp only [DIRECTION_COUNT] at hleft hright hback
    rw [walkList_node]
    interval_cases p <;>
      simp only [Tree.child, Nat.reduceAdd, Nat.reduceMod] at hf hleft hright hback ⊢ <;>
      simp [Tree.middle, hf, hleft, hright, hback]

theorem walkList_of_isNull (t : Tree) (h : t.isNull = true) : walkList t = [] := by
  cases t with
  | null => rfl
  | node => simp [Tree.isNull] at h

/-- Pruning deletes visits from the walk without reordering the others, and the deleted
visits are two per deleted node, at that node's position. -/
theorem prune_walkList (t : Tree) :
    ChildrenLinked t →
      List.Sublist (walkList (prune t)) (walkList t) ∧
      ∀ a, (walkList t).count a =
        (walkList (prune t)).count a + 2 * ((pruneRemoved t).map Tree.middle).count a := by
  induction t using Tree.induction2 with
  | hnull => intro _; rw [prune_null, pruneRemoved_null]; simp [walkList]
  | hnode e m p c0 c1 c2 c3 ih0 ih1 ih2 ih3 ig0 ig1 ig2 ig3 =>
    have slot : ∀ (k : Nat) (c : Tree), k < 4 →
        (ChildrenLinked c →
          List.Sublist (walkList (prune c)) (walkList c) ∧
          ∀ a, (walkList c).count a =
            (walkList (prune c)).count a + 2 * ((pruneRemoved c).map Tree.middle).count a) →
        (ChildrenLinked (c.child k) →
          List.Sublist (walkList (prune (c.child k))) (walkList (c.child k)) ∧
          ∀ a, (walkList (c.child k)).count a =
            (walkList (prune (c.child k))).count a +
              2 * ((pruneRemoved (c.child k)).map Tree.middle).count a) →
        Linked k c →
        List.Sublist
          (if (pruneSlot k c).isNull then [] else walkList (pruneSlot k c) ++ [m])
          (if c.isNull then [] else walkList c ++ [m]) ∧
        ∀ a, (if c.isNull then [] else walkList c ++ [m]).count a =
          (if (pruneSlot k c).isNull then [] else walkList (pruneSlot k c) ++ [m]).count a +
            2 * ((removedSlot k c).map Tree.middle).count a := by
      intro k c hk h1 h2 hl
      rw [pruneSlot_isNull]
      rcases pruneSlot_cases k c with ⟨hn, e⟩ | ⟨hn, hp, e⟩ | ⟨hn, hp, e⟩
      · have e' : removedSlot k c = [] := by unfold removedSlot; simp [hn]
        rw [e, e']; simp [hn]
      · have e' : removedSlot k c = c :: pruneRemoved (c.child k) := by
          unfold removedSlot; simp [hn, hp]
        obtain ⟨hs, hc⟩ := h2 (hl.child_linked k hk).childrenLinked
        rw [e, e', walkList_passThrough k hk c hl hp]
        simp only [hn, Bool.false_eq_true, if_false]
        constructor
        · refine List.Sublist.append ?_ (List.Sublist.refl _)
          exact List.Sublist.cons _ (hs.trans (List.sublist_append_left _ _))
        · intro a
          have := hc a
          simp only [List.map_cons, List.count_cons, List.count_append, List.count_nil]
          by_cases hx : c.middle = a
          · simp only [hx, beq_self_eq_true, if_true]; omega
          · have hx' : (c.middle == a) = false := by simpa using hx
            simp only [hx', Bool.false_eq_true, if_false]; omega
      · have e' : removedSlot k c = pruneRemoved c := by
          unfold removedSlot; simp [hn, hp]
        obtain ⟨hs, hc⟩ := h1 hl.childrenLinked
        rw [e, e']
        simp only [hn, Bool.false_eq_true, if_false]
        constructor
        · exact List.Sublist.append hs (List.Sublist.refl _)
        · intro a
          have := hc a
          simp only [List.count_append]
          omega
    intro hcl
    obtain ⟨l0, l1, l2, l3⟩ := hcl
    simp only [Tree.child] at l0 l1 l2 l3
    obtain ⟨s0, n0⟩ := slot 0 c0 (by omega) ih0 (ig0 0) l0
    obtain ⟨s1, n1⟩ := slot 1 c1 (by omega) ih1 (ig1 1) l1
    obtain ⟨s2, n2⟩ := slot 2 c2 (by omega) ih2 (ig2 2) l2
    obtain ⟨s3, n3⟩ := slot 3 c3 (by omega) ih3 (ig3 3) l3
    constructor
    · rw [prune_node, walkList_node, walkList_node]
      refine List.Sublist.cons₂ m ?_
      rcases mod4_cases p with h | h | h | h
      · have f0 : (p + 2 + 0) % 4 = 2 := by omega
        have f1 : (p + 2 + 1) % 4 = 3 := by omega
        have f2 : (p + 2 + 2) % 4 = 0 := by omega
        have f3 : (p + 2 + 3) % 4 = 1 := by omega
        simp only [f0, f1, f2, f3, Tree.child]
        exact ((s2.append s3).append s0).append s1
      · have f0 : (p + 2 + 0) % 4 = 3 := by omega
        have f1 : (p + 2 + 1) % 4 = 0 := by omega
        have f2 : (p + 2 + 2) % 4 = 1 := by omega
        have f3 : (p + 2 + 3) % 4 = 2 := by omega
        simp only [f0, f1, f2, f3, Tree.child]
        exact ((s3.append s0).append s1).append s2
      · have f0 : (p + 2 + 0) % 4 = 0 := by omega
        have f1 : (p + 2 + 1) % 4 = 1 := by omega
        have f2 : (p + 2 + 2) % 4 = 2 := by omega
        have f3 : (p + 2 + 3) % 4 = 3 := by omega
        simp only [f0, f1, f2, f3, Tree.child]
        exact ((s0.append s1).append s2).append s3
      · have f0 : (p + 2 + 0) % 4 = 1 := by omega
        have f1 : (p + 2 + 1) % 4 = 2 := by omega
        have f2 : (p + 2 + 2) % 4 = 3 := by omega
        have f3 : (p + 2 + 3) % 4 = 0 := by omega
        simp only [f0, f1, f2, f3, Tree.child]
        exact ((s1.append s2).append s3).append s0
    · intro a
      rw [prune_node, pruneRemoved_node,
        (walkList_node_perm e m p c0 c1 c2 c3).count_eq a,
        (walkList_node_perm e m p _ _ _ _).count_eq a]
      have := n0 a
      have := n1 a
      have := n2 a
      have := n3 a
      simp only [List.map_append, List.count_cons, List.count_append]
      omega

/-! ## The walk as a sequence of nodes -/

theorem walkPaths_node (e : Int) (m : Point) (I : Nat) (c0 c1 c2 c3 : Tree) :
    walkPaths (.node e m I c0 c1 c2 c3) =
      [] :: (pathSeg ((I + 2 + 0) % 4) ((Tree.node e m I c0 c1 c2 c3).child ((I + 2 + 0) % 4)) ++
            pathSeg ((I + 2 + 1) % 4) ((Tree.node e m I c0 c1 c2 c3).child ((I + 2 + 1) % 4)) ++
            pathSeg ((I + 2 + 2) % 4) ((Tree.node e m I c0 c1 c2 c3).child ((I + 2 + 2) % 4)) ++
            pathSeg ((I + 2 + 3) % 4)
              ((Tree.node e m I c0 c1 c2 c3).child ((I + 2 + 3) % 4))) := by
  simp only [walkPaths, DIRECTION_COUNT, pathSeg]
  rcases mod4_cases I with h | h | h | h
  · have e0 : (I + 0 + 2) % 4 = 2 := by omega
    have e1 : (I + 1 + 2) % 4 = 3 := by omega
    have e2 : (I + 2 + 2) % 4 = 0 := by omega
    have e3 : (I + 3 + 2) % 4 = 1 := by omega
    have f0 : (I + 2 + 0) % 4 = 2 := by omega
    have f1 : (I + 2 + 1) % 4 = 3 := by omega
    have f3 : (I + 2 + 3) % 4 = 1 := by omega
    simp only [e0, e1, e2, e3, f0, f1, f3, Tree.child]
  · have e0 : (I + 0 + 2) % 4 = 3 := by omega
    have e1 : (I + 1 + 2) % 4 = 0 := by omega
    have e2 : (I + 2 + 2) % 4 = 1 := by omega
    have e3 : (I + 3 + 2) % 4 = 2 := by omega
    have f0 : (I + 2 + 0) % 4 = 3 := by omega
    have f1 : (I + 2 + 1) % 4 = 0 := by omega
    have f3 : (I + 2 + 3) % 4 = 2 := by omega
    simp only [e0, e1, e2, e3, f0, f1, f3, Tree.child]
  · have e0 : (I + 0 + 2) % 4 = 0 := by omega
    have e1 : (I + 1 + 2) % 4 = 1 := by omega
    have e2 : (I + 2 + 2) % 4 = 2 := by omega
    have e3 : (I + 3 + 2) % 4 = 3 := by omega
    have f0 : (I + 2 + 0) % 4 = 0 := by omega
    have f1 : (I + 2 + 1) % 4 = 1 := by omega
    have f3 : (I + 2 + 3) % 4 = 3 := by omega
    simp only [e0, e1, e2, e3, f0, f1, f3, Tree.child]
  · have e0 : (I + 0 + 2) % 4 = 1 := by omega
    have e1 : (I + 1 + 2) % 4 = 2 := by omega
    have e2 : (I + 2 + 2) % 4 = 3 := by omega
    have e3 : (I + 3 + 2) % 4 = 0 := by omega
    have f0 : (I + 2 + 0) % 4 = 1 := by omega
    have f1 : (I + 2 + 1) % 4 = 2 := by omega
    have f3 : (I + 2 + 3) % 4 = 0 := by omega
    simp only [e0, e1, e2, e3, f0, f1, f3, Tree.child]

theorem Tree.descend_null (p : List Nat) : Tree.null.descend p = .null := by
  induction p with
  | nil => rfl
  | cons k ks ih => simpa [Tree.descend, Tree.child] using ih

theorem Tree.child_cases (e : Int) (m : Point) (I : Nat) (c0 c1 c2 c3 : Tree) (k : Nat) :
    (Tree.node e m I c0 c1 c2 c3).child k = c0 ∨ (Tree.node e m I c0 c1 c2 c3).child k = c1 ∨
    (Tree.node e m I c0 c1 c2 c3).child k = c2 ∨ (Tree.node e m I c0 c1 c2 c3).child k = c3 := by
  match k with
  | 0 => exact Or.inl rfl
  | 1 => exact Or.inr (Or.inl rfl)
  | 2 => exact Or.inr (Or.inr (Or.inl rfl))
  | k + 3 => exact Or.inr (Or.inr (Or.inr (by cases k <;> rfl)))

/-- The positions `walk` emits are the positions of the nodes of `walkPaths`. -/
theorem walkList_eq_map_walkPaths (t : Tree) :
    walkList t = (walkPaths t).map (fun p => (t.descend p).middle) := by
  induction t with
  | null => rfl
  | node e m I c0 c1 c2 c3 ih0 ih1 ih2 ih3 =>
    have seg : ∀ k, (if ((Tree.node e m I c0 c1 c2 c3).child k).isNull then []
          else walkList ((Tree.node e m I c0 c1 c2 c3).child k) ++ [m]) =
        (pathSeg k ((Tree.node e m I c0 c1 c2 c3).child k)).map
          (fun p => ((Tree.node e m I c0 c1 c2 c3).descend p).middle) := by
      intro k
      have ih : walkList ((Tree.node e m I c0 c1 c2 c3).child k) =
          (walkPaths ((Tree.node e m I c0 c1 c2 c3).child k)).map
            (fun p => (((Tree.node e m I c0 c1 c2 c3).child k).descend p).middle) := by
        rcases Tree.child_cases e m I c0 c1 c2 c3 k with h | h | h | h <;> rw [h]
        · exact ih0
        · exact ih1
        · exact ih2
        · exact ih3
      unfold pathSeg
      rcases Bool.eq_false_or_eq_true ((Tree.node e m I c0 c1 c2 c3).child k).isNull
        with hn | hn
      · simp [hn]
      · simp only [hn, Bool.false_eq_true, if_false, List.map_append, List.map_map,
          List.map_cons, List.map_nil]
        rw [ih]
        rfl
    rw [walkList_node, walkPaths_node]
    simp only [List.map_cons, List.map_append, seg]
    rfl

/-! ## Neighbours in a list -/

theorem consecutive_cons_cons {α : Type} (a b : α) (l : List α) :
    consecutive (a :: b :: l) = (a, b) :: consecutive (b :: l) := rfl

theorem consecutive_single {α : Type} (a : α) : consecutive [a] = [] := rfl

theorem consecutive_nil {α : Type} : consecutive ([] : List α) = [] := rfl

theorem consecutive_map {α β : Type} (f : α → β) (l : List α) :
    consecutive (l.map f) = (consecutive l).map (fun s => (f s.1, f s.2)) := by
  induction l with
  | nil => rfl
  | cons a l ih =>
    cases l with
    | nil => rfl
    | cons b l =>
      simp only [List.map_cons, consecutive_cons_cons] at ih ⊢
      rw [ih]

theorem consecutive_append {α : Type} (A : List α) (x y : α) (B : List α) :
    consecutive (A ++ x :: y :: B) = consecutive (A ++ [x]) ++ (x, y) :: consecutive (y :: B) := by
  induction A with
  | nil => rfl
  | cons a A ih =>
    cases A with
    | nil => simp [consecutive_cons_cons, consecutive_single]
    | cons b A =>
      simp only [List.cons_append, consecutive_cons_cons] at ih ⊢
      rw [ih]

/-! ## The steps of the walk -/

/-- The walk of a node starts at that node and ends there. -/
theorem walkPaths_ends (t : Tree) (h : t.isNull = false) :
    (∃ W, walkPaths t = [] :: W) ∧ ∃ A, walkPaths t = A ++ [[]] := by
  cases t with
  | null => simp [Tree.isNull] at h
  | node e m I c0 c1 c2 c3 =>
    rw [walkPaths_node]
    refine ⟨⟨_, rfl⟩, ?_⟩
    have seg : ∀ k c, pathSeg k c = [] ∨ ∃ A, pathSeg k c = A ++ [[]] := by
      intro k c
      unfold pathSeg
      rcases Bool.eq_false_or_eq_true c.isNull with hn | hn
      · simp [hn]
      · right; simp only [hn, Bool.false_eq_true, if_false]; exact ⟨_, rfl⟩
    have app : ∀ L1 L2 : List (List Nat), (L1 = [] ∨ ∃ A, L1 = A ++ [[]]) →
        (L2 = [] ∨ ∃ A, L2 = A ++ [[]]) → (L1 ++ L2 = [] ∨ ∃ A, L1 ++ L2 = A ++ [[]]) := by
      intro L1 L2 h1 h2
      rcases h2 with h2 | ⟨A, h2⟩
      · rw [h2, List.append_nil]; exact h1
      · right; exact ⟨L1 ++ A, by rw [h2, List.append_assoc]⟩
    rcases app _ _ (app _ _ (app _ _ (seg _ _) (seg _ _)) (seg _ _)) (seg ((I + 2 + 3) % 4)
        ((Tree.node e m I c0 c1 c2 c3).child ((I + 2 + 3) % 4))) with h | ⟨A, h⟩
    · rw [h]; exact ⟨[], rfl⟩
    · rw [h]; exact ⟨[] :: A, rfl⟩

theorem consecutive_seg (k : Nat) (c : Tree) (rest : List (List Nat)) :
    consecutive ([] :: (pathSeg k c ++ rest)) = stepSeg k c ++ consecutive ([] :: rest) := by
  unfold pathSeg stepSeg
  rcases Bool.eq_false_or_eq_true c.isNull with hn | hn
  · simp [hn]
  · obtain ⟨⟨W, hW⟩, ⟨A, hA⟩⟩ := walkPaths_ends c hn
    simp only [hn, Bool.false_eq_true, if_false]
    have h1 : (walkPaths c).map (fun p => k :: p) ++ [[]] ++ rest =
        A.map (fun p => k :: p) ++ [k] :: [] :: rest := by
      rw [hA]; simp
    have h2 : consecutive (A.map (fun p => k :: p) ++ [[k]]) =
        (consecutive (walkPaths c)).map (fun s => (k :: s.1, k :: s.2)) := by
      rw [← consecutive_map, hA]; simp
    have h3 : [] :: (A.map (fun p => k :: p) ++ [k] :: [] :: rest) =
        [] :: [k] :: ((W.map (fun p => k :: p)) ++ [] :: rest) := by
      have : A.map (fun p => k :: p) ++ [[k]] = [k] :: W.map (fun p => k :: p) := by
        have := congrArg (List.map (fun p => k :: p)) (hA.symm.trans hW)
        simpa using this
      have e : A.map (fun p => k :: p) ++ [k] :: [] :: rest =
          (A.map (fun p => k :: p) ++ [[k]]) ++ [] :: rest := by simp
      rw [e, this]; rfl
    rw [h1, h3, consecutive_cons_cons, ← List.cons_append]
    have h4 : [k] :: W.map (fun p => k :: p) = A.map (fun p => k :: p) ++ [[k]] := by
      have := congrArg (List.map (fun p => k :: p)) (hA.symm.trans hW)
      simpa using this.symm
    rw [h4, List.append_assoc, List.singleton_append, consecutive_append, h2]
    simp

theorem consecutive_walkPaths_node (e : Int) (m : Point) (I : Nat) (c0 c1 c2 c3 : Tree) :
    consecutive (walkPaths (.node e m I c0 c1 c2 c3)) =
      stepSeg ((I + 2 + 0) % 4) ((Tree.node e m I c0 c1 c2 c3).child ((I + 2 + 0) % 4)) ++
      stepSeg ((I + 2 + 1) % 4) ((Tree.node e m I c0 c1 c2 c3).child ((I + 2 + 1) % 4)) ++
      stepSeg ((I + 2 + 2) % 4) ((Tree.node e m I c0 c1 c2 c3).child ((I + 2 + 2) % 4)) ++
      stepSeg ((I + 2 + 3) % 4) ((Tree.node e m I c0 c1 c2 c3).child ((I + 2 + 3) % 4)) := by
  rw [walkPaths_node]
  simp only [List.append_assoc]
  rw [consecutive_seg, consecutive_seg, consecutive_seg]
  have := consecutive_seg ((I + 2 + 3) % 4)
    ((Tree.node e m I c0 c1 c2 c3).child ((I + 2 + 3) % 4)) []
  rw [List.append_nil] at this
  rw [this, consecutive_single, List.append_nil]

theorem consecutive_walkPaths_perm (e : Int) (m : Point) (I : Nat) (c0 c1 c2 c3 : Tree) :
    (consecutive (walkPaths (.node e m I c0 c1 c2 c3))).Perm
      (stepSeg 0 c0 ++ stepSeg 1 c1 ++ stepSeg 2 c2 ++ stepSeg 3 c3) := by
  rw [consecutive_walkPaths_node]
  generalize hs0 : stepSeg 0 c0 = s0
  generalize hs1 : stepSeg 1 c1 = s1
  generalize hs2 : stepSeg 2 c2 = s2
  generalize hs3 : stepSeg 3 c3 = s3
  rcases mod4_cases I with h | h | h | h
  · have f0 : (I + 2 + 0) % 4 = 2 := by omega
    have f1 : (I + 2 + 1) % 4 = 3 := by omega
    have f2 : (I + 2 + 2) % 4 = 0 := by omega
    have f3 : (I + 2 + 3) % 4 = 1 := by omega
    simp only [f0, f1, f2, f3, Tree.child, hs0, hs1, hs2, hs3]
    rw [List.perm_iff_count]; intro a; simp only [List.count_append]; omega
  · have f0 : (I + 2 + 0) % 4 = 3 := by omega
    have f1 : (I + 2 + 1) % 4 = 0 := by omega
    have f2 : (I + 2 + 2) % 4 = 1 := by omega
    have f3 : (I + 2 + 3) % 4 = 2 := by omega
    simp only [f0, f1, f2, f3, Tree.child, hs0, hs1, hs2, hs3]
    rw [List.perm_iff_count]; intro a; simp only [List.count_append]; omega
  · have f0 : (I + 2 + 0) % 4 = 0 := by omega
    have f1 : (I + 2 + 1) % 4 = 1 := by omega
    have f2 : (I + 2 + 2) % 4 = 2 := by omega
    have f3 : (I + 2 + 3) % 4 = 3 := by omega
    simp only [f0, f1, f2, f3, Tree.child, hs0, hs1, hs2, hs3]
    exact List.Perm.refl _
  · have f0 : (I + 2 + 0) % 4 = 1 := by omega
    have f1 : (I + 2 + 1) % 4 = 2 := by omega
    have f2 : (I + 2 + 2) % 4 = 3 := by omega
    have f3 : (I + 2 + 3) % 4 = 0 := by omega
    simp only [f0, f1, f2, f3, Tree.child, hs0, hs1, hs2, hs3]
    rw [List.perm_iff_count]; intro a; simp only [List.count_append]; omega


theorem isEdge_lift (t : Tree) (k : Nat) (hk : k < 4) (p q : List Nat)
    (h : (t.child k).IsEdge p q) : t.IsEdge (k :: p) (k :: q) := by
  obtain ⟨h1, ⟨j, h2⟩, h3⟩ := h
  refine ⟨?_, ⟨j, by rw [h2]; rfl⟩, h3⟩
  intro i hi
  rcases List.mem_cons.mp hi with rfl | hi
  · exact hk
  · exact h1 i hi

theorem isEdge_root (t : Tree) (k : Nat) (hk : k < 4) (h : (t.child k).isNull = false) :
    t.IsEdge [] [k] := by
  refine ⟨?_, ⟨k, rfl⟩, h⟩
  intro i hi
  rcases List.mem_cons.mp hi with rfl | hi
  · exact hk
  · simp at hi

theorem mem_stepSeg (k : Nat) (c : Tree) (s : List Nat × List Nat) (h : s ∈ stepSeg k c) :
    c.isNull = false ∧ (s = ([], [k]) ∨ s = ([k], []) ∨
      ∃ s' ∈ consecutive (walkPaths c), s = (k :: s'.1, k :: s'.2)) := by
  unfold stepSeg at h
  rcases Bool.eq_false_or_eq_true c.isNull with hn | hn
  · simp [hn] at h
  · refine ⟨hn, ?_⟩
    simp only [hn, Bool.false_eq_true, if_false, List.cons_append, List.mem_cons,
      List.mem_append, List.mem_map, List.mem_singleton, List.not_mem_nil, or_false] at h
    rcases h with h | ⟨s', hs', h⟩ | h
    · exact Or.inl h
    · exact Or.inr (Or.inr ⟨s', hs', h.symm⟩)
    · exact Or.inr (Or.inl h)

/-- Every step of the walk goes along a parent-child edge, down or up. -/
theorem walk_steps_edges (t : Tree) :
    ∀ s ∈ consecutive (walkPaths t), t.IsEdge s.1 s.2 ∨ t.IsEdge s.2 s.1 := by
  induction t with
  | null => intro s hs; simp [walkPaths, consecutive_nil] at hs
  | node e m I c0 c1 c2 c3 ih0 ih1 ih2 ih3 =>
    have slot : ∀ (k : Nat) (c : Tree), k < 4 → c = (Tree.node e m I c0 c1 c2 c3).child k →
        (∀ s ∈ consecutive (walkPaths c), c.IsEdge s.1 s.2 ∨ c.IsEdge s.2 s.1) →
        ∀ s ∈ stepSeg k c, (Tree.node e m I c0 c1 c2 c3).IsEdge s.1 s.2 ∨
          (Tree.node e m I c0 c1 c2 c3).IsEdge s.2 s.1 := by
      intro k c hk hc ih s hs
      obtain ⟨hn, h | h | ⟨s', hs', h⟩⟩ := mem_stepSeg k c s hs
      · rw [h]; exact Or.inl (isEdge_root _ k hk (by rw [← hc]; exact hn))
      · rw [h]; exact Or.inr (isEdge_root _ k hk (by rw [← hc]; exact hn))
      · rw [h]
        rcases ih s' hs' with h' | h'
        · exact Or.inl (isEdge_lift _ k hk _ _ (by rw [← hc]; exact h'))
        · exact Or.inr (isEdge_lift _ k hk _ _ (by rw [← hc]; exact h'))
    intro s hs
    rw [(consecutive_walkPaths_perm e m I c0 c1 c2 c3).mem_iff] at hs
    simp only [List.mem_append] at hs
    rcases hs with ((h | h) | h) | h
    · exact slot 0 c0 (by omega) rfl ih0 s h
    · exact slot 1 c1 (by omega) rfl ih1 s h
    · exact slot 2 c2 (by omega) rfl ih2 s h
    · exact slot 3 c3 (by omega) rfl ih3 s h

/-- Every visit of the walk is at a node of the tree. -/
theorem walkPaths_nodes (t : Tree) :
    ∀ p ∈ walkPaths t, (∀ j ∈ p, j < 4) ∧ (t.descend p).isNull = false := by
  induction t with
  | null => intro p hp; simp [walkPaths] at hp
  | node e m I c0 c1 c2 c3 ih0 ih1 ih2 ih3 =>
    have seg : ∀ k, ∀ p ∈ pathSeg (k % 4) ((Tree.node e m I c0 c1 c2 c3).child (k % 4)),
        (∀ j ∈ p, j < 4) ∧ ((Tree.node e m I c0 c1 c2 c3).descend p).isNull = false := by
      intro k p hp
      have ih : ∀ p ∈ walkPaths ((Tree.node e m I c0 c1 c2 c3).child (k % 4)),
          (∀ j ∈ p, j < 4) ∧
            (((Tree.node e m I c0 c1 c2 c3).child (k % 4)).descend p).isNull = false := by
        rcases Tree.child_cases e m I c0 c1 c2 c3 (k % 4) with h | h | h | h <;> rw [h]
        · exact ih0
        · exact ih1
        · exact ih2
        · exact ih3
      unfold pathSeg at hp
      rcases Bool.eq_false_or_eq_true ((Tree.node e m I c0 c1 c2 c3).child (k % 4)).isNull
        with hn | hn
      · simp [hn] at hp
      · simp only [hn, Bool.false_eq_true, if_false, List.mem_append, List.mem_map,
          List.mem_singleton] at hp
        rcases hp with ⟨p', hp', rfl⟩ | rfl
        · obtain ⟨h1, h2⟩ := ih p' hp'
          refine ⟨?_, h2⟩
          intro j hj
          rcases List.mem_cons.mp hj with rfl | hj
          · exact Nat.mod_lt _ (by decide)
          · exact h1 j hj
        · exact ⟨by simp, rfl⟩
    intro p hp
    rw [walkPaths_node] at hp
    simp only [List.mem_cons, List.mem_append] at hp
    rcases hp with rfl | ((h | h) | h) | h
    · exact ⟨by simp, rfl⟩
    · exact seg _ p h
    · exact seg _ p h
    · exact seg _ p h
    · exact seg _ p h

theorem count_map_lift (i j : Nat) (p q : List Nat) (l : List (List Nat × List Nat)) :
    (l.map (fun s => (i :: s.1, i :: s.2))).count (j :: p, j :: q) =
      if i = j then l.count (p, q) else 0 := by
  induction l with
  | nil => simp
  | cons a l ih =>
    rw [List.map_cons, List.count_cons, ih, List.count_cons]
    by_cases hij : i = j
    · subst hij
      by_cases ha : a = (p, q)
      · subst ha; simp
      · have : ¬ (a.1 = p ∧ a.2 = q) := fun h => ha (Prod.ext h.1 h.2)
        simp [ha, this]
    · simp [hij]

theorem count_map_lift_root (i : Nat) (x : List Nat × List Nat)
    (hx : x.1 = [] ∨ x.2 = []) (l : List (List Nat × List Nat)) :
    (l.map (fun s => (i :: s.1, i :: s.2))).count x = 0 := by
  rw [List.count_eq_zero]
  intro h
  obtain ⟨s, _, hs⟩ := List.mem_map.mp h
  rcases hx with hx | hx
  · rw [← hs] at hx; simp at hx
  · rw [← hs] at hx; simp at hx

theorem count_stepSeg_down (j k : Nat) (c : Tree) :
    (stepSeg j c).count ([], [k]) = if j = k ∧ c.isNull = false then 1 else 0 := by
  unfold stepSeg
  rcases Bool.eq_false_or_eq_true c.isNull with hn | hn
  · simp [hn]
  · simp only [hn, Bool.false_eq_true, if_false, List.cons_append, List.count_cons,
      List.count_append, List.count_nil,
      count_map_lift_root j ([], [k]) (Or.inl rfl)]
    by_cases hjk : j = k <;> simp [hjk]

theorem count_stepSeg_up (j k : Nat) (c : Tree) :
    (stepSeg j c).count ([k], []) = if j = k ∧ c.isNull = false then 1 else 0 := by
  unfold stepSeg
  rcases Bool.eq_false_or_eq_true c.isNull with hn | hn
  · simp [hn]
  · simp only [hn, Bool.false_eq_true, if_false, List.cons_append, List.count_cons,
      List.count_append, List.count_nil,
      count_map_lift_root j ([k], []) (Or.inr rfl)]
    by_cases hjk : j = k <;> simp [hjk]

theorem count_stepSeg_lift (i j : Nat) (p q : List Nat) (c : Tree) :
    (stepSeg i c).count (j :: p, j :: q) =
      if i = j then (consecutive (walkPaths c)).count (p, q) else 0 := by
  unfold stepSeg
  rcases Bool.eq_false_or_eq_true c.isNull with hn | hn
  · cases c with
    | null => simp [Tree.isNull_null, walkPaths, consecutive_nil]
    | node => simp [Tree.isNull] at hn
  · simp only [hn, Bool.false_eq_true, if_false, List.cons_append, List.count_cons,
      List.count_append, List.count_nil, count_map_lift]
    simp

/-- Every edge is crossed exactly once from parent to child and exactly once back. -/
theorem walk_edge_counts (t : Tree) :
    ∀ p q, t.IsEdge p q →
      (consecutive (walkPaths t)).count (p, q) = 1 ∧
      (consecutive (walkPaths t)).count (q, p) = 1 := by
  induction t with
  | null =>
    intro p q h
    obtain ⟨_, _, h3⟩ := h
    rw [Tree.descend_null] at h3
    cases h3
  | node e m I c0 c1 c2 c3 ih0 ih1 ih2 ih3 =>
    intro p q h
    have hc : ∀ a, (consecutive (walkPaths (Tree.node e m I c0 c1 c2 c3))).count a =
        (stepSeg 0 c0 ++ stepSeg 1 c1 ++ stepSeg 2 c2 ++ stepSeg 3 c3).count a :=
      fun a => (consecutive_walkPaths_perm e m I c0 c1 c2 c3).countP_eq _
    rw [hc, hc]
    obtain ⟨h1, ⟨k, h2⟩, h3⟩ := h
    subst h2
    cases p with
    | nil =>
      have hk : k < 4 := h1 k (by simp)
      simp only [List.nil_append, Tree.descend] at h3 ⊢
      simp only [List.count_append, count_stepSeg_down, count_stepSeg_up]
      interval_cases k <;> simp only [Tree.child] at h3 <;> simp [h3]
    | cons j p =>
      have hj : j < 4 := h1 j (by simp)
      have hsub : ((Tree.node e m I c0 c1 c2 c3).child j).IsEdge p (p ++ [k]) := by
        refine ⟨fun i hi => h1 i (by simp [List.mem_cons] at hi ⊢; exact Or.inr hi),
          ⟨k, rfl⟩, h3⟩
      simp only [List.cons_append, List.count_append, count_stepSeg_lift]
      interval_cases j <;> simp only [Tree.child] at hsub
      · have := ih0 _ _ hsub; simp [this]
      · have := ih1 _ _ hsub; simp [this]
      · have := ih2 _ _ hsub; simp [this]
      · have := ih3 _ _ hsub; simp [this]
/-! ## Traversal claims -/

/-- C2: for every tree (a root node with any owned children), `walk` invokes `visit`
exactly `2 * E + 1` times, where `E` is the number of parent-child edges; this is the
number of nodes plus `E`; and the position of every node occurs in the emitted sequence. -/
theorem walk_visits_twice_edges_plus_one (e : Int) (m : Point) (I : Nat)
    (c0 c1 c2 c3 : Tree) :
    walk (fun _ n => n + 1) (Tree.node e m I c0 c1 c2 c3) 0
        = 2 * (Tree.node e m I c0 c1 c2 c3).edges + 1 ∧
    (walkSeq (Tree.node e m I c0 c1 c2 c3)).length
        = 2 * (Tree.node e m I c0 c1 c2 c3).edges + 1 ∧
    2 * (Tree.node e m I c0 c1 c2 c3).edges + 1
        = (Tree.node e m I c0 c1 c2 c3).nodes.length + (Tree.node e m I c0 c1 c2 c3).edges ∧
    ∀ N ∈ (Tree.node e m I c0 c1 c2 c3).nodes,
      N.middle ∈ walkSeq (Tree.node e m I c0 c1 c2 c3) := by
  have hlen := walkList_length (Tree.node e m I c0 c1 c2 c3)
  have hnodes := nodes_length (Tree.node e m I c0 c1 c2 c3)
  simp only [Tree.isNull_node, Bool.false_eq_true, if_false] at hlen hnodes
  refine ⟨?_, ?_, ?_, ?_⟩
  · rw [walk_eq_foldl, foldl_count, hlen]; omega
  · rw [walkSeq_eq_walkList, hlen]
  · rw [hnodes]; omega
  · intro N hN
    rw [walkSeq_eq_walkList]
    exact mem_walkList_of_mem_nodes _ N hN

/-- C3: for every node with position `m` and incoming direction value `I`, the sequence
emitted by `walk` is `m`, followed for `k = 0, 1, 2, 3` in that order by the whole walk of
the child in slot `(I + 2 + k) % 4` and `m` again when that slot is occupied, and by
nothing when it is empty; any visitor receives exactly this sequence; and the root
(`I = 4`) visits its children in slot order 2, 3, 0, 1. -/
theorem walk_child_order (e : Int) (m : Point) (I : Nat) (c0 c1 c2 c3 : Tree) :
    walkSeq (Tree.node e m I c0 c1 c2 c3) =
      m :: ((if ((Tree.node e m I c0 c1 c2 c3).child ((I + 2 + 0) % 4)).isNull then []
              else walkSeq ((Tree.node e m I c0 c1 c2 c3).child ((I + 2 + 0) % 4)) ++ [m]) ++
            (if ((Tree.node e m I c0 c1 c2 c3).child ((I + 2 + 1) % 4)).isNull then []
              else walkSeq ((Tree.node e m I c0 c1 c2 c3).child ((I + 2 + 1) % 4)) ++ [m]) ++
            (if ((Tree.node e m I c0 c1 c2 c3).child ((I + 2 + 2) % 4)).isNull then []
              else walkSeq ((Tree.node e m I c0 c1 c2 c3).child ((I + 2 + 2) % 4)) ++ [m]) ++
            (if ((Tree.node e m I c0 c1 c2 c3).child ((I + 2 + 3) % 4)).isNull then []
              else walkSeq ((Tree.node e m I c0 c1 c2 c3).child ((I + 2 + 3) % 4)) ++ [m])) ∧
    (∀ (σ : Type) (visit : Point → σ → σ) (s : σ),
      walk visit (Tree.node e m I c0 c1 c2 c3) s =
        (walkSeq (Tree.node e m I c0 c1 c2 c3)).foldl (fun s p => visit p s) s) ∧
    walkSeq (Tree.node e m DIRECTION_COUNT c0 c1 c2 c3) =
      m :: ((if c2.isNull then [] else walkSeq c2 ++ [m]) ++
            (if c3.isNull then [] else walkSeq c3 ++ [m]) ++
            (if c0.isNull then [] else walkSeq c0 ++ [m]) ++
            (if c1.isNull then [] else walkSeq c1 ++ [m])) := by
  refine ⟨?_, ?_, ?_⟩
  · simp only [walkSeq_eq_walkList]
    exact walkList_node e m I c0 c1 c2 c3
  · intro σ visit s
    rw [walkSeq_eq_walkList]
    exact walk_eq_foldl visit _ s
  · simp only [walkSeq_eq_walkList]
    rw [walkList_node]
    rfl

/-! ## Claims about the constructed tree -/

/-- C1: for every center, radius and depth `d ≥ 0`, the constructor terminates, and both in
the tree as it stands after the four `root.addChild` calls and in the tree after
`root.prune()`, every non-root node `N` has an empty child slot in direction
`(N.parent_to_here_direction + 2) % 4`. -/
theorem no_child_in_opposite_direction (c : Point) (r d : Int) (hd : 0 ≤ d) :
    ∃ raw T, buildTree c r d = some raw ∧ construct c r d = some T ∧
      (∀ N ∈ raw.properNodes, (N.child ((N.pth + 2) % 4)).isNull = true) ∧
      (∀ N ∈ T.properNodes, (N.child ((N.pth + 2) % 4)).isNull = true) := by
  obtain ⟨n, rfl⟩ := Int.eq_ofNat_of_zero_le hd
  refine ⟨specTree c r n, prune (specTree c r n), buildTree_eq c r n, construct_eq c r n, ?_, ?_⟩
  · exact childrenLinked_noBackChild _ (specTree_childrenLinked c r n)
  · exact childrenLinked_noBackChild _ (prune_childrenLinked _ (specTree_childrenLinked c r n))

/-- Witness for C1 at center `(0,0)`, radius `100`, depth `2`. -/
theorem no_child_in_opposite_direction_witness :
    (0 : Int) ≤ 2 ∧ ∃ raw T, buildTree ⟨0, 0⟩ 100 2 = some raw ∧
      construct ⟨0, 0⟩ 100 2 = some T ∧
      (∀ N ∈ raw.properNodes, (N.child ((N.pth + 2) % 4)).isNull = true) ∧
      (∀ N ∈ T.properNodes, (N.child ((N.pth + 2) % 4)).isNull = true) :=
  ⟨by decide, no_child_in_opposite_direction ⟨0, 0⟩ 100 2 (by decide)⟩

/-- C4: for every center `c` and radius `r`, the tree constructed with depth `0` is the root
at `c` with one leaf child in each of the four slots, at the four sign combinations of
`r / 2` (slot 0 at `(-, +)`, 1 at `(+, +)`, 2 at `(+, -)`, 3 at `(-, -)`); it has 5 nodes;
`walk` emits 9 positions, `c` at the even indices and the children of slots 2, 3, 0, 1 at
indices 1, 3, 5, 7.  For center `(0,0)` and radius `100` the children are at `(±50, ±50)`. -/
theorem depth_zero_five_nodes_nine_visits (c : Point) (r : Int) :
    (∃ T, construct c r 0 = some T ∧
      T = .node 0 c 4
        (.node (-1) ⟨c.X - r.tdiv 2, c.Y + r.tdiv 2⟩ 0 .null .null .null .null)
        (.node (-1) ⟨c.X + r.tdiv 2, c.Y + r.tdiv 2⟩ 1 .null .null .null .null)
        (.node (-1) ⟨c.X + r.tdiv 2, c.Y - r.tdiv 2⟩ 2 .null .null .null .null)
        (.node (-1) ⟨c.X - r.tdiv 2, c.Y - r.tdiv 2⟩ 3 .null .null .null .null) ∧
      T.nodes.length = 5 ∧
      walkSeq T = [c, ⟨c.X + r.tdiv 2, c.Y - r.tdiv 2⟩, c, ⟨c.X - r.tdiv 2, c.Y - r.tdiv 2⟩, c,
        ⟨c.X - r.tdiv 2, c.Y + r.tdiv 2⟩, c, ⟨c.X + r.tdiv 2, c.Y + r.tdiv 2⟩, c]) ∧
    (construct ⟨0, 0⟩ 100 0).map walkSeq =
      some [⟨0, 0⟩, ⟨50, -50⟩, ⟨0, 0⟩, ⟨-50, -50⟩, ⟨0, 0⟩, ⟨-50, 50⟩, ⟨0, 0⟩, ⟨50, 50⟩, ⟨0, 0⟩] := by
  refine ⟨⟨_, construct_eq c r 0, ?_, ?_, ?_⟩, by decide⟩
  · rw [specTree_zero]; rfl
  · rw [specTree_zero]; rfl
  · rw [specTree_zero]; rfl

/-- C5 (as stated) fails: with center `(0,0)`, radius `100` and depth `0` the constructed
tree has nodes whose `depth` is negative (the four children carry `depth = -1`). -/
theorem depth_nonneg_counterexample :
    ∃ T, construct ⟨0, 0⟩ 100 0 = some T ∧ ¬ (∀ N ∈ T.nodes, 0 ≤ N.depth) := by
  refine ⟨_, construct_eq ⟨0, 0⟩ 100 0, fun h => ?_⟩
  have := h (.node (-1) ⟨-50, 50⟩ 0 .null .null .null .null) (by decide)
  revert this
  decide

/-- C5 (amended): for every center, radius and depth `d ≥ 0`, the constructor terminates and
no node, neither of the tree built by the four `root.addChild` calls nor of the pruned
tree, has a `depth` value below `-1`. -/
theorem depth_ge_minus_one (c : Point) (r d : Int) (hd : 0 ≤ d) :
    ∃ raw T, buildTree c r d = some raw ∧ construct c r d = some T ∧
      (∀ N ∈ raw.nodes, -1 ≤ N.depth) ∧ (∀ N ∈ T.nodes, -1 ≤ N.depth) := by
  obtain ⟨n, rfl⟩ := Int.eq_ofNat_of_zero_le hd
  refine ⟨specTree c r n, prune (specTree c r n), buildTree_eq c r n, construct_eq c r n,
    specTree_depth_ge c r n, ?_⟩
  intro N' hN'
  obtain ⟨N, hN, hdep, _, _⟩ := prune_nodes_fields _ N' hN'
  rw [hdep]
  exact specTree_depth_ge c r n N hN

/-- Witness for the amended C5 at center `(0,0)`, radius `100`, depth `3`. -/
theorem depth_ge_minus_one_witness :
    (0 : Int) ≤ 3 ∧ ∃ raw T, buildTree ⟨0, 0⟩ 100 3 = some raw ∧
      construct ⟨0, 0⟩ 100 3 = some T ∧
      (∀ N ∈ raw.nodes, -1 ≤ N.depth) ∧ (∀ N ∈ T.nodes, -1 ≤ N.depth) :=
  ⟨by decide, depth_ge_minus_one ⟨0, 0⟩ 100 3 (by decide)⟩

/-- C7: for every center `c`, radius `r ≥ 0` and depth `d ≥ 0`, the constructor terminates
and every node, of the tree built by the four `root.addChild` calls and of the pruned tree,
lies within horizontal and vertical distance `r` of `c` (offsets halved with truncating
integer division). -/
theorem nodes_within_radius (c : Point) (r d : Int) (hr : 0 ≤ r) (hd : 0 ≤ d) :
    ∃ raw T, buildTree c r d = some raw ∧ construct c r d = some T ∧
      (∀ N ∈ raw.nodes, |N.middle.X - c.X| ≤ r ∧ |N.middle.Y - c.Y| ≤ r) ∧
      (∀ N ∈ T.nodes, |N.middle.X - c.X| ≤ r ∧ |N.middle.Y - c.Y| ≤ r) := by
  obtain ⟨n, rfl⟩ := Int.eq_ofNat_of_zero_le hd
  have key : ∀ N ∈ (specTree c r n).nodes,
      |N.middle.X - c.X| ≤ r ∧ |N.middle.Y - c.Y| ≤ r := by
    intro N hN
    obtain ⟨h1, h2, h3, h4⟩ := specTree_within c r n hr N hN
    constructor <;> rw [abs_le] <;> constructor <;> omega
  refine ⟨specTree c r n, prune (specTree c r n), buildTree_eq c r n, construct_eq c r n,
    key, ?_⟩
  intro N' hN'
  obtain ⟨N, hN, _, hmid, _⟩ := prune_nodes_fields _ N' hN'
  rw [hmid]
  exact key N hN

/-- Witness for C7 at center `(3,-7)`, radius `1001`, depth `4`. -/
theorem nodes_within_radius_witness :
    (0 : Int) ≤ 1001 ∧ (0 : Int) ≤ 4 ∧ ∃ raw T, buildTree ⟨3, -7⟩ 1001 4 = some raw ∧
      construct ⟨3, -7⟩ 1001 4 = some T ∧
      (∀ N ∈ raw.nodes, |N.middle.X - 3| ≤ 1001 ∧ |N.middle.Y - (-7)| ≤ 1001) ∧
      (∀ N ∈ T.nodes, |N.middle.X - 3| ≤ 1001 ∧ |N.middle.Y - (-7)| ≤ 1001) :=
  ⟨by decide, by decide, nodes_within_radius ⟨3, -7⟩ 1001 4 (by decide) (by decide)⟩

/-- C6 (as stated) fails: with center `(0,0)`, radius `100` and depth `2` the pruned tree has
a root-to-leaf chain of `4` edges, more than `d + 1 = 3`. -/
theorem chain_length_counterexample :
    ∃ T, construct ⟨0, 0⟩ 100 2 = some T ∧ ¬ (∀ l ∈ T.leafDepths, l ≤ 2 + 1) :=
  ⟨_, construct_eq ⟨0, 0⟩ 100 2, fun h => absurd (h 4 (by decide)) (by decide)⟩

/-- C6 (amended): for every center, radius and depth `d ≥ 0`, the constructor terminates and
every root-to-leaf chain of the pruned tree has at most `2 ^ d` edges; some chain has
exactly `2 ^ d` edges, so the bound `d + 1` holds for `d ≤ 1` only. -/
theorem chain_length_le_two_pow (c : Point) (r d : Int) (hd : 0 ≤ d) :
    ∃ T, construct c r d = some T ∧ (∀ l ∈ T.leafDepths, l ≤ 2 ^ d.toNat) ∧
      2 ^ d.toNat ∈ T.leafDepths := by
  obtain ⟨n, rfl⟩ := Int.eq_ofNat_of_zero_le hd
  refine ⟨prune (specTree c r n), construct_eq c r n, fun l hl => ?_, ?_⟩
  · have h1 := leafDepths_lt_height _ l hl
    have h2 := height_prune_specTree c r n
    simp only [Int.toNat_ofNat]
    omega
  · simp only [Int.toNat_ofNat]
    exact deep_leaf_prune_specTree c r n

/-- Witness for the amended C6 at center `(0,0)`, radius `100`, depth `2`. -/
theorem chain_length_le_two_pow_witness :
    (0 : Int) ≤ 2 ∧ ∃ T, construct ⟨0, 0⟩ 100 2 = some T ∧
      (∀ l ∈ T.leafDepths, l ≤ 2 ^ (2 : Int).toNat) ∧ 2 ^ (2 : Int).toNat ∈ T.leafDepths :=
  ⟨by decide, chain_length_le_two_pow ⟨0, 0⟩ 100 2 (by decide)⟩

/-- C8: for every tree produced by the four `root.addChild` calls (any center, radius, depth
`d ≥ 0`), every node that `root.prune()` deletes has exactly one child at the moment it is
deleted, and the leaves reachable from the root have the same positions (as a multiset, and
even in the same slot order) before and after `root.prune()`.  The deleted nodes are
exactly the nodes that disappear: they and the nodes of the pruned tree together count the
nodes of the tree before pruning. -/
theorem prune_removes_single_child_nodes (c : Point) (r d : Int) (hd : 0 ≤ d) :
    ∃ raw, buildTree c r d = some raw ∧ construct c r d = some (prune raw) ∧
      (∀ X ∈ pruneRemoved raw, X.numChildren = 1) ∧
      ((prune raw).leafPositions : Multiset Point) = (raw.leafPositions : Multiset Point) ∧
      (prune raw).leafPositions = raw.leafPositions ∧
      (prune raw).nodes.length + (pruneRemoved raw).length = raw.nodes.length := by
  obtain ⟨n, rfl⟩ := Int.eq_ofNat_of_zero_le hd
  have hl := specTree_childrenLinked c r n
  refine ⟨specTree c r n, buildTree_eq c r n, construct_eq c r n,
    pruneRemoved_single _ hl, ?_, prune_leafPositions _ hl, prune_nodes_count _ hl⟩
  rw [prune_leafPositions _ hl]

/-- Witness for C8 at center `(0,0)`, radius `100`, depth `2`. -/
theorem prune_removes_single_child_nodes_witness :
    (0 : Int) ≤ 2 ∧ ∃ raw, buildTree ⟨0, 0⟩ 100 2 = some raw ∧
      construct ⟨0, 0⟩ 100 2 = some (prune raw) ∧
      (∀ X ∈ pruneRemoved raw, X.numChildren = 1) ∧
      ((prune raw).leafPositions : Multiset Point) = (raw.leafPositions : Multiset Point) ∧
      (prune raw).leafPositions = raw.leafPositions ∧
      (prune raw).nodes.length + (pruneRemoved raw).length = raw.nodes.length :=
  ⟨by decide, prune_removes_single_child_nodes ⟨0, 0⟩ 100 2 (by decide)⟩

/-- C9: for every center `c` and depth `d ≥ 0`, the tree constructed with radius `0` has
every node positioned exactly at `c`, so `walk` emits only `c`; and it occupies the same
child slots at every node as the tree built with the same depth and any radius `r`, hence
`walk` makes the same number of visits on both. -/
theorem radius_zero_same_topology (c : Point) (r d : Int) (hd : 0 ≤ d) :
    ∃ T0 Tr, construct c 0 d = some T0 ∧ construct c r d = some Tr ∧
      (∀ N ∈ T0.nodes, N.middle = c) ∧ (∀ p ∈ walkSeq T0, p = c) ∧
      sameShape T0 Tr ∧ (walkSeq T0).length = (walkSeq Tr).length := by
  obtain ⟨n, rfl⟩ := Int.eq_ofNat_of_zero_le hd
  have hshape : sameShape (prune (specTree c 0 n)) (prune (specTree c r n)) :=
    prune_sameShape _ _ (specTree_sameShape c c 0 r n)
  have hall : ∀ N ∈ (prune (specTree c 0 n)).nodes, N.middle = c := by
    intro N' hN'
    obtain ⟨N, hN, _, hmid, _⟩ := prune_nodes_fields _ N' hN'
    obtain ⟨h1, h2, h3, h4⟩ := specTree_within c 0 n (Int.le_refl 0) N hN
    rw [hmid]
    exact Point.eq_of_coords _ _ (by omega) (by omega)
  refine ⟨prune (specTree c 0 n), prune (specTree c r n), construct_eq c 0 n,
    construct_eq c r n, hall, ?_, hshape, sameShape_walk_length hshape⟩
  intro p hp
  rw [walkSeq_eq_walkList] at hp
  obtain ⟨N, hN, rfl⟩ := walkList_subset_nodes _ p hp
  exact hall N hN

/-- Witness for C9 at center `(5,-2)`, radius `64`, depth `3`. -/
theorem radius_zero_same_topology_witness :
    (0 : Int) ≤ 3 ∧ ∃ T0 Tr, construct ⟨5, -2⟩ 0 3 = some T0 ∧
      construct ⟨5, -2⟩ 64 3 = some Tr ∧
      (∀ N ∈ T0.nodes, N.middle = ⟨5, -2⟩) ∧ (∀ p ∈ walkSeq T0, p = ⟨5, -2⟩) ∧
      sameShape T0 Tr ∧ (walkSeq T0).length = (walkSeq Tr).length :=
  ⟨by decide, radius_zero_same_topology ⟨5, -2⟩ 64 3 (by decide)⟩

/-- C10 (as stated) fails: `addChild(LU, 50)` on a node at `(0,0)` puts the new node at
`(-50, 50)`, not at `(0 - 50, 0 - 50)`: in the source "up" is `+Y` and "down" is `-Y`. -/
theorem addChild_position_counterexample :
    (addChild 1 (getRoot ⟨0, 0⟩ 0) 0 LU 50).map (fun h => (h.node 1).middle)
        = some ⟨-50, 50⟩ ∧
      (⟨-50, 50⟩ : Point) ≠ ⟨0 - 50, 0 - 50⟩ := by
  decide

/-- C10 (amended): on every heap with valid `parent` pointers, for every node `this` at
position `(x, y)` and every offset `o`, `addChild(D, o)` returns (with fuel above the depth
of `this`) and the node it created is positioned at `(x - o, y + o)` for `LU`,
`(x + o, y + o)` for `RU`, `(x + o, y - o)` for `RD` and `(x - o, y - o)` for `LD`:
left is `-X`, right is `+X`, up is `+Y`, down is `-Y`. -/
theorem addChild_position (h : Heap) (this : Nat) (o : Int) (fuel : Nat)
    (hthis : this < h.size) (hv : h.ParentsValid)
    (hfuel : (h.node this).depth.toNat < fuel) :
    (∃ h', addChild fuel h this LU o = some h' ∧
      (h'.node h.size).middle = ⟨(h.node this).middle.X - o, (h.node this).middle.Y + o⟩) ∧
    (∃ h', addChild fuel h this RU o = some h' ∧
      (h'.node h.size).middle = ⟨(h.node this).middle.X + o, (h.node this).middle.Y + o⟩) ∧
    (∃ h', addChild fuel h this RD o = some h' ∧
      (h'.node h.size).middle = ⟨(h.node this).middle.X + o, (h.node this).middle.Y - o⟩) ∧
    (∃ h', addChild fuel h this LD o = some h' ∧
      (h'.node h.size).middle = ⟨(h.node this).middle.X - o, (h.node this).middle.Y - o⟩) := by
  refine ⟨?_, ?_, ?_, ?_⟩
  · obtain ⟨h', e, _, _, hm, _⟩ := addChild_general fuel h this LU o hthis hv hfuel
    refine ⟨h', e, ?_⟩
    rw [hm, childMiddleOffset_LU, Point.add_def]; simp [sub_eq_add_neg]
  · obtain ⟨h', e, _, _, hm, _⟩ := addChild_general fuel h this RU o hthis hv hfuel
    refine ⟨h', e, ?_⟩
    rw [hm, childMiddleOffset_RU, Point.add_def]
  · obtain ⟨h', e, _, _, hm, _⟩ := addChild_general fuel h this RD o hthis hv hfuel
    refine ⟨h', e, ?_⟩
    rw [hm, childMiddleOffset_RD, Point.add_def]; simp [sub_eq_add_neg]
  · obtain ⟨h', e, _, _, hm, _⟩ := addChild_general fuel h this LD o hthis hv hfuel
    refine ⟨h', e, ?_⟩
    rw [hm, childMiddleOffset_LD, Point.add_def]; simp [sub_eq_add_neg]

/-- Witness for the amended C10: the root at `(0,0)` with depth `1`, offset `50`, fuel `2`. -/
theorem addChild_position_witness :
    (0 < (getRoot ⟨0, 0⟩ 1).size ∧ (getRoot ⟨0, 0⟩ 1).ParentsValid ∧
      (((getRoot ⟨0, 0⟩ 1).node 0).depth.toNat < 2)) ∧
    ((∃ h', addChild 2 (getRoot ⟨0, 0⟩ 1) 0 LU 50 = some h' ∧
      (h'.node (getRoot ⟨0, 0⟩ 1).size).middle =
        ⟨((getRoot ⟨0, 0⟩ 1).node 0).middle.X - 50, ((getRoot ⟨0, 0⟩ 1).node 0).middle.Y + 50⟩) ∧
    (∃ h', addChild 2 (getRoot ⟨0, 0⟩ 1) 0 RU 50 = some h' ∧
      (h'.node (getRoot ⟨0, 0⟩ 1).size).middle =
        ⟨((getRoot ⟨0, 0⟩ 1).node 0).middle.X + 50, ((getRoot ⟨0, 0⟩ 1).node 0).middle.Y + 50⟩) ∧
    (∃ h', addChild 2 (getRoot ⟨0, 0⟩ 1) 0 RD 50 = some h' ∧
      (h'.node (getRoot ⟨0, 0⟩ 1).size).middle =
        ⟨((getRoot ⟨0, 0⟩ 1).node 0).middle.X + 50, ((getRoot ⟨0, 0⟩ 1).node 0).middle.Y - 50⟩) ∧
    (∃ h', addChild 2 (getRoot ⟨0, 0⟩ 1) 0 LD 50 = some h' ∧
      (h'.node (getRoot ⟨0, 0⟩ 1).size).middle =
        ⟨((getRoot ⟨0, 0⟩ 1).node 0).middle.X - 50, ((getRoot ⟨0, 0⟩ 1).node 0).middle.Y - 50⟩)) :=
  ⟨⟨by decide, getRoot_parentsValid _ _, by decide⟩,
    addChild_position (getRoot ⟨0, 0⟩ 1) 0 50 2 (by decide) (getRoot_parentsValid _ _)
      (by decide)⟩

/-! ## Claims about one `addChild` call -/

/-- C11 (splice rule): for every node `C` whose parent is another node `P` and whose
`depth` is `≤ 0`, the call `C.addChild((I + 2) % 4, o)` with `I = C.parent_to_here_direction`
returns after creating one node `X` (at the fresh address `h.size`) with incoming direction
`I` and depth `C.depth - 1`; afterwards `P.children[I] = X`, `X.parent = P`,
`X.children[I] = C` with the other slots of `X` empty, `C.parent = X`, the child slots of
`C` are unchanged, the other slots of `P` are unchanged, and so is every other node. -/
theorem splice_rule (h : Heap) (C P : Nat) (o : Int) (fuel : Nat)
    (hC : C < h.size) (hP : P < h.size) (hne : P ≠ C)
    (hpar : (h.node C).parent = some P) (hdepth : (h.node C).depth ≤ 0) :
    ∃ h', addChild (fuel + 1) h C (((h.node C).parent_to_here_direction + 2) % 4) o = some h' ∧
      h'.size = h.size + 1 ∧
      (h'.node h.size).parent_to_here_direction = (h.node C).parent_to_here_direction ∧
      (h'.node h.size).depth = (h.node C).depth - 1 ∧
      (h'.node P).children (h.node C).parent_to_here_direction = some h.size ∧
      (h'.node h.size).parent = some P ∧
      (h'.node h.size).children (h.node C).parent_to_here_direction = some C ∧
      (∀ k, k ≠ (h.node C).parent_to_here_direction → (h'.node h.size).children k = none) ∧
      (h'.node C).parent = some h.size ∧
      (∀ k, (h'.node C).children k = (h.node C).children k) ∧
      (∀ k, k ≠ (h.node C).parent_to_here_direction →
        (h'.node P).children k = (h.node P).children k) ∧
      (∀ j, j < h.size → j ≠ C → j ≠ P → h'.node j = h.node j) := by
  obtain ⟨hsz, hnode⟩ := attach_above h C (((h.node C).parent_to_here_direction + 2) % 4) o P
    hC hP hne hpar rfl
  have hne1 : h.size ≠ C := by omega
  have hne2 : h.size ≠ P := by omega
  have hX : (attach h C (((h.node C).parent_to_here_direction + 2) % 4) o).node h.size =
      newAbove h C (((h.node C).parent_to_here_direction + 2) % 4) o P := by
    rw [hnode h.size]; simp [hne1, hne2]
  have hCn : (attach h C (((h.node C).parent_to_here_direction + 2) % 4) o).node C =
      (h.node C).setParent (some h.size) := by
    rw [hnode C]; simp
  have hPn : (attach h C (((h.node C).parent_to_here_direction + 2) % 4) o).node P =
      (h.node P).setChild (h.node C).parent_to_here_direction (some h.size) := by
    rw [hnode P]; simp [hne]
  refine ⟨attach h C (((h.node C).parent_to_here_direction + 2) % 4) o, ?_, hsz, ?_, ?_, ?_,
    ?_, ?_, ?_, ?_, ?_, ?_, ?_⟩
  · rw [addChild_succ, hCn]
    simp [Node.setParent, hdepth]
  · rw [hX]; rfl
  · rw [hX]; rfl
  · rw [hPn]; simp [Node.setChild]
  · rw [hX]; rfl
  · rw [hX]; simp [newAbove]
  · intro k hk; rw [hX]; simp [newAbove, hk]
  · rw [hCn]; rfl
  · intro k; rw [hCn]; rfl
  · intro k hk; rw [hPn]; simp [Node.setChild, hk]
  · intro j hj hjC hjP
    rw [hnode j]
    simp only [hjC, hjP, if_false]
    rw [if_neg (by omega)]

/-- Witness for C11: in `demoHeap` the child at address `1` (slot `0` of the root) is asked
for a child in direction `2`. -/
theorem splice_rule_witness :
    (1 < demoHeap.size ∧ 0 < demoHeap.size ∧ (0 : Nat) ≠ 1 ∧
      (demoHeap.node 1).parent = some 0 ∧ (demoHeap.node 1).depth ≤ 0) ∧
    ∃ h', addChild (0 + 1) demoHeap 1
        (((demoHeap.node 1).parent_to_here_direction + 2) % 4) 25 = some h' ∧
      h'.size = demoHeap.size + 1 ∧
      (h'.node demoHeap.size).parent_to_here_direction =
        (demoHeap.node 1).parent_to_here_direction ∧
      (h'.node demoHeap.size).depth = (demoHeap.node 1).depth - 1 ∧
      (h'.node 0).children (demoHeap.node 1).parent_to_here_direction = some demoHeap.size ∧
      (h'.node demoHeap.size).parent = some 0 ∧
      (h'.node demoHeap.size).children (demoHeap.node 1).parent_to_here_direction = some 1 ∧
      (∀ k, k ≠ (demoHeap.node 1).parent_to_here_direction →
        (h'.node demoHeap.size).children k = none) ∧
      (h'.node 1).parent = some demoHeap.size ∧
      (∀ k, (h'.node 1).children k = (demoHeap.node 1).children k) ∧
      (∀ k, k ≠ (demoHeap.node 1).parent_to_here_direction →
        (h'.node 0).children k = (demoHeap.node 0).children k) ∧
      (∀ j, j < demoHeap.size → j ≠ 1 → j ≠ 0 → h'.node j = demoHeap.node j) :=
  ⟨⟨by decide, by decide, by decide, by decide, by decide⟩,
    splice_rule demoHeap 1 0 25 0 (by decide) (by decide) (by decide) (by decide) (by decide)⟩

/-- C12 (demotion rule): for every node `C` with `depth ≤ 0` and every direction `D` for
which the reorder condition does not apply (`C` has no parent, or `D` is not
`(C.parent_to_here_direction + 2) % 4`), the call `C.addChild(D, o)` returns after creating
one node `X` (at the fresh address `h.size`) with incoming direction `D`, depth
`C.depth - 1` and parent `C`, held in `C.children[D]`; slot `D` of `X` holds what
`C.children[D]` held before (the earlier child `Y`, or nothing, in which case `X` is a
leaf), the other slots of `X` are empty, the other slots of `C` are unchanged, and every
node other than `C` (so `Y` and everything below it) is unchanged. -/
theorem demotion_rule (h : Heap) (C D : Nat) (o : Int) (fuel : Nat)
    (hC : C < h.size) (hdepth : (h.node C).depth ≤ 0)
    (hord : (h.node C).parent = none ∨ D ≠ ((h.node C).parent_to_here_direction + 2) % 4) :
    ∃ h', addChild (fuel + 1) h C D o = some h' ∧
      h'.size = h.size + 1 ∧
      (h'.node C).children D = some h.size ∧
      (h'.node h.size).parent_to_here_direction = D ∧
      (h'.node h.size).depth = (h.node C).depth - 1 ∧
      (h'.node h.size).parent = some C ∧
      (h'.node h.size).children D = (h.node C).children D ∧
      (∀ k, k ≠ D → (h'.node h.size).children k = none) ∧
      (∀ k, k ≠ D → (h'.node C).children k = (h.node C).children k) ∧
      (∀ j, j < h.size → j ≠ C → h'.node j = h.node j) := by
  obtain ⟨hsz, hnode⟩ := attach_below h C D o hC hord
  have hne1 : h.size ≠ C := by omega
  have hX : (attach h C D o).node h.size = newBelow h C D o := by
    rw [hnode h.size]; simp [hne1]
  have hCn : (attach h C D o).node C = (h.node C).setChild D (some h.size) := by
    rw [hnode C]; simp
  refine ⟨attach h C D o, ?_, hsz, ?_, ?_, ?_, ?_, ?_, ?_, ?_, ?_⟩
  · rw [addChild_succ, hCn]
    simp [Node.setChild, hdepth]
  · rw [hCn]; simp [Node.setChild]
  · rw [hX]; rfl
  · rw [hX]; rfl
  · rw [hX]; rfl
  · rw [hX]; simp [newBelow]
  · intro k hk; rw [hX]; simp [newBelow, hk]
  · intro k hk; rw [hCn]; simp [Node.setChild, hk]
  · intro j hj hjC
    rw [hnode j]
    simp only [hjC, if_false]
    rw [if_neg (by omega)]

/-- Witness for C12: in `demoHeap` the root, which already holds the node at address `1` in
slot `0`, is asked again for a child in direction `0`. -/
theorem demotion_rule_witness :
    (0 < demoHeap.size ∧ (demoHeap.node 0).depth ≤ 0 ∧
      ((demoHeap.node 0).parent = none ∨
        (0 : Nat) ≠ ((demoHeap.node 0).parent_to_here_direction + 2) % 4)) ∧
    ∃ h', addChild (0 + 1) demoHeap 0 0 50 = some h' ∧
      h'.size = demoHeap.size + 1 ∧
      (h'.node 0).children 0 = some demoHeap.size ∧
      (h'.node demoHeap.size).parent_to_here_direction = 0 ∧
      (h'.node demoHeap.size).depth = (demoHeap.node 0).depth - 1 ∧
      (h'.node demoHeap.size).parent = some 0 ∧
      (h'.node demoHeap.size).children 0 = (demoHeap.node 0).children 0 ∧
      (∀ k, k ≠ 0 → (h'.node demoHeap.size).children k = none) ∧
      (∀ k, k ≠ 0 → (h'.node 0).children k = (demoHeap.node 0).children k) ∧
      (∀ j, j < demoHeap.size → j ≠ 0 → h'.node j = demoHeap.node j) :=
  ⟨⟨by decide, by decide, Or.inl (by decide)⟩,
    demotion_rule demoHeap 0 0 50 0 (by decide) (by decide) (Or.inl (by decide))⟩

/-- C13 (as stated) fails: the root at `(0,0)` with depth `1` is asked for a child in
direction `0`; the new node (address `1`) has depth `0`, which is not `> 0`, and yet the four
recursive insertions are performed: the heap grows to `6` nodes and the new node receives
children. -/
theorem recursion_guard_counterexample :
    (addChild 2 (getRoot ⟨0, 0⟩ 1) 0 0 50).map (fun h =>
        ((h.node 1).depth, h.size, (h.node 1).children 0, (h.node 1).children 1,
          (h.node 1).children 3)) = some (0, 6, some 2, some 3, some 5) ∧
      ¬ ((0 : Int) > 0) := by
  decide

/-- C13 (amended): on every heap with valid `parent` pointers, for every node `C`,
direction `D` and offset `o`, the node `X` attached by `C.addChild(D, o)` has depth
`C.depth - 1`; when the depth of `X` is negative (`C.depth ≤ 0`) the call returns right
after attaching, so `X` receives no children from it; when the depth of `X` is `≥ 0`
(`C.depth > 0`, which includes depth `0`) the four recursive insertions
`X.addChild(0..3, o / 2)` are performed, in this order, and each of them returns and
allocates at least one node. -/
theorem addChild_recursion_guard (h : Heap) (C D : Nat) (o : Int) (fuel : Nat)
    (hC : C < h.size) (hv : h.ParentsValid) (hfuel : (h.node C).depth.toNat < fuel + 1) :
    ((attach h C D o).node h.size).depth = (h.node C).depth - 1 ∧
    (((attach h C D o).node h.size).depth < 0 →
      addChild (fuel + 1) h C D o = some (attach h C D o)) ∧
    (0 ≤ ((attach h C D o).node h.size).depth →
      ∃ h2 h3 h4 h5,
        addChild fuel (attach h C D o) h.size 0 (o.tdiv 2) = some h2 ∧
        addChild fuel h2 h.size 1 (o.tdiv 2) = some h3 ∧
        addChild fuel h3 h.size 2 (o.tdiv 2) = some h4 ∧
        addChild fuel h4 h.size 3 (o.tdiv 2) = some h5 ∧
        addChild (fuel + 1) h C D o = some h5 ∧
        (attach h C D o).size < h2.size ∧ h2.size < h3.size ∧ h3.size < h4.size ∧
        h4.size < h5.size) := by
  obtain ⟨hsz, hsame, _, hdep, hv1⟩ := attach_general h C D o hC hv
  have hd0 : ((attach h C D o).node C).depth = (h.node C).depth := (hsame C hC).1
  refine ⟨hdep, ?_, ?_⟩
  · intro hneg
    rw [addChild_succ, hd0]
    have : (h.node C).depth ≤ 0 := by rw [hdep] at hneg; omega
    simp [this]
  · intro hpos
    rw [hdep] at hpos
    have hnew : h.size < (attach h C D o).size := by omega
    have hf1 : ((attach h C D o).node h.size).depth.toNat < fuel := by
      rw [hdep]; omega
    obtain ⟨h2, e2, s2, f2, _, _, v2⟩ :=
      addChild_general fuel (attach h C D o) h.size 0 (o.tdiv 2) hnew hv1 hf1
    have g2 := f2 h.size hnew
    obtain ⟨h3, e3, s3, f3, _, _, v3⟩ :=
      addChild_general fuel h2 h.size 1 (o.tdiv 2) (by omega) v2 (by rw [g2.1]; exact hf1)
    have g3 := Node.sameFields_trans (f3 h.size (by omega)) g2
    obtain ⟨h4, e4, s4, f4, _, _, v4⟩ :=
      addChild_general fuel h3 h.size 2 (o.tdiv 2) (by omega) v3 (by rw [g3.1]; exact hf1)
    have g4 := Node.sameFields_trans (f4 h.size (by omega)) g3
    obtain ⟨h5, e5, s5, _, _, _, _⟩ :=
      addChild_general fuel h4 h.size 3 (o.tdiv 2) (by omega) v4 (by rw [g4.1]; exact hf1)
    refine ⟨h2, h3, h4, h5, e2, e3, e4, e5, ?_, s2, s3, s4, s5⟩
    rw [addChild_succ, hd0]
    have : ¬ (h.node C).depth ≤ 0 := by omega
    simp [this, addChildren, e2, e3, e4, e5]

/-- Witness for the amended C13: the root at `(0,0)` with depth `1`, direction `0`, offset
`50`, fuel `2`. -/
theorem addChild_recursion_guard_witness :
    (0 < (getRoot ⟨0, 0⟩ 1).size ∧ (getRoot ⟨0, 0⟩ 1).ParentsValid ∧
      ((getRoot ⟨0, 0⟩ 1).node 0).depth.toNat < 1 + 1) ∧
    (((attach (getRoot ⟨0, 0⟩ 1) 0 0 50).node (getRoot ⟨0, 0⟩ 1).size).depth =
        ((getRoot ⟨0, 0⟩ 1).node 0).depth - 1 ∧
    (((attach (getRoot ⟨0, 0⟩ 1) 0 0 50).node (getRoot ⟨0, 0⟩ 1).size).depth < 0 →
      addChild (1 + 1) (getRoot ⟨0, 0⟩ 1) 0 0 50 = some (attach (getRoot ⟨0, 0⟩ 1) 0 0 50)) ∧
    (0 ≤ ((attach (getRoot ⟨0, 0⟩ 1) 0 0 50).node (getRoot ⟨0, 0⟩ 1).size).depth →
      ∃ h2 h3 h4 h5,
        addChild 1 (attach (getRoot ⟨0, 0⟩ 1) 0 0 50) (getRoot ⟨0, 0⟩ 1).size 0
          ((50 : Int).tdiv 2) = some h2 ∧
        addChild 1 h2 (getRoot ⟨0, 0⟩ 1).size 1 ((50 : Int).tdiv 2) = some h3 ∧
        addChild 1 h3 (getRoot ⟨0, 0⟩ 1).size 2 ((50 : Int).tdiv 2) = some h4 ∧
        addChild 1 h4 (getRoot ⟨0, 0⟩ 1).size 3 ((50 : Int).tdiv 2) = some h5 ∧
        addChild (1 + 1) (getRoot ⟨0, 0⟩ 1) 0 0 50 = some h5 ∧
        (attach (getRoot ⟨0, 0⟩ 1) 0 0 50).size < h2.size ∧ h2.size < h3.size ∧
        h3.size < h4.size ∧ h4.size < h5.size)) :=
  ⟨⟨by decide, getRoot_parentsValid _ _, by decide⟩,
    addChild_recursion_guard (getRoot ⟨0, 0⟩ 1) 0 0 50 1 (by decide)
      (getRoot_parentsValid _ _) (by decide)⟩

/-- C19 (slot/direction consistency): for every center, radius and depth `d ≥ 0`, every node
stored in child slot `D` of any node has `parent_to_here_direction = D`: in the heap that
holds only the root; after every `attach` step (the pointer surgery of `addChild`, in both
its branches) and after every `addChild` call that starts from a consistent heap; hence in
the heap and the tree left by the four `root.addChild` calls; and `prune` (the promotion of
the front grandchild) preserves it on any tree, so it holds in the pruned tree. -/
theorem slot_direction_consistent (c : Point) (r d : Int) (hd : 0 ≤ d) :
    (getRoot c d).SlotConsistent ∧
    (∀ (h : Heap) (this D : Nat) (o : Int), this < h.size → h.ParentsValid →
      h.SlotConsistent → (attach h this D o).SlotConsistent) ∧
    (∀ (fuel : Nat) (h : Heap) (this D : Nat) (o : Int) (h' : Heap), this < h.size →
      h.ParentsValid → h.SlotConsistent → addChild fuel h this D o = some h' →
      h'.SlotConsistent) ∧
    (∀ t : Tree, t.SlotsMatch → (prune t).SlotsMatch) ∧
    ∃ hp raw T, build c r d = some hp ∧ hp.SlotConsistent ∧
      buildTree c r d = some raw ∧ construct c r d = some T ∧
      raw.SlotsMatch ∧ T.SlotsMatch := by
  obtain ⟨n, rfl⟩ := Int.eq_ofNat_of_zero_le hd
  obtain ⟨hp, hb, _, _⟩ := build_spec c r n
  refine ⟨getRoot_slotConsistent c n, attach_slotConsistent,
    fun fuel h this D o h' h1 h2 h3 h4 =>
      (addChild_slotConsistent fuel h this D o h' h1 h2 h3 h4).1,
    prune_slotsMatch, hp, specTree c r n, prune (specTree c r n), hb,
    build_slotConsistent c r n hp hb, buildTree_eq c r n, construct_eq c r n,
    specTree_slotsMatch c r n, prune_slotsMatch _ (specTree_slotsMatch c r n)⟩

/-- Witness for C19 at center `(0,0)`, radius `100`, depth `2`. -/
theorem slot_direction_consistent_witness :
    (0 : Int) ≤ 2 ∧
    ((getRoot ⟨0, 0⟩ 2).SlotConsistent ∧
    (∀ (h : Heap) (this D : Nat) (o : Int), this < h.size → h.ParentsValid →
      h.SlotConsistent → (attach h this D o).SlotConsistent) ∧
    (∀ (fuel : Nat) (h : Heap) (this D : Nat) (o : Int) (h' : Heap), this < h.size →
      h.ParentsValid → h.SlotConsistent → addChild fuel h this D o = some h' →
      h'.SlotConsistent) ∧
    (∀ t : Tree, t.SlotsMatch → (prune t).SlotsMatch) ∧
    ∃ hp raw T, build ⟨0, 0⟩ 100 2 = some hp ∧ hp.SlotConsistent ∧
      buildTree ⟨0, 0⟩ 100 2 = some raw ∧ construct ⟨0, 0⟩ 100 2 = some T ∧
      raw.SlotsMatch ∧ T.SlotsMatch) :=
  ⟨by decide, slot_direction_consistent ⟨0, 0⟩ 100 2 (by decide)⟩


/-! ## The debug check looks one level deep -/

/-- C18: `debugCheck` looks at the children of the node it is called on only: it succeeds
exactly when no child of the root has a child in the direction opposite to the slot that
holds it.  It does not descend: on `deepViolation`, where a grandchild of the root holds a
child in the direction opposite to its own incoming direction, it succeeds. -/
theorem debugCheck_not_recursive :
    (∀ (e : Int) (m : Point) (p : Nat) (c0 c1 c2 c3 : Tree),
      debugCheck (.node e m p c0 c1 c2 c3) = true ↔
        ∀ k, k < 4 → ((Tree.node e m p c0 c1 c2 c3).child k).isNull = false →
          (((Tree.node e m p c0 c1 c2 c3).child k).child ((k + 2) % 4)).isNull = true) ∧
    debugCheck deepViolation = true ∧
    ¬ (∀ N ∈ deepViolation.properNodes, (N.child ((N.pth + 2) % 4)).isNull = true) := by
  refine ⟨?_, by decide, ?_⟩
  · intro e m p c0 c1 c2 c3
    simp only [debugCheck, Bool.and_eq_true, DIRECTION_COUNT]
    constructor
    · rintro ⟨⟨⟨h0, h1⟩, h2⟩, h3⟩ k hk hn
      interval_cases k <;> simp only [Tree.child] at hn ⊢
      · simpa [hn] using h0
      · simpa [hn] using h1
      · simpa [hn] using h2
      · simpa [hn] using h3
    · intro h
      have h0 := h 0 (by omega)
      have h1 := h 1 (by omega)
      have h2 := h 2 (by omega)
      have h3 := h 3 (by omega)
      simp only [Tree.child] at h0 h1 h2 h3
      refine ⟨⟨⟨?_, ?_⟩, ?_⟩, ?_⟩
      · rcases Bool.eq_false_or_eq_true c0.isNull with hn | hn
        · simp [hn]
        · simpa [hn] using h0 hn
      · rcases Bool.eq_false_or_eq_true c1.isNull with hn | hn
        · simp [hn]
        · simpa [hn] using h1 hn
      · rcases Bool.eq_false_or_eq_true c2.isNull with hn | hn
        · simp [hn]
        · simpa [hn] using h2 hn
      · rcases Bool.eq_false_or_eq_true c3.isNull with hn | hn
        · simp [hn]
        · simpa [hn] using h3 hn
  · intro h
    have := h (.node (-1) ⟨-2, 6⟩ 1 .null .null .null
        (.node (-2) ⟨-3, 5⟩ 3 .null .null .null .null)) (by decide)
    revert this
    decide

/-! ## Depth values along edges -/

/-- C14 (as stated) fails: with center `(0,0)`, radius `100` and depth `1`, the tree built
by the four `root.addChild` calls holds in slot `0` of the root a node of depth `-1` whose
child in slot `0` has depth `0`; with depth `2` the same happens in the tree returned by
the constructor, where the node of depth `0` in slot `0` of the root holds a child of
depth `1` in its slot `0`. -/
theorem depth_decreasing_counterexample :
    (∃ raw, buildTree ⟨0, 0⟩ 100 1 = some raw ∧
      (raw.child 0) ∈ raw.nodes ∧ ((raw.child 0).child 0).isNull = false ∧
      (raw.child 0).depth = -1 ∧ ((raw.child 0).child 0).depth = 0) ∧
    (∃ T, construct ⟨0, 0⟩ 100 2 = some T ∧
      (T.child 0) ∈ T.nodes ∧ ((T.child 0).child 0).isNull = false ∧
      (T.child 0).depth = 0 ∧ ((T.child 0).child 0).depth = 1 ∧
      ¬ (∀ P ∈ T.nodes, ∀ k, k < 4 → (P.child k).isNull = false →
          (P.child k).depth < P.depth)) := by
  refine ⟨⟨_, buildTree_eq ⟨0, 0⟩ 100 1, by decide, by decide, by decide, by decide⟩,
    ⟨_, construct_eq ⟨0, 0⟩ 100 2, by decide, by decide, by decide, by decide, ?_⟩⟩
  intro h
  have := h ((prune (specTree ⟨0, 0⟩ 100 2)).child 0) (by decide) 0 (by decide) (by decide)
  revert this
  decide

/-- C14 (amended): for every center, radius and depth `d ≥ 0`, in the tree built by the
four `root.addChild` calls and in the tree returned by the constructor, the depth value
strictly decreases along every parent-child edge that leaves the parent `P` through a slot
other than `P`'s own incoming direction (for the root, whose incoming direction is no slot:
along every edge). -/
theorem depth_decreases_off_front (c : Point) (r d : Int) (hd : 0 ≤ d) :
    ∃ raw T, buildTree c r d = some raw ∧ construct c r d = some T ∧
      (∀ P ∈ raw.nodes, ∀ k, k < 4 → k ≠ P.pth → (P.child k).isNull = false →
        (P.child k).depth < P.depth) ∧
      (∀ P ∈ T.nodes, ∀ k, k < 4 → k ≠ P.pth → (P.child k).isNull = false →
        (P.child k).depth < P.depth) ∧
      raw.pth = DIRECTION_COUNT ∧ T.pth = DIRECTION_COUNT := by
  obtain ⟨n, rfl⟩ := Int.eq_ofNat_of_zero_le hd
  refine ⟨specTree c r n, prune (specTree c r n), buildTree_eq c r n, construct_eq c r n,
    ?_, ?_, rfl, ?_⟩
  · intro P hP k hk hne hnn
    exact (specTree_sideDepths c r n P hP k hk hne hnn).1
  · intro P' hP' k hk hne hnn
    obtain ⟨P, hP, rfl⟩ := prune_nodes_image _ P' hP'
    rw [prune_pth] at hne
    rw [prune_child P k hk] at hnn ⊢
    rw [pruneSlot_isNull] at hnn
    rw [prune_depth]
    exact (specTree_sideDepths c r n P hP k hk hne hnn).2
  · rw [prune_pth]; rfl

/-- Witness for the amended C14 at center `(0,0)`, radius `100`, depth `2`. -/
theorem depth_decreases_off_front_witness :
    (0 : Int) ≤ 2 ∧ ∃ raw T, buildTree ⟨0, 0⟩ 100 2 = some raw ∧
      construct ⟨0, 0⟩ 100 2 = some T ∧
      (∀ P ∈ raw.nodes, ∀ k, k < 4 → k ≠ P.pth → (P.child k).isNull = false →
        (P.child k).depth < P.depth) ∧
      (∀ P ∈ T.nodes, ∀ k, k < 4 → k ≠ P.pth → (P.child k).isNull = false →
        (P.child k).depth < P.depth) ∧
      raw.pth = DIRECTION_COUNT ∧ T.pth = DIRECTION_COUNT :=
  ⟨by decide, depth_decreases_off_front ⟨0, 0⟩ 100 2 (by decide)⟩

/-! ## No pass-through node survives -/

/-- C16: for every center, radius and depth `d ≥ 0`, the constructor returns a tree in
which no pass-through node remains after the single `root.prune()` pass: no node `C` holds
in a slot `D` a child `X` that has a child in slot `D` and none in slots `(D + 1) mod 4`
and `(D + 3) mod 4`. -/
theorem no_pass_through_after_prune (c : Point) (r d : Int) (hd : 0 ≤ d) :
    ∃ T, construct c r d = some T ∧
      ∀ C ∈ T.nodes, ∀ D, D < 4 → (C.child D).isNull = false →
        ¬ (((C.child D).child D).isNull = false ∧
            ((C.child D).child ((D + 1) % 4)).isNull = true ∧
            ((C.child D).child ((D + 3) % 4)).isNull = true) := by
  obtain ⟨n, rfl⟩ := Int.eq_ofNat_of_zero_le hd
  refine ⟨prune (specTree c r n), construct_eq c r n, ?_⟩
  intro C' hC' D hD hnn hpt
  obtain ⟨C, hC, rfl⟩ := prune_nodes_image _ C' hC'
  rw [prune_child C D hD] at hnn hpt
  rw [pruneSlot_isNull] at hnn
  have hs := specTree_settled c r n C hC D hD hnn
  unfold passThrough at hs
  simp only [DIRECTION_COUNT] at hs
  simp [hpt.1, hpt.2.1, hpt.2.2] at hs

/-- Witness for C16 at center `(0,0)`, radius `100`, depth `3`. -/
theorem no_pass_through_after_prune_witness :
    (0 : Int) ≤ 3 ∧ ∃ T, construct ⟨0, 0⟩ 100 3 = some T ∧
      ∀ C ∈ T.nodes, ∀ D, D < 4 → (C.child D).isNull = false →
        ¬ (((C.child D).child D).isNull = false ∧
            ((C.child D).child ((D + 1) % 4)).isNull = true ∧
            ((C.child D).child ((D + 3) % 4)).isNull = true) :=
  ⟨by decide, no_pass_through_after_prune ⟨0, 0⟩ 100 3 (by decide)⟩

/-! ## Deleted nodes lie on the path -/

/-- C17: for every center, radius `r ≥ 0` and depth `d ≥ 0`, every node `X` that
`root.prune()` deletes during construction lies on the closed straight segment from the
node `C` that holds it (in slot `D`) to its front child `F` (its child in slot `D`, which
takes its place): the three positions are collinear and each coordinate of `X` is within
the range of the two endpoints.  The deletion events name exactly the deleted nodes. -/
theorem removed_node_on_segment (c : Point) (r d : Int) (hr : 0 ≤ r) (hd : 0 ≤ d) :
    ∃ raw, buildTree c r d = some raw ∧ construct c r d = some (prune raw) ∧
      (pruneEvents raw).map (fun ev => ev.removed) = pruneRemoved raw ∧
      ∀ ev ∈ pruneEvents raw,
        (ev.removed.child ev.child_dir).isNull = false ∧
        onSegment ev.holder ev.removed.middle (ev.removed.child ev.child_dir).middle := by
  obtain ⟨n, rfl⟩ := Int.eq_ofNat_of_zero_le hd
  refine ⟨specTree c r n, buildTree_eq c r n, construct_eq c r n, pruneEvents_removed _, ?_⟩
  intro ev hev
  obtain ⟨C, hC, hh, hk, hX, hp⟩ := pruneEvents_sound _ ev hev
  refine ⟨(passThrough_front _ _ hp).1, ?_⟩
  have := specTree_straight c r n hr C hC ev.child_dir hk (by rw [← hX]; exact hp)
  rw [hh, hX]
  exact this

/-- Witness for C17 at center `(0,0)`, radius `100`, depth `2`. -/
theorem removed_node_on_segment_witness :
    (0 : Int) ≤ 100 ∧ (0 : Int) ≤ 2 ∧
    ∃ raw, buildTree ⟨0, 0⟩ 100 2 = some raw ∧ construct ⟨0, 0⟩ 100 2 = some (prune raw) ∧
      (pruneEvents raw).map (fun ev => ev.removed) = pruneRemoved raw ∧
      ∀ ev ∈ pruneEvents raw,
        (ev.removed.child ev.child_dir).isNull = false ∧
        onSegment ev.holder ev.removed.middle (ev.removed.child ev.child_dir).middle :=
  ⟨by decide, by decide, removed_node_on_segment ⟨0, 0⟩ 100 2 (by decide) (by decide)⟩

/-! ## Pruning and the walk -/

/-- C20: for every center, radius and depth `d ≥ 0`, the position sequence `walk` emits on
the tree returned by the constructor is an order-preserving sublist of the sequence it
emits on the tree before `root.prune()`, and the visits left out are exactly two visits at
the position of each deleted node: the sequence before pruning is a rearrangement of the
sequence after pruning followed by the positions of the deleted nodes, twice. -/
theorem prune_preserves_walk_order (c : Point) (r d : Int) (hd : 0 ≤ d) :
    ∃ raw, buildTree c r d = some raw ∧ construct c r d = some (prune raw) ∧
      List.Sublist (walkSeq (prune raw)) (walkSeq raw) ∧
      List.Perm (walkSeq raw)
        (walkSeq (prune raw) ++ ((pruneRemoved raw).map Tree.middle ++
          (pruneRemoved raw).map Tree.middle)) ∧
      (walkSeq raw).length = (walkSeq (prune raw)).length + 2 * (pruneRemoved raw).length := by
  obtain ⟨n, rfl⟩ := Int.eq_ofNat_of_zero_le hd
  obtain ⟨hs, hc⟩ := prune_walkList _ (specTree_childrenLinked c r n)
  have hperm : List.Perm (walkList (specTree c r n))
      (walkList (prune (specTree c r n)) ++
        ((pruneRemoved (specTree c r n)).map Tree.middle ++
          (pruneRemoved (specTree c r n)).map Tree.middle)) := by
    rw [List.perm_iff_count]
    intro a
    rw [hc a]
    simp only [List.count_append]
    omega
  refine ⟨specTree c r n, buildTree_eq c r n, construct_eq c r n, ?_, ?_, ?_⟩
  · rw [walkSeq_eq_walkList, walkSeq_eq_walkList]; exact hs
  · rw [walkSeq_eq_walkList, walkSeq_eq_walkList]; exact hperm
  · rw [walkSeq_eq_walkList, walkSeq_eq_walkList, hperm.length_eq]
    simp only [List.length_append, List.length_map]
    omega

/-- Witness for C20 at center `(0,0)`, radius `100`, depth `2`. -/
theorem prune_preserves_walk_order_witness :
    (0 : Int) ≤ 2 ∧
    ∃ raw, buildTree ⟨0, 0⟩ 100 2 = some raw ∧ construct ⟨0, 0⟩ 100 2 = some (prune raw) ∧
      List.Sublist (walkSeq (prune raw)) (walkSeq raw) ∧
      List.Perm (walkSeq raw)
        (walkSeq (prune raw) ++ ((pruneRemoved raw).map Tree.middle ++
          (pruneRemoved raw).map Tree.middle)) ∧
      (walkSeq raw).length = (walkSeq (prune raw)).length + 2 * (pruneRemoved raw).length :=
  ⟨by decide, prune_preserves_walk_order ⟨0, 0⟩ 100 2 (by decide)⟩

/-! ## The walk crosses every edge twice -/

/-- C15: for every tree, the sequence of nodes visited by `walk` (each named by its path
from the root; the positions `walk` emits are the positions of these nodes) starts and ends
at the root, visits nodes of the tree only, every two consecutive visits are the two
endpoints of one parent-child edge, and every edge is crossed exactly twice: exactly once
from parent to child and exactly once from child back to parent. -/
theorem walk_crosses_each_edge_twice (t : Tree) (ht : t.isNull = false) :
    walkSeq t = (walkPaths t).map (fun p => (t.descend p).middle) ∧
    (walkPaths t).head? = some [] ∧ (walkPaths t).getLast? = some [] ∧
    (∀ p ∈ walkPaths t, (∀ j ∈ p, j < 4) ∧ (t.descend p).isNull = false) ∧
    (∀ s ∈ consecutive (walkPaths t), t.IsEdge s.1 s.2 ∨ t.IsEdge s.2 s.1) ∧
    (∀ p q, t.IsEdge p q →
      (consecutive (walkPaths t)).count (p, q) = 1 ∧
      (consecutive (walkPaths t)).count (q, p) = 1) := by
  obtain ⟨⟨W, hW⟩, ⟨A, hA⟩⟩ := walkPaths_ends t ht
  refine ⟨?_, ?_, ?_, walkPaths_nodes t, walk_steps_edges t, walk_edge_counts t⟩
  · rw [walkSeq_eq_walkList]; exact walkList_eq_map_walkPaths t
  · rw [hW]; rfl
  · rw [hA]; simp

/-- Witness for C15 on the tree built for center `(0,0)`, radius `100`, depth `1`. -/
theorem walk_crosses_each_edge_twice_witness :
    (specTree ⟨0, 0⟩ 100 1).isNull = false ∧
    walkSeq (specTree ⟨0, 0⟩ 100 1) =
      (walkPaths (specTree ⟨0, 0⟩ 100 1)).map
        (fun p => ((specTree ⟨0, 0⟩ 100 1).descend p).middle) ∧
    (walkPaths (specTree ⟨0, 0⟩ 100 1)).head? = some [] ∧
    (walkPaths (specTree ⟨0, 0⟩ 100 1)).getLast? = some [] ∧
    (∀ p ∈ walkPaths (specTree ⟨0, 0⟩ 100 1),
      (∀ j ∈ p, j < 4) ∧ ((specTree ⟨0, 0⟩ 100 1).descend p).isNull = false) ∧
    (∀ s ∈ consecutive (walkPaths (specTree ⟨0, 0⟩ 100 1)),
      (specTree ⟨0, 0⟩ 100 1).IsEdge s.1 s.2 ∨ (specTree ⟨0, 0⟩ 100 1).IsEdge s.2 s.1) ∧
    (∀ p q, (specTree ⟨0, 0⟩ 100 1).IsEdge p q →
      (consecutive (walkPaths (specTree ⟨0, 0⟩ 100 1))).count (p, q) = 1 ∧
      (consecutive (walkPaths (specTree ⟨0, 0⟩ 100 1))).count (q, p) = 1) :=
  ⟨by decide, walk_crosses_each_edge_twice (specTree ⟨0, 0⟩ 100 1) (by decide)⟩
end SpaceFillingTree
